import Mathlib

/-!
# MagicPhotos image editors: a verification development

Shallow embedding of the pixel algorithms, the undo log and the
preview-generation protocol of `pixelateeditor.cpp` and `retoucheditor.cpp`,
followed by theorems about them.

Conventions of the embedding:

* `int` values are `Int` (or `Nat` where the source only ever adds
  non-negative quantities); C++ `/` is `Int.tdiv`, `>>` is `>>>`, a store into
  an `unsigned char` is `% 256`.  The arithmetic is exact: with the coefficients
  1..16 of the blur and with images of up to 8 megapixels (the editors load at
  most one megapixel) no intermediate value leaves the range of a 32-bit `int`.
* a `QImage` is its size and a total pixel store addressed by `(x, y)`;
  `pixel` / `setPixel` check the bounds the way Qt does, and `setPixel` stores
  the `QRgb` value as it is, as a 32-bit ARGB image does.
* a counted `for` loop whose bounds the body does not modify is `forLoop`.
* signals are appended to the field `Emitted` of the emitting object; generator
  threads that were started and have not delivered yet are the field `Workers`.
* the integers that `ChangeImageAt` computes from the floating-point view scale
  (`img_center_x`, `img_center_y`, `radius`) are arguments of the model.
* the mouse events of the retouch editor are modelled for a view that shows the
  image at scale 1 and a pointer on whole pixels.
* a `QString` is the list of its characters; `QImage::save` is an argument of
  `saveImage`.
-/

namespace MagicPhotos

/-! ## Part 1: definitions -/

/-- The loop `for (int v = lo; v < hi; v++) body(v)`, for bounds that the body
leaves alone: it runs `hi - lo` times (no times when `hi ≤ lo`). -/
def forLoop {σ : Type} (lo hi : Int) (body : Int → σ → σ) (init : σ) : σ :=
  (List.range (hi - lo).toNat).foldl (fun st (k : Nat) => body (lo + (k : Int)) st) init

/-- Qt's `QRgb`: an unsigned 32-bit `0xAARRGGBB` value. -/
abbrev QRgb := Nat

/-- Qt's `qRed`: `(rgb >> 16) & 0xff`. -/
def qRed (rgb : QRgb) : Nat := (rgb / 65536) % 256

/-- Qt's `qGreen`: `(rgb >> 8) & 0xff`. -/
def qGreen (rgb : QRgb) : Nat := (rgb / 256) % 256

/-- Qt's `qBlue`: `rgb & 0xff`. -/
def qBlue (rgb : QRgb) : Nat := rgb % 256

/-- Qt's `qAlpha`: `rgb >> 24` of a 32-bit value, hence below 256. -/
def qAlpha (rgb : QRgb) : Nat := (rgb / 16777216) % 256

/-- Qt's `qRgba`: `((a & 0xff) << 24) | ((r & 0xff) << 16) | ((g & 0xff) << 8) | (b & 0xff)`. -/
def qRgba (r g b a : Nat) : QRgb :=
  (a % 256) * 16777216 + (r % 256) * 65536 + (g % 256) * 256 + b % 256

/-- An image: its size and its pixel store.  Only the pixels with
`0 ≤ x < width` and `0 ≤ y < height` are part of the image. -/
structure QImage where
  width : Nat
  height : Nat
  pix : Int → Int → QRgb

namespace QImage

/-- The default-constructed `QImage()`. -/
def null : QImage := { width := 0, height := 0, pix := fun _ _ => 0 }

/-- `QImage::isNull`: the image holds no pixel. -/
def isNull (img : QImage) : Bool := img.width == 0 || img.height == 0

/-- `QImage::valid(x, y)`. -/
def valid (img : QImage) (x y : Int) : Bool :=
  decide (0 ≤ x ∧ x < (img.width : Int) ∧ 0 ≤ y ∧ y < (img.height : Int))

/-- `QImage::pixel(x, y)`; Qt answers 12345 for a coordinate out of range. -/
def pixel (img : QImage) (x y : Int) : QRgb :=
  if img.valid x y then img.pix x y else 12345

/-- `QImage::setPixel(x, y, rgb)`; Qt ignores a coordinate out of range. -/
def setPixel (img : QImage) (x y : Int) (rgb : QRgb) : QImage :=
  if img.valid x y then
    { img with pix := fun a b => if a = x ∧ b = y then rgb else img.pix a b }
  else img

end QImage

/-! ### `PixelateImageGenerator` (pixelateeditor.cpp, lines 431-493) -/

/-- The locals `avg_r`, `avg_g`, `avg_b`, `pixels` of `start`.  They only grow
from 0 by channel values, so `Nat` holds them; each sum is at most
`255 * pixels` (`blockSums_le`), which fits an `int` for every block of up to
8 megapixels. -/
structure BlockSums where
  avg_r : Nat
  avg_g : Nat
  avg_b : Nat
  pixels : Nat

/-- A worker object: the parameters handed over by `setPixelDenom` and
`setInput` before its thread is started. -/
structure PixelateImageGenerator where
  PixelDenom : Int
  InputImage : QImage

namespace PixelateImageGenerator

/-- Lines 459-474: the sums over block `(i, j)`.  The loop conditions
`x < (i + 1) * pix_size && x < width` are the bound `min ((i + 1) * pix_size) width`. -/
def blockSums (pix_size i j : Int) (img : QImage) : BlockSums :=
  forLoop (i * pix_size) (min ((i + 1) * pix_size) img.width) (fun x acc =>
    forLoop (j * pix_size) (min ((j + 1) * pix_size) img.height) (fun y acc =>
      let pixel := img.pixel x y
      { avg_r := acc.avg_r + qRed pixel
        avg_g := acc.avg_g + qGreen pixel
        avg_b := acc.avg_b + qBlue pixel
        pixels := acc.pixels + 1 }) acc) ⟨0, 0, 0, 0⟩

/-- Lines 481-485: every pixel of block `(i, j)` gets the averaged colour and
the alpha it has at that moment. -/
def fillBlock (pix_size i j : Int) (avg_r avg_g avg_b : Nat) (img : QImage) : QImage :=
  forLoop (i * pix_size) (min ((i + 1) * pix_size) img.width) (fun x img =>
    forLoop (j * pix_size) (min ((j + 1) * pix_size) img.height) (fun y img =>
      img.setPixel x y (qRgba avg_r avg_g avg_b (qAlpha (img.pixel x y)))) img) img

/-- Lines 459-486: the body of the two block loops. -/
def pixelateBlock (pix_size i j : Int) (img : QImage) : QImage :=
  let sums := blockSums pix_size i j img
  if sums.pixels ≠ 0 then
    fillBlock pix_size i j (sums.avg_r / sums.pixels) (sums.avg_g / sums.pixels)
      (sums.avg_b / sums.pixels) img
  else img

/-- `PixelateImageGenerator::start`, as the image it hands to `imageReady`.
`none` is the integer division by `PixelDenom = 0`, which delivers nothing. -/
def start (PixelDenom : Int) (InputImage : QImage) : Option QImage :=
  if PixelDenom = 0 then none
  else
    let pixelated_image := InputImage
    let pix_size : Int :=
      if pixelated_image.width > pixelated_image.height
      then Int.tdiv pixelated_image.width PixelDenom
      else Int.tdiv pixelated_image.height PixelDenom
    if pix_size ≠ 0 then
      some (forLoop 0 (Int.tdiv pixelated_image.width pix_size + 1) (fun i img =>
        forLoop 0 (Int.tdiv pixelated_image.height pix_size + 1) (fun j img =>
          pixelateBlock pix_size i j img) img) pixelated_image)
    else some pixelated_image

/-- What a started worker delivers. -/
def run (g : PixelateImageGenerator) : Option QImage := start g.PixelDenom g.InputImage

end PixelateImageGenerator

/-! ### Signals and small Qt value types -/

/-- The signals the editors and generators emit, in the order of emission.
`helperImageReady` is logged without its image (a scaled crop made by Qt). -/
inductive Signal where
  | imageOpened
  | imageOpenFailed
  | imageSaved
  | imageSaveFailed
  | undoAvailabilityChanged (available : Bool)
  | mouseEvent (event_type : Int) (x y : Int)
  | helperImageReady
  | samplingPointValidChanged
  | samplingPointChanged
  | generationStarted
  | generationFinished
  deriving DecidableEq, Repr

/-- Qt's `QPoint`. -/
structure QPoint where
  x : Int
  y : Int
  deriving DecidableEq, Repr

/-- Modelled from the spec: the editor headers other than `blureditor.h` are not
part of the sources; the spec gives the undo capacity N = 4, which is also the
value `blureditor.h` declares for `UNDO_DEPTH`. -/
def UNDO_DEPTH : Nat := 4

/-- The loop `for (i = 0; i < size() - UNDO_DEPTH; i++) remove(0)` of
`SaveUndoImage`, entered with counter `i`: its bound is read again before every
step.  An empty vector stops it, since `0 - UNDO_DEPTH` is negative. -/
def evictOldest (i : Nat) : List QImage → List QImage
  | [] => []
  | img :: rest =>
    if (i : Int) < ((img :: rest).length : Int) - (UNDO_DEPTH : Int) then evictOldest (i + 1) rest
    else img :: rest

/-! ### File names (`saveImage` of both editors) -/

/-- Qt's `QString`, as the list of its characters. -/
abbrev QString := List Char

/-- The text after the last `c` of `s`; `none` when `s` holds no `c`. -/
def afterLast (c : Char) : List Char → Option (List Char)
  | [] => none
  | d :: rest =>
    match afterLast c rest with
    | some t => some t
    | none => if d = c then some rest else none

namespace QFileInfo

/-- `QFileInfo::fileName`: the name without the path, which is the text after the
last `/`. -/
def fileName (file : QString) : QString := (afterLast '/' file).getD file

/-- `QFileInfo::suffix`: all characters of the file name after its last `.`, and
the empty string when it holds none. -/
def suffix (file : QString) : QString := (afterLast '.' (fileName file)).getD []

end QFileInfo

/-- The test `a.compare(b, Qt::CaseInsensitive) == 0`, for a `b` made of the
letters a to z: the two agree once upper-case letters are lowered. -/
def compareCaseInsensitiveIsZero (a b : QString) : Bool :=
  a.map Char.toLower == b.map Char.toLower

/-- Lines 121-125 of pixelateeditor.cpp and 123-127 of retoucheditor.cpp (the same
text): the file name handed to `QImage::save`. -/
def saveFileName (file_name : QString) : QString :=
  if (!compareCaseInsensitiveIsZero (QFileInfo.suffix file_name) "png".toList) &&
      (!compareCaseInsensitiveIsZero (QFileInfo.suffix file_name) "jpg".toList) &&
      (!compareCaseInsensitiveIsZero (QFileInfo.suffix file_name) "bmp".toList)
  then file_name ++ ".jpg".toList
  else file_name

/-! ### `RetouchEditor` (retoucheditor.cpp) -/

/-- The brush test `qSqrt(qPow(dx, 2) + qPow(dy, 2)) <= radius` on integer
offsets: the square root of `dx² + dy²` is at most `radius` exactly when
`radius` is not negative and `dx² + dy² ≤ radius²`. -/
def withinBrush (dx dy radius : Int) : Bool :=
  decide (0 ≤ radius ∧ dx * dx + dy * dy ≤ radius * radius)

/-- The loop `for (a = a0, b = b0; a <= a1 && b <= b1; a++, b++) body(a, b)`
that walks two variables in lock-step. -/
def forLoop2 {σ : Type} (a0 a1 b0 b1 : Int) (body : Int → Int → σ → σ) (init : σ) : σ :=
  (List.range (min (a1 + 1 - a0) (b1 + 1 - b0)).toNat).foldl
    (fun st (k : Nat) => body (a0 + (k : Int)) (b0 + (k : Int)) st) init

/-- Lines 354-361: the clone loops of `ChangeImageAt`, reading and writing the
same `CurrentImage`. -/
def cloneStamp (SamplingPoint : QPoint) (img_center_x img_center_y radius : Int)
    (CurrentImage : QImage) : QImage :=
  forLoop2 (SamplingPoint.x - radius) (SamplingPoint.x + radius)
    (img_center_x - radius) (img_center_x + radius) (fun from_x to_x img =>
      forLoop2 (SamplingPoint.y - radius) (SamplingPoint.y + radius)
        (img_center_y - radius) (img_center_y + radius) (fun from_y to_y img =>
          if from_x ≥ 0 ∧ from_x < (img.width : Int) ∧ from_y ≥ 0 ∧ from_y < (img.height : Int) ∧
              withinBrush (from_x - SamplingPoint.x) (from_y - SamplingPoint.y) radius = true ∧
              to_x ≥ 0 ∧ to_x < (img.width : Int) ∧ to_y ≥ 0 ∧ to_y < (img.height : Int) ∧
              withinBrush (to_x - img_center_x) (to_y - img_center_y) radius = true
          then img.setPixel to_x to_y (img.pixel from_x from_y)
          else img) img) CurrentImage

/-- The table `tab` of line 412, read at index `i`; `none` outside its 17 entries. -/
def tabAt (i : Int) : Option Int :=
  if 0 ≤ i then [14, 10, 8, 6, 5, 5, 4, 3, 3, 3, 3, 2, 2, 2, 2, 2, 2].get? i.toNat else none

/-- Line 413: the smoothing coefficient for `GAUSSIAN_RADIUS`, a constant of the
missing header that is taken as a parameter. -/
def blurAlpha (GAUSSIAN_RADIUS : Int) : Option Int :=
  if GAUSSIAN_RADIUS < 1 then some 16
  else if GAUSSIAN_RADIUS > 17 then some 1
  else tabAt (GAUSSIAN_RADIUS - 1)

/-- The working image `blur_image` (32 bits per pixel, so `bytesPerLine` is
`4 * width` and rows are contiguous), addressed the way the loops do:
`byte row col i` is `(scanLine(row) + col * 4)[i]`. -/
structure BlurImage where
  width : Nat
  height : Nat
  byte : Int → Int → Int → Nat

/-- The locals of the blur loops: the image bytes, the accumulators `rgba[4]`
and the position of the pointer `p` as (row, column). -/
structure BlurState where
  byte : Int → Int → Int → Nat
  rgba : Int → Int
  row : Int
  col : Int

namespace BlurState

/-- The statement `for (i < 4) rgba[i] = p[i] << 4`. -/
def seed (st : BlurState) : BlurState :=
  forLoop 0 4 (fun i st =>
    { st with rgba := Function.update st.rgba i ((st.byte st.row st.col i : Int) * 16) }) st

/-- The statement `for (i < 4) p[i] = (rgba[i] += ((p[i] << 4) - rgba[i]) * alpha / 16) >> 4`;
the result is stored into an `unsigned char`. -/
def smooth (alpha : Int) (st : BlurState) : BlurState :=
  forLoop 0 4 (fun i st =>
    let acc := st.rgba i + Int.tdiv ((((st.byte st.row st.col i : Int) * 16) - st.rgba i) * alpha) 16
    { st with
      rgba := Function.update st.rgba i acc
      byte := fun r c k =>
        if r = st.row ∧ c = st.col ∧ k = i then ((acc >>> (4 : Nat)) % 256).toNat else st.byte r c k }) st

end BlurState

/-- Lines 425-439: the first loop nest. -/
def blurLoop1 (alpha : Int) (r1 r2 c1 c2 : Int) (st : BlurState) : BlurState :=
  forLoop c1 (c2 + 1) (fun col st =>
    let st := { st with row := r1, col := col }
    let st := st.seed
    let st := { st with row := st.row + 1 }
    forLoop r1 r2 (fun _ st =>
      let st := st.smooth alpha
      { st with row := st.row + 1 }) st) st

/-- Lines 441-455: the second loop nest. -/
def blurLoop2 (alpha : Int) (r1 r2 c1 c2 : Int) (st : BlurState) : BlurState :=
  forLoop r1 (r2 + 1) (fun row st =>
    let st := { st with row := row, col := c1 }
    let st := st.seed
    let st := { st with col := st.col + 1 }
    forLoop c1 c2 (fun _ st =>
      let st := st.smooth alpha
      { st with col := st.col + 1 }) st) st

/-- Lines 457-471: the third loop nest. -/
def blurLoop3 (alpha : Int) (r1 r2 c1 c2 : Int) (st : BlurState) : BlurState :=
  forLoop c1 (c2 + 1) (fun col st =>
    let st := { st with row := r2, col := col }
    let st := st.seed
    let st := { st with row := st.row - 1 }
    forLoop r1 r2 (fun _ st =>
      let st := st.smooth alpha
      { st with row := st.row - 1 }) st) st

/-- Lines 473-487: the fourth loop nest. -/
def blurLoop4 (alpha : Int) (r1 r2 c1 c2 : Int) (st : BlurState) : BlurState :=
  forLoop r1 (r2 + 1) (fun row st =>
    let st := { st with row := row, col := c2 }
    let st := st.seed
    let st := { st with col := st.col - 1 }
    forLoop c1 c2 (fun _ st =>
      let st := st.smooth alpha
      { st with col := st.col - 1 }) st) st

/-- Lines 415-487: the blur of `blur_image` with coefficient `alpha`.
`rect()` is `(0, 0, width, height)`, so `r2 = height - 1` and `c2 = width - 1`. -/
def blurPasses (alpha : Int) (blur_image : BlurImage) : BlurImage :=
  let r1 : Int := 0
  let r2 : Int := (blur_image.height : Int) - 1
  let c1 : Int := 0
  let c2 : Int := (blur_image.width : Int) - 1
  let st : BlurState := { byte := blur_image.byte, rgba := fun _ => 0, row := 0, col := 0 }
  let st := blurLoop1 alpha r1 r2 c1 c2 st
  let st := blurLoop2 alpha r1 r2 c1 c2 st
  let st := blurLoop3 alpha r1 r2 c1 c2 st
  let st := blurLoop4 alpha r1 r2 c1 c2 st
  { blur_image with byte := st.byte }

/-- Qt's `QRect`, kept as its corner coordinates like Qt does. -/
structure QRect where
  x1 : Int
  y1 : Int
  x2 : Int
  y2 : Int
  deriving DecidableEq, Repr

namespace QRect

/-- The constructor `QRect(x, y, width, height)`. -/
def ofSize (x y width height : Int) : QRect := ⟨x, y, x + width - 1, y + height - 1⟩

def x (r : QRect) : Int := r.x1
def y (r : QRect) : Int := r.y1
def width (r : QRect) : Int := r.x2 - r.x1 + 1
def height (r : QRect) : Int := r.y2 - r.y1 + 1
/-- `setX` moves the left edge and keeps the right one. -/
def setX (r : QRect) (v : Int) : QRect := { r with x1 := v }
/-- `setY` moves the top edge and keeps the bottom one. -/
def setY (r : QRect) (v : Int) : QRect := { r with y1 := v }
def setWidth (r : QRect) (w : Int) : QRect := { r with x2 := r.x1 + w - 1 }
def setHeight (r : QRect) (h : Int) : QRect := { r with y2 := r.y1 + h - 1 }

end QRect

/-- The Qt services the blur branch of `ChangeImageAt` relies on; they are not
code of this repository and stay abstract. -/
structure QtImaging where
  /-- `image.copy(rect)`. -/
  copy : QImage → QRect → QImage
  /-- `image.copy(rect).convertToFormat(QImage::Format_ARGB32_Premultiplied)`. -/
  copyPremultiplied : QImage → QRect → BlurImage
  /-- `drawImage(rect, image)` on a painter clipped to the ellipse of `rect`. -/
  drawImage : QImage → QRect → QImage → QImage
  /-- The same for the blurred working image. -/
  drawBlurred : QImage → QRect → BlurImage → QImage

/-- The state of a `RetouchEditor`, with the log of emitted signals. -/
structure RetouchEditor where
  IsChanged : Bool
  IsSamplingPointValid : Bool
  IsLastBlurPointValid : Bool
  CurrentMode : Int
  HelperSize : Int
  SamplingPoint : QPoint
  InitialSamplingPoint : QPoint
  InitialTouchPoint : QPoint
  LastBlurPoint : QPoint
  LoadedImage : QImage
  CurrentImage : QImage
  UndoStack : List QImage
  Emitted : List Signal

namespace RetouchEditor

/-- Modelled from the spec: the enumeration `Mode` of the missing
`retoucheditor.h`, numbered in the order Scroll, SamplingPoint, Clone, Blur. -/
def ModeScroll : Int := 0
/-- Modelled from the spec: see `ModeScroll`. -/
def ModeSamplingPoint : Int := 1
/-- Modelled from the spec: see `ModeScroll`. -/
def ModeClone : Int := 2
/-- Modelled from the spec: see `ModeScroll`. -/
def ModeBlur : Int := 3

/-- The constructor. -/
def new : RetouchEditor :=
  { IsChanged := false, IsSamplingPointValid := false, IsLastBlurPointValid := false
    CurrentMode := ModeScroll, HelperSize := 0
    SamplingPoint := ⟨0, 0⟩, InitialSamplingPoint := ⟨0, 0⟩, InitialTouchPoint := ⟨0, 0⟩
    LastBlurPoint := ⟨0, 0⟩, LoadedImage := QImage.null, CurrentImage := QImage.null
    UndoStack := [], Emitted := [] }

def emit (st : RetouchEditor) (s : Signal) : RetouchEditor :=
  { st with Emitted := st.Emitted ++ [s] }

/-- `RetouchEditor::undo` (lines 144-157); `QStack::pop` takes the last element. -/
def undo (st : RetouchEditor) : RetouchEditor :=
  if st.UndoStack.length > 0 then
    match st.UndoStack.getLast? with
    | some top =>
      let st := { st with CurrentImage := top, UndoStack := st.UndoStack.dropLast }
      let st := if st.UndoStack.length = 0 then st.emit (.undoAvailabilityChanged false) else st
      { st with IsChanged := true }
    | none => st
  else st

/-- `RetouchEditor::SaveUndoImage` (lines 322-333); `QStack::push` appends. -/
def SaveUndoImage (st : RetouchEditor) : RetouchEditor :=
  let st := { st with UndoStack := st.UndoStack ++ [st.CurrentImage] }
  let st := if st.UndoStack.length > UNDO_DEPTH
    then { st with UndoStack := evictOldest 0 st.UndoStack } else st
  st.emit (.undoAvailabilityChanged true)

/-- Lines 367-384 and 391-408: a brush rectangle is moved and cut to the image. -/
def clipRect (rect : QRect) (img : QImage) : QRect :=
  let rect := if rect.x ≥ (img.width : Int) then rect.setX ((img.width : Int) - 1) else rect
  let rect := if rect.y ≥ (img.height : Int) then rect.setY ((img.height : Int) - 1) else rect
  let rect := if rect.x < 0 then rect.setX 0 else rect
  let rect := if rect.y < 0 then rect.setY 0 else rect
  let rect := if rect.x + rect.width > (img.width : Int)
    then rect.setWidth ((img.width : Int) - rect.x) else rect
  let rect := if rect.y + rect.height > (img.height : Int)
    then rect.setHeight ((img.height : Int) - rect.y) else rect
  rect

/-- Lines 363-499: the blur branch of `ChangeImageAt` on `CurrentImage`;
`none` would be a read outside `tab`. -/
def blurBrush (qt : QtImaging) (GAUSSIAN_RADIUS : Int) (st : RetouchEditor)
    (img_center_x img_center_y radius : Int) : Option QImage :=
  let last_blur_rect := QRect.ofSize (st.LastBlurPoint.x - radius) (st.LastBlurPoint.y - radius)
    (radius * 2) (radius * 2)
  let last_blur_rect :=
    if st.IsLastBlurPointValid then clipRect last_blur_rect st.CurrentImage else last_blur_rect
  let last_blur_image :=
    if st.IsLastBlurPointValid then qt.copy st.CurrentImage last_blur_rect else QImage.null
  let blur_rect := clipRect
    (QRect.ofSize (img_center_x - radius) (img_center_y - radius) (radius * 2) (radius * 2))
    st.CurrentImage
  let blur_image := qt.copyPremultiplied st.CurrentImage blur_rect
  match blurAlpha GAUSSIAN_RADIUS with
  | none => none
  | some alpha =>
    let blur_image := blurPasses alpha blur_image
    let painted := qt.drawBlurred st.CurrentImage blur_rect blur_image
    some (if st.IsLastBlurPointValid then qt.drawImage painted last_blur_rect last_blur_image
      else painted)

/-- `RetouchEditor::ChangeImageAt` (lines 335-513).  The three integers computed
from the floating-point view scale, `img_center_x`, `img_center_y` and `radius`,
are taken as arguments. -/
def ChangeImageAt (qt : QtImaging) (GAUSSIAN_RADIUS : Int) (save_undo : Bool)
    (img_center_x img_center_y radius : Int) (st : RetouchEditor) : Option RetouchEditor :=
  if st.CurrentMode = ModeClone ∨ st.CurrentMode = ModeBlur then
    let st := if save_undo then st.SaveUndoImage else st
    let painted : Option QImage :=
      if st.CurrentMode = ModeClone then
        some (cloneStamp st.SamplingPoint img_center_x img_center_y radius st.CurrentImage)
      else if st.CurrentMode = ModeBlur then
        blurBrush qt GAUSSIAN_RADIUS st img_center_x img_center_y radius
      else some st.CurrentImage
    painted.map fun img =>
      ({ st with CurrentImage := img, IsChanged := true }).emit .helperImageReady
  else some st

/-- `RetouchEditor::saveImage` (lines 117-142).  `file_name` is `none` for a null
local file name; `save image name` is Qt's `QImage::save`, which answers whether
the file was written.  The result is the new state and the name handed to `save`,
if `save` is reached. -/
def saveImage (save : QImage → QString → Bool) (file_name : Option QString)
    (st : RetouchEditor) : RetouchEditor × Option QString :=
  match file_name with
  | some file_name =>
    if !st.CurrentImage.isNull then
      let file_name := saveFileName file_name
      if save st.CurrentImage file_name then
        (({ st with IsChanged := false }).emit .imageSaved, some file_name)
      else (st.emit .imageSaveFailed, some file_name)
    else (st.emit .imageSaveFailed, none)
  | none => (st.emit .imageSaveFailed, none)

/-- Modelled from the spec: the enumeration `MouseState` of the missing
`retoucheditor.h`, numbered as `blureditor.h` declares it: Pressed, Moved, Released. -/
def MousePressed : Int := 0
/-- Modelled from the spec: see `MousePressed`. -/
def MouseMoved : Int := 1
/-- Modelled from the spec: see `MousePressed`. -/
def MouseReleased : Int := 2

/-- `RetouchEditor::setMode` (lines 31-34). -/
def setMode (mode : Int) (st : RetouchEditor) : RetouchEditor :=
  { st with CurrentMode := mode }

/-- `RetouchEditor::setHelperSize` (lines 41-44). -/
def setHelperSize (size : Int) (st : RetouchEditor) : RetouchEditor :=
  { st with HelperSize := size }

/-- `RetouchEditor::openImage` (lines 61-115); `read` as for
`PixelateEditor.openImage`. -/
def openImage (read : Option QImage) (st : RetouchEditor) : RetouchEditor :=
  match read with
  | none => st.emit .imageOpenFailed
  | some image =>
    let st := { st with LoadedImage := image }
    if !st.LoadedImage.isNull then
      let st := { st with CurrentImage := st.LoadedImage }
      let st := { st with LoadedImage := QImage.null }
      let st := { st with UndoStack := [] }
      let st := { st with IsChanged := false, IsSamplingPointValid := false }
      ((st.emit .samplingPointValidChanged).emit (.undoAvailabilityChanged false)).emit
        .imageOpened
    else st.emit .imageOpenFailed

/-- Lines 207-218, 255-266 and 278-289: a coordinate computed for the sampling
point is brought into the image of extent `size`; the test against the upper
bound comes first, the test against 0 second. -/
def clampCoordinate (v : Int) (size : Nat) : Int :=
  let v := if v ≥ (size : Int) then (size : Int) - 1 else v
  if v < 0 then 0 else v

/-- `RetouchEditor::mousePressEvent` (lines 184-239) for a view that shows the
image at scale 1 and a pointer at the whole-pixel position `(x, y)`;
`BRUSH_SIZE`, a constant of the missing header, is taken as a parameter.
`none` as for `ChangeImageAt`. -/
def mousePressEvent (qt : QtImaging) (GAUSSIAN_RADIUS BRUSH_SIZE : Int) (x y : Int)
    (st : RetouchEditor) : Option RetouchEditor :=
  if st.CurrentMode = ModeSamplingPoint then
    let sampling_point_x := clampCoordinate x st.CurrentImage.width
    let sampling_point_y := clampCoordinate y st.CurrentImage.height
    let st := { st with IsSamplingPointValid := true }
    let st := { st with SamplingPoint := ⟨sampling_point_x, sampling_point_y⟩ }
    some ((st.emit .samplingPointValidChanged).emit .samplingPointChanged)
  else if st.CurrentMode = ModeClone then
    if st.IsSamplingPointValid then
      let st := { st with InitialSamplingPoint := ⟨st.SamplingPoint.x, st.SamplingPoint.y⟩ }
      let st := { st with InitialTouchPoint := ⟨x, y⟩ }
      (ChangeImageAt qt GAUSSIAN_RADIUS true x y BRUSH_SIZE st).map fun st =>
        st.emit (.mouseEvent MousePressed x y)
    else some st
  else if st.CurrentMode = ModeBlur then
    (ChangeImageAt qt GAUSSIAN_RADIUS true x y BRUSH_SIZE st).map fun st =>
      let st := { st with IsLastBlurPointValid := true }
      let st := { st with LastBlurPoint := ⟨x, y⟩ }
      st.emit (.mouseEvent MousePressed x y)
  else some st

/-- `RetouchEditor::mouseMoveEvent` (lines 241-309), under the conditions of
`mousePressEvent`. -/
def mouseMoveEvent (qt : QtImaging) (GAUSSIAN_RADIUS BRUSH_SIZE : Int) (x y : Int)
    (st : RetouchEditor) : Option RetouchEditor :=
  if st.CurrentMode = ModeSamplingPoint then
    let sampling_point_x := clampCoordinate x st.CurrentImage.width
    let sampling_point_y := clampCoordinate y st.CurrentImage.height
    let st := { st with IsSamplingPointValid := true }
    let st := { st with SamplingPoint := ⟨sampling_point_x, sampling_point_y⟩ }
    some ((st.emit .samplingPointValidChanged).emit .samplingPointChanged)
  else if st.CurrentMode = ModeClone then
    if st.IsSamplingPointValid then
      let sampling_point_x := clampCoordinate
        (st.InitialSamplingPoint.x + (x - st.InitialTouchPoint.x)) st.CurrentImage.width
      let sampling_point_y := clampCoordinate
        (st.InitialSamplingPoint.y + (y - st.InitialTouchPoint.y)) st.CurrentImage.height
      let st := { st with SamplingPoint := ⟨sampling_point_x, sampling_point_y⟩ }
      let st := st.emit .samplingPointChanged
      (ChangeImageAt qt GAUSSIAN_RADIUS false x y BRUSH_SIZE st).map fun st =>
        st.emit (.mouseEvent MouseMoved x y)
    else some st
  else if st.CurrentMode = ModeBlur then
    (ChangeImageAt qt GAUSSIAN_RADIUS false x y BRUSH_SIZE st).map fun st =>
      let st := { st with LastBlurPoint := ⟨x, y⟩ }
      st.emit (.mouseEvent MouseMoved x y)
  else some st

/-- `RetouchEditor::mouseReleaseEvent` (lines 311-320). -/
def mouseReleaseEvent (x y : Int) (st : RetouchEditor) : RetouchEditor :=
  if st.CurrentMode = ModeClone then st.emit (.mouseEvent MouseReleased x y)
  else if st.CurrentMode = ModeBlur then
    let st := { st with IsLastBlurPointValid := false }
    st.emit (.mouseEvent MouseReleased x y)
  else st

/-- What can happen to a retouch editor. -/
inductive Event where
  | setMode (mode : Int)
  | setHelperSize (size : Int)
  | openImage (read : Option QImage)
  | saveImage (file_name : Option QString)
  | undo
  | mousePress (x y : Int)
  | mouseMove (x y : Int)
  | mouseRelease (x y : Int)

/-- One event. -/
def step (qt : QtImaging) (GAUSSIAN_RADIUS BRUSH_SIZE : Int) (save : QImage → QString → Bool)
    (st : RetouchEditor) : Event → Option RetouchEditor
  | .setMode mode => some (st.setMode mode)
  | .setHelperSize size => some (st.setHelperSize size)
  | .openImage read => some (st.openImage read)
  | .saveImage file_name => some (st.saveImage save file_name).1
  | .undo => some st.undo
  | .mousePress x y => st.mousePressEvent qt GAUSSIAN_RADIUS BRUSH_SIZE x y
  | .mouseMove x y => st.mouseMoveEvent qt GAUSSIAN_RADIUS BRUSH_SIZE x y
  | .mouseRelease x y => some (st.mouseReleaseEvent x y)

/-- A sequence of events; `none` when one of them cannot happen. -/
def run (qt : QtImaging) (GAUSSIAN_RADIUS BRUSH_SIZE : Int) (save : QImage → QString → Bool)
    (st : RetouchEditor) : List Event → Option RetouchEditor
  | [] => some st
  | e :: es => (st.step qt GAUSSIAN_RADIUS BRUSH_SIZE save e).bind fun st =>
      run qt GAUSSIAN_RADIUS BRUSH_SIZE save st es

end RetouchEditor

/-! ### `PixelateEditor` (pixelateeditor.cpp, lines 9-282) -/

/-- The state of a `PixelateEditor`, with the log of emitted signals and the
generator threads that were started and have not delivered yet. -/
structure PixelateEditor where
  IsChanged : Bool
  CurrentMode : Int
  HelperSize : Int
  PixelDenom : Int
  LoadedImage : QImage
  OriginalImage : QImage
  EffectedImage : QImage
  CurrentImage : QImage
  UndoStack : List QImage
  Emitted : List Signal
  Workers : List PixelateImageGenerator

namespace PixelateEditor

/-- Modelled from the spec: the enumeration `Mode` of the missing
`pixelateeditor.h`, as `blureditor.h` declares it: Scroll, Original, Effected. -/
def ModeScroll : Int := 0
/-- Modelled from the spec: see `ModeScroll`. -/
def ModeOriginal : Int := 1
/-- Modelled from the spec: see `ModeScroll`. -/
def ModeEffected : Int := 2

/-- The constructor (lines 9-20). -/
def new : PixelateEditor :=
  { IsChanged := false, CurrentMode := ModeScroll, HelperSize := 0, PixelDenom := 0
    LoadedImage := QImage.null, OriginalImage := QImage.null, EffectedImage := QImage.null
    CurrentImage := QImage.null, UndoStack := [], Emitted := [], Workers := [] }

def emit (st : PixelateEditor) (s : Signal) : PixelateEditor :=
  { st with Emitted := st.Emitted ++ [s] }

/-- `PixelateEditor::setPixDenom` (lines 51-54). -/
def setPixDenom (pix_denom : Int) (st : PixelateEditor) : PixelateEditor :=
  { st with PixelDenom := pix_denom }

/-- `PixelateEditor::openImage` (lines 61-113).  `read` is `none` when the file
cannot be read at all, else the image that `reader.read()` and the conversion
to the 16-bit format produce (null when they fail). -/
def openImage (read : Option QImage) (st : PixelateEditor) : PixelateEditor :=
  match read with
  | none => st.emit .imageOpenFailed
  | some image =>
    let st := { st with LoadedImage := image }
    if !st.LoadedImage.isNull then
      { st with Workers := st.Workers ++ [⟨st.PixelDenom, st.LoadedImage⟩] }
    else st.emit .imageOpenFailed

/-- `PixelateEditor::undo` (lines 142-155). -/
def undo (st : PixelateEditor) : PixelateEditor :=
  if st.UndoStack.length > 0 then
    match st.UndoStack.getLast? with
    | some top =>
      let st := { st with CurrentImage := top, UndoStack := st.UndoStack.dropLast }
      let st := if st.UndoStack.length = 0 then st.emit (.undoAvailabilityChanged false) else st
      { st with IsChanged := true }
    | none => st
  else st

/-- `PixelateEditor::effectedImageReady` (lines 182-201). -/
def effectedImageReady (effected_image : QImage) (st : PixelateEditor) : PixelateEditor :=
  let st := { st with OriginalImage := st.LoadedImage }
  let st := { st with EffectedImage := effected_image }
  let st := { st with CurrentImage := st.EffectedImage }
  let st := { st with LoadedImage := QImage.null }
  let st := { st with UndoStack := [] }
  let st := { st with IsChanged := true }
  (st.emit (.undoAvailabilityChanged false)).emit .imageOpened

/-- `PixelateEditor::SaveUndoImage` (lines 228-239). -/
def SaveUndoImage (st : PixelateEditor) : PixelateEditor :=
  let st := { st with UndoStack := st.UndoStack ++ [st.CurrentImage] }
  let st := if st.UndoStack.length > UNDO_DEPTH
    then { st with UndoStack := evictOldest 0 st.UndoStack } else st
  st.emit (.undoAvailabilityChanged true)

/-- `PixelateEditor::ChangeImageAt` (lines 241-282), with the integers computed
from the view scale taken as arguments. -/
def ChangeImageAt (save_undo : Bool) (img_center_x img_center_y radius : Int)
    (st : PixelateEditor) : PixelateEditor :=
  if st.CurrentMode ≠ ModeScroll then
    let st := if save_undo then st.SaveUndoImage else st
    let img := forLoop (img_center_x - radius) (img_center_x + radius + 1) (fun x img =>
      forLoop (img_center_y - radius) (img_center_y + radius + 1) (fun y img =>
        if x ≥ 0 ∧ x < (img.width : Int) ∧ y ≥ 0 ∧ y < (img.height : Int) ∧
            withinBrush (x - img_center_x) (y - img_center_y) radius = true then
          if st.CurrentMode = ModeOriginal then img.setPixel x y (st.OriginalImage.pixel x y)
          else img.setPixel x y (st.EffectedImage.pixel x y)
        else img) img) st.CurrentImage
    ({ st with CurrentImage := img, IsChanged := true }).emit .helperImageReady
  else st

/-- The generator thread at position `k` among the running ones finishes: it
leaves the list and its image, if `start` delivers one, reaches the slot
`effectedImageReady`.  `none`: there is no such thread, or it delivers nothing. -/
def workerFinished (k : Nat) (st : PixelateEditor) : Option PixelateEditor :=
  match st.Workers.get? k with
  | none => none
  | some g =>
    g.run.map fun image => effectedImageReady image { st with Workers := st.Workers.eraseIdx k }

/-- `PixelateEditor::saveImage` (lines 115-140); the arguments and the result are
those of `RetouchEditor.saveImage`. -/
def saveImage (save : QImage → QString → Bool) (file_name : Option QString)
    (st : PixelateEditor) : PixelateEditor × Option QString :=
  match file_name with
  | some file_name =>
    if !st.CurrentImage.isNull then
      let file_name := saveFileName file_name
      if save st.CurrentImage file_name then
        (({ st with IsChanged := false }).emit .imageSaved, some file_name)
      else (st.emit .imageSaveFailed, some file_name)
    else (st.emit .imageSaveFailed, none)
  | none => (st.emit .imageSaveFailed, none)

/-- Modelled from the spec: the enumeration `MouseState` of the missing
`pixelateeditor.h`, numbered as `blureditor.h` declares it: Pressed, Moved, Released. -/
def MousePressed : Int := 0
/-- Modelled from the spec: see `MousePressed`. -/
def MouseMoved : Int := 1
/-- Modelled from the spec: see `MousePressed`. -/
def MouseReleased : Int := 2

/-- `PixelateEditor::setMode` (lines 31-34). -/
def setMode (mode : Int) (st : PixelateEditor) : PixelateEditor :=
  { st with CurrentMode := mode }

/-- `PixelateEditor::setHelperSize` (lines 41-44). -/
def setHelperSize (size : Int) (st : PixelateEditor) : PixelateEditor :=
  { st with HelperSize := size }

/-- `PixelateEditor::mousePressEvent` (lines 203-210).  `(x, y)` is the position of
the pointer as the signal carries it; `img_center_x`, `img_center_y` and `radius`
are the integers `ChangeImageAt` computes from that position, `BRUSH_SIZE` and the
view scale. -/
def mousePressEvent (x y img_center_x img_center_y radius : Int) (st : PixelateEditor) :
    PixelateEditor :=
  if st.CurrentMode = ModeOriginal ∨ st.CurrentMode = ModeEffected then
    (st.ChangeImageAt true img_center_x img_center_y radius).emit (.mouseEvent MousePressed x y)
  else st

/-- `PixelateEditor::mouseMoveEvent` (lines 212-219); the arguments are those of
`mousePressEvent`. -/
def mouseMoveEvent (x y img_center_x img_center_y radius : Int) (st : PixelateEditor) :
    PixelateEditor :=
  if st.CurrentMode = ModeOriginal ∨ st.CurrentMode = ModeEffected then
    (st.ChangeImageAt false img_center_x img_center_y radius).emit (.mouseEvent MouseMoved x y)
  else st

/-- `PixelateEditor::mouseReleaseEvent` (lines 221-226). -/
def mouseReleaseEvent (x y : Int) (st : PixelateEditor) : PixelateEditor :=
  if st.CurrentMode = ModeOriginal ∨ st.CurrentMode = ModeEffected then
    st.emit (.mouseEvent MouseReleased x y)
  else st

/-- What can happen to a pixelate editor. -/
inductive Event where
  | setMode (mode : Int)
  | setHelperSize (size : Int)
  | setPixDenom (pix_denom : Int)
  | openImage (read : Option QImage)
  | saveImage (file_name : Option QString)
  | undo
  | workerFinished (k : Nat)
  | mousePress (x y img_center_x img_center_y radius : Int)
  | mouseMove (x y img_center_x img_center_y radius : Int)
  | mouseRelease (x y : Int)

/-- One event. -/
def step (save : QImage → QString → Bool) (st : PixelateEditor) : Event → Option PixelateEditor
  | .setMode mode => some (st.setMode mode)
  | .setHelperSize size => some (st.setHelperSize size)
  | .setPixDenom pix_denom => some (st.setPixDenom pix_denom)
  | .openImage read => some (st.openImage read)
  | .saveImage file_name => some (st.saveImage save file_name).1
  | .undo => some st.undo
  | .workerFinished k => st.workerFinished k
  | .mousePress x y cx cy r => some (st.mousePressEvent x y cx cy r)
  | .mouseMove x y cx cy r => some (st.mouseMoveEvent x y cx cy r)
  | .mouseRelease x y => some (st.mouseReleaseEvent x y)

/-- A sequence of events; `none` when one of them cannot happen. -/
def run (save : QImage → QString → Bool) (st : PixelateEditor) :
    List Event → Option PixelateEditor
  | [] => some st
  | e :: es => (st.step save e).bind fun st => run save st es

end PixelateEditor

/-! ### `PixelatePreviewGenerator` (pixelateeditor.cpp, lines 284-429) -/

/-- The state of a `PixelatePreviewGenerator`, with the log of emitted signals,
the generator threads that were started and have not delivered yet, and the
record of every generator ever started. -/
structure PixelatePreviewGenerator where
  PixelateGeneratorRunning : Bool
  RestartPixelateGenerator : Bool
  PixelDenom : Int
  LoadedImage : QImage
  PixelatedImage : QImage
  Emitted : List Signal
  Workers : List PixelateImageGenerator
  Started : List PixelateImageGenerator

namespace PixelatePreviewGenerator

/-- The constructor (lines 284-291). -/
def new : PixelatePreviewGenerator :=
  { PixelateGeneratorRunning := false, RestartPixelateGenerator := false, PixelDenom := 0
    LoadedImage := QImage.null, PixelatedImage := QImage.null
    Emitted := [], Workers := [], Started := [] }

def emit (st : PixelatePreviewGenerator) (s : Signal) : PixelatePreviewGenerator :=
  { st with Emitted := st.Emitted ++ [s] }

/-- `PixelatePreviewGenerator::StartPixelateGenerator` (lines 408-429). -/
def StartPixelateGenerator (st : PixelatePreviewGenerator) : PixelatePreviewGenerator :=
  let generator : PixelateImageGenerator := ⟨st.PixelDenom, st.LoadedImage⟩
  let st := { st with Workers := st.Workers ++ [generator], Started := st.Started ++ [generator] }
  let st := { st with PixelateGeneratorRunning := true }
  st.emit .generationStarted

/-- `PixelatePreviewGenerator::setPixDenom` (lines 302-313). -/
def setPixDenom (pix_denom : Int) (st : PixelatePreviewGenerator) : PixelatePreviewGenerator :=
  let st := { st with PixelDenom := pix_denom }
  if !st.LoadedImage.isNull then
    if st.PixelateGeneratorRunning then { st with RestartPixelateGenerator := true }
    else st.StartPixelateGenerator
  else st

/-- `PixelatePreviewGenerator::openImage` (lines 315-359); `read` as for
`PixelateEditor.openImage`. -/
def openImage (read : Option QImage) (st : PixelatePreviewGenerator) : PixelatePreviewGenerator :=
  match read with
  | none => st.emit .imageOpenFailed
  | some image =>
    let st := { st with LoadedImage := image }
    if !st.LoadedImage.isNull then
      let st := st.emit .imageOpened
      if st.PixelateGeneratorRunning then { st with RestartPixelateGenerator := true }
      else st.StartPixelateGenerator
    else st.emit .imageOpenFailed

/-- `PixelatePreviewGenerator::pixelatedImageReady` (lines 389-406). -/
def pixelatedImageReady (pixelated_image : QImage) (st : PixelatePreviewGenerator) :
    PixelatePreviewGenerator :=
  let st := { st with PixelateGeneratorRunning := false }
  let st := { st with PixelatedImage := pixelated_image }
  let st := st.emit .generationFinished
  if st.RestartPixelateGenerator then
    let st := st.StartPixelateGenerator
    { st with RestartPixelateGenerator := false }
  else st

/-- The generator thread at position `k` among the running ones finishes and
its image reaches the slot `pixelatedImageReady`; `none` as for
`PixelateEditor.workerFinished`. -/
def workerFinished (k : Nat) (st : PixelatePreviewGenerator) : Option PixelatePreviewGenerator :=
  match st.Workers.get? k with
  | none => none
  | some g =>
    g.run.map fun image => pixelatedImageReady image { st with Workers := st.Workers.eraseIdx k }

/-- What can happen to a preview generator. -/
inductive Event where
  | setPixDenom (pix_denom : Int)
  | openImage (read : Option QImage)
  | workerFinished (k : Nat)

/-- One event. -/
def step (st : PixelatePreviewGenerator) : Event → Option PixelatePreviewGenerator
  | .setPixDenom p => some (st.setPixDenom p)
  | .openImage read => some (st.openImage read)
  | .workerFinished k => st.workerFinished k

/-- A sequence of events; `none` when one of them cannot happen. -/
def run (st : PixelatePreviewGenerator) : List Event → Option PixelatePreviewGenerator
  | [] => some st
  | e :: es => (st.step e).bind fun st => run st es

end PixelatePreviewGenerator

/-! ### The properties in the words of the spec -/

/-- The disc of radius `r` around `(cx, cy)` lies entirely inside `img`. -/
def DiscInside (img : QImage) (cx cy r : Int) : Prop :=
  ∀ dx dy : Int, dx * dx + dy * dy ≤ r * r → img.valid (cx + dx) (cy + dy) = true

/-- The discs of radius `r` around `(sx, sy)` and `(cx, cy)` share no pixel. -/
def DiscsDisjoint (sx sy cx cy r : Int) : Prop :=
  ∀ dx dy ex ey : Int, dx * dx + dy * dy ≤ r * r → ex * ex + ey * ey ≤ r * r →
    ¬ (sx + dx = cx + ex ∧ sy + dy = cy + ey)

/-- The pixelate editor after `SaveUndoImage` has pushed the snapshots `snaps`
one after the other, the current image having taken each value in turn. -/
def PixelateEditor.saveSnapshots (snaps : List QImage) (st : PixelateEditor) : PixelateEditor :=
  snaps.foldl (fun st s => PixelateEditor.SaveUndoImage { st with CurrentImage := s }) st

/-- The retouch editor after `SaveUndoImage` has pushed the snapshots `snaps`
one after the other, the current image having taken each value in turn. -/
def RetouchEditor.saveSnapshots (snaps : List QImage) (st : RetouchEditor) : RetouchEditor :=
  snaps.foldl (fun st s => RetouchEditor.SaveUndoImage { st with CurrentImage := s }) st

/-- Every stored value of the working image is a byte. -/
def BlurImage.IsBytes (b : BlurImage) : Prop := ∀ r c k : Int, b.byte r c k < 256

/-- The recurrence of the spec along one line of samples, seeded by its first
sample: `acc = sample 0 << 4`, then `acc += ((sample << 4) - acc) * alpha / 16`
for each further sample. -/
def emaAcc (alpha : Int) (sample : Nat → Nat) : Nat → Int
  | 0 => (sample 0 : Int) * 16
  | n + 1 =>
    emaAcc alpha sample n + Int.tdiv ((((sample (n + 1) : Int) * 16) - emaAcc alpha sample n) * alpha) 16

/-- The output of the spec along one line: the seeding sample stays, every
further sample becomes `acc >> 4`, stored as a byte. -/
def emaOut (alpha : Int) (sample : Nat → Nat) : Nat → Nat
  | 0 => sample 0
  | n + 1 => ((emaAcc alpha sample (n + 1) >>> (4 : Nat)) % 256).toNat

/-- The bytes a pass touches: the four channels of the pixels of the image. -/
def BlurImage.inside (b : BlurImage) (r c k : Int) : Bool :=
  decide (0 ≤ r ∧ r < (b.height : Int) ∧ 0 ≤ c ∧ c < (b.width : Int) ∧ 0 ≤ k ∧ k < 4)

/-- Spec pass "left to right across every row, seeded by the row's first pixel". -/
def specLeftToRight (alpha : Int) (b : BlurImage) : BlurImage :=
  { width := b.width
    height := b.height
    byte := fun r c k =>
      if b.inside r c k = true then emaOut alpha (fun n => b.byte r (n : Int) k) c.toNat
      else b.byte r c k }

/-- Spec pass "top to bottom across every column, seeded by the column's first pixel". -/
def specTopToBottom (alpha : Int) (b : BlurImage) : BlurImage :=
  { width := b.width
    height := b.height
    byte := fun r c k =>
      if b.inside r c k = true then emaOut alpha (fun n => b.byte (n : Int) c k) r.toNat
      else b.byte r c k }

/-- Spec pass "right to left across every row, seeded by the row's last pixel". -/
def specRightToLeft (alpha : Int) (b : BlurImage) : BlurImage :=
  { width := b.width
    height := b.height
    byte := fun r c k =>
      if b.inside r c k = true then
        emaOut alpha (fun n => b.byte r ((b.width : Int) - 1 - (n : Int)) k)
          ((b.width : Int) - 1 - c).toNat
      else b.byte r c k }

/-- Spec pass "bottom to top across every column, seeded by the column's last pixel". -/
def specBottomToTop (alpha : Int) (b : BlurImage) : BlurImage :=
  { width := b.width
    height := b.height
    byte := fun r c k =>
      if b.inside r c k = true then
        emaOut alpha (fun n => b.byte ((b.height : Int) - 1 - (n : Int)) c k)
          ((b.height : Int) - 1 - r).toNat
      else b.byte r c k }

/-- The composition in the order the spec lists the passes: rows left to right,
columns top to bottom, rows right to left, columns bottom to top. -/
def specBlurListedOrder (alpha : Int) (b : BlurImage) : BlurImage :=
  specBottomToTop alpha (specRightToLeft alpha (specTopToBottom alpha (specLeftToRight alpha b)))

/-- The suffix is one of the three the spec recognises: it equals `png`, `jpg` or
`bmp` when upper-case and lower-case letters are not told apart. -/
def isRecognisedSuffix (s : QString) : Prop :=
  s.map Char.toLower = "png".toList ∨ s.map Char.toLower = "jpg".toList ∨
    s.map Char.toLower = "bmp".toList

instance (s : QString) : Decidable (isRecognisedSuffix s) := by
  unfold isRecognisedSuffix
  infer_instance

/-- The value `v` clamped to `[lo, hi]`. -/
def clamp (v lo hi : Int) : Int := max lo (min v hi)

/-- The sampling point is a pixel of the current image. -/
def RetouchEditor.SamplingPointInside (st : RetouchEditor) : Prop :=
  0 ≤ st.SamplingPoint.x ∧ st.SamplingPoint.x < (st.CurrentImage.width : Int) ∧
  0 ≤ st.SamplingPoint.y ∧ st.SamplingPoint.y < (st.CurrentImage.height : Int)

/-- What is known of Qt's painter: painting onto an image leaves its size as it is. -/
def QtImaging.KeepsSize (qt : QtImaging) : Prop :=
  (∀ img rect b, (qt.drawBlurred img rect b).width = img.width ∧
    (qt.drawBlurred img rect b).height = img.height) ∧
  (∀ img rect i, (qt.drawImage img rect i).width = img.width ∧
    (qt.drawImage img rect i).height = img.height)

/-- Every byte of channel `k` of the image lies between `lo` and `hi`: `lo` is at
most the minimum and `hi` at least the maximum of that channel over the image. -/
def BlurImage.ChannelWithin (b : BlurImage) (k : Int) (lo hi : Nat) : Prop :=
  ∀ r c : Int, b.inside r c k = true → lo ≤ b.byte r c k ∧ b.byte r c k ≤ hi

/-! ### Loop and protocol invariants -/

/-- The image in which the brush offsets selected by `done` have been cloned
from around `S` to around `(cx, cy)`, every source value being taken from the
untouched `img` (the loop invariant of `cloneStamp`). -/
def clonedImage (img : QImage) (S : QPoint) (cx cy r : Int) (done : Int → Int → Bool) : QImage :=
  { width := img.width
    height := img.height
    pix := fun a b =>
      if done (a - cx) (b - cy) = true ∧ withinBrush (a - cx) (b - cy) r = true
      then img.pix (a - cx + S.x) (b - cy + S.y)
      else img.pix a b }

/-- The invariant of the preview generator.  Either a single generator is in
flight and the running flag is set (and, unless a restart is pending, that
generator works on the current denominator and image), or none is in flight,
both flags are clear and the stored result is the one for the current
denominator and image. -/
def PixelatePreviewGenerator.Coherent (st : PixelatePreviewGenerator) : Prop :=
  (st.PixelateGeneratorRunning = true ∧ ∃ g, st.Workers = [g] ∧
      (st.RestartPixelateGenerator = false → st.LoadedImage.isNull = false →
        g = ⟨st.PixelDenom, st.LoadedImage⟩)) ∨
  (st.PixelateGeneratorRunning = false ∧ st.Workers = [] ∧
      st.RestartPixelateGenerator = false ∧
      (st.LoadedImage.isNull = false →
        PixelateImageGenerator.start st.PixelDenom st.LoadedImage = some st.PixelatedImage))

/-- The image in which the pixels selected by `done` that lie inside the image
and inside the brush of radius `r` around `(cx, cy)` hold the value `src` has at
the same place (the loop invariant of `PixelateEditor.ChangeImageAt`). -/
def brushedImage (img src : QImage) (cx cy r : Int) (done : Int → Int → Bool) : QImage :=
  { width := img.width
    height := img.height
    pix := fun a b =>
      if done a b = true ∧ img.valid a b = true ∧ withinBrush (a - cx) (b - cy) r = true
      then src.pixel a b
      else img.pix a b }

/-- The invariant of the retouch editor: every snapshot of the undo log has the
size of the current image, and a valid sampling point is a pixel of the current
image whenever that image has pixels. -/
def RetouchEditor.Inv (st : RetouchEditor) : Prop :=
  (∀ img ∈ st.UndoStack,
    img.width = st.CurrentImage.width ∧ img.height = st.CurrentImage.height) ∧
  (st.IsSamplingPointValid = true → 1 ≤ st.CurrentImage.width → 1 ≤ st.CurrentImage.height →
    st.SamplingPointInside)

/-! ### Concrete inputs -/

/-- A 3 x 2 test image with distinct channel values. -/
def sampleImage : QImage :=
  { width := 3, height := 2
    pix := fun x y => qRgba (10 * x.toNat) (20 * y.toNat + 1) 7 (200 + x.toNat) }

/-- A 2 x 1 test image. -/
def smallImage : QImage :=
  { width := 2, height := 1, pix := fun x _ => qRgba 50 60 70 (80 + x.toNat) }

/-- A retouch editor in clone mode over a 6 x 3 image whose pixel values are all
different, with the sampling point at `(1, 1)`. -/
def sampleCloneEditor : RetouchEditor :=
  { RetouchEditor.new with
    CurrentMode := RetouchEditor.ModeClone
    IsSamplingPointValid := true
    SamplingPoint := ⟨1, 1⟩
    CurrentImage := { width := 6, height := 3, pix := fun x y => (10 * y + x).toNat } }

/-- An idle preview generator that has loaded the 3 x 2 test image. -/
def samplePreview : PixelatePreviewGenerator :=
  { PixelatePreviewGenerator.new with LoadedImage := sampleImage }

/-- A run of a preview generator: a denominator is set, the 3 x 2 test image is
opened, the denominator changes while the first generator works, and both
generators finish. -/
def sampleEvents : List PixelatePreviewGenerator.Event :=
  [.setPixDenom 2, .openImage (some sampleImage), .setPixDenom 1, .workerFinished 0,
   .workerFinished 0]

/-- A pixelate editor with denominator 1 on which `openImage` was called for the
2 x 1 image and then, before that generator delivered, for the 3 x 2 image. -/
def twiceOpenedEditor : PixelateEditor :=
  PixelateEditor.openImage (some sampleImage)
    (PixelateEditor.openImage (some smallImage) (PixelateEditor.setPixDenom 1 PixelateEditor.new))

/-- A 3 x 2 working image with varied bytes. -/
def sampleBlurImage : BlurImage :=
  { width := 3, height := 2, byte := fun r c k => ((37 * r + 101 * c + 59 * k + 7) % 256).toNat }

/-- A 2 x 2 working image: the first channel holds `0 0 / 1 3`, the others 0. -/
def orderSensitiveImage : BlurImage :=
  { width := 2, height := 2
    byte := fun r c k => if k = 0 ∧ r = 1 then (if c = 0 then 1 else if c = 1 then 3 else 0) else 0 }

/-- A pixelate editor whose undo log already holds one snapshot. -/
def loggedPixelateEditor : PixelateEditor :=
  { PixelateEditor.new with UndoStack := [smallImage] }

/-- A retouch editor whose undo log already holds one snapshot. -/
def loggedRetouchEditor : RetouchEditor :=
  { RetouchEditor.new with UndoStack := [smallImage] }

/-- The copy-before-write result of a clone update, in the words of the spec:
every pixel of the image inside the brush around `(cx, cy)` whose source pixel, the
one at the same offset from `S`, lies inside the image takes the value that source
pixel has in `img`, the image before the update; every other pixel keeps its value. -/
def cloneFromCopy (img : QImage) (S : QPoint) (cx cy r : Int) : QImage :=
  { width := img.width
    height := img.height
    pix := fun a b =>
      if img.valid a b = true ∧ withinBrush (a - cx) (b - cy) r = true ∧
          img.valid (a - cx + S.x) (b - cy + S.y) = true
      then img.pix (a - cx + S.x) (b - cy + S.y)
      else img.pix a b }

/-- A 4 x 1 image with the pixel values 1, 2, 3, 4. -/
def rowImage : QImage :=
  { width := 4, height := 1, pix := fun x _ => (x + 1).toNat }

/-- A retouch editor in clone mode over the 4 x 1 image, with the sampling point
at `(0, 0)`: a brush of radius 1 at `(1, 0)` overlaps the brush around the
sampling point. -/
def overlapCloneEditor : RetouchEditor :=
  { RetouchEditor.new with
    CurrentMode := RetouchEditor.ModeClone
    IsSamplingPointValid := true
    SamplingPoint := ⟨0, 0⟩
    CurrentImage := rowImage }

/-- A simple instance of the Qt services for the concrete inputs: copies keep
the whole image, the working copy is 1 x 1, and painting leaves the target as it is. -/
def plainQt : QtImaging :=
  { copy := fun img _ => img
    copyPremultiplied := fun _ _ => { width := 1, height := 1, byte := fun _ _ _ => 0 }
    drawImage := fun img _ _ => img
    drawBlurred := fun img _ _ => img }

/-- A pixelate editor in mode "original" over the 3 x 2 image whose undo log is
at capacity. -/
def fullLogPixelateEditor : PixelateEditor :=
  { PixelateEditor.new with
    CurrentMode := PixelateEditor.ModeOriginal
    OriginalImage := sampleImage
    EffectedImage := sampleImage
    CurrentImage := sampleImage
    UndoStack := [smallImage, sampleImage, smallImage, sampleImage] }

/-- A retouch editor in blur mode over the 3 x 2 image whose undo log is at capacity. -/
def fullLogRetouchEditor : RetouchEditor :=
  { RetouchEditor.new with
    CurrentMode := RetouchEditor.ModeBlur
    CurrentImage := sampleImage
    UndoStack := [smallImage, sampleImage, smallImage, sampleImage] }

/-- A session of the pixelate editor: the denominator is set, the 3 x 2 image is
opened and its generator delivers, the mode "original" is chosen, and the pointer is
pressed, moved and released four times. -/
def pixelateSession : List PixelateEditor.Event :=
  [.setPixDenom 1, .openImage (some sampleImage), .workerFinished 0,
   .setMode PixelateEditor.ModeOriginal,
   .mousePress 1 1 1 1 16, .mouseMove 2 1 2 1 16, .mouseRelease 2 1,
   .mousePress 0 0 0 0 16, .mouseMove 1 0 1 0 16, .mouseRelease 1 0,
   .mousePress 2 0 2 0 16, .mouseMove 2 1 2 1 16, .mouseRelease 2 1,
   .mousePress 0 1 0 1 16, .mouseMove 1 1 1 1 16, .mouseRelease 1 1]

/-- A session of the retouch editor: the 3 x 2 image is opened, the blur mode is
chosen, and the pointer is pressed and released four times. -/
def retouchSession : List RetouchEditor.Event :=
  [.openImage (some sampleImage), .setMode RetouchEditor.ModeBlur,
   .mousePress 1 1, .mouseRelease 1 1, .mousePress 0 0, .mouseRelease 0 0,
   .mousePress 2 0, .mouseRelease 2 0, .mousePress 0 1, .mouseRelease 0 1]

/-! ## Part 2: theorems -/

/-! ### Loops -/

/-- Loop invariants: what holds before the loop and is kept by every step holds
after the last step. -/
theorem forLoop_induct {σ : Type} (P : Nat → σ → Prop) (lo hi : Int) (body : Int → σ → σ)
    (init : σ) (h0 : P 0 init)
    (hs : ∀ (k : Nat) (st : σ), (k : Int) < hi - lo → P k st → P (k + 1) (body (lo + k) st)) :
    P (hi - lo).toNat (forLoop lo hi body init) := by
  unfold forLoop
  have key : ∀ n : Nat, n ≤ (hi - lo).toNat →
      P n ((List.range n).foldl (fun st (k : Nat) => body (lo + (k : Int)) st) init) := by
    intro n
    induction n with
    | zero => intro _; simpa using h0
    | succ n ih =>
      intro hn
      rw [List.range_succ, List.foldl_append]
      simp only [List.foldl_cons, List.foldl_nil]
      exact hs n _ (by omega) (ih (by omega))
  exact key _ le_rfl

/-! ### Colour helpers -/

theorem qRed_lt (p : QRgb) : qRed p < 256 := by unfold qRed; omega
theorem qGreen_lt (p : QRgb) : qGreen p < 256 := by unfold qGreen; omega
theorem qBlue_lt (p : QRgb) : qBlue p < 256 := by unfold qBlue; omega
theorem QImage.ext_iff' (a b : QImage) :
    a = b ↔ a.width = b.width ∧ a.height = b.height ∧ ∀ x y, a.pix x y = b.pix x y := by
  constructor
  · rintro rfl; exact ⟨rfl, rfl, fun _ _ => rfl⟩
  · rintro ⟨hw, hh, hp⟩
    cases a; cases b
    simp only at hw hh hp
    subst hw; subst hh
    have : ‹Int → Int → QRgb› = ‹Int → Int → QRgb› := rfl
    congr
    funext x y; exact hp x y

/-- The two read loops of a block add up the three channels over the rectangle
of the block and count its pixels. -/
theorem blockSums_eq (pix_size i j : Int) (img : QImage) :
    PixelateImageGenerator.blockSums pix_size i j img =
      ⟨∑ a ∈ Finset.range (min ((i + 1) * pix_size) img.width - i * pix_size).toNat,
          ∑ b ∈ Finset.range (min ((j + 1) * pix_size) img.height - j * pix_size).toNat,
            qRed (img.pixel (i * pix_size + (a : Int)) (j * pix_size + (b : Int))),
        ∑ a ∈ Finset.range (min ((i + 1) * pix_size) img.width - i * pix_size).toNat,
          ∑ b ∈ Finset.range (min ((j + 1) * pix_size) img.height - j * pix_size).toNat,
            qGreen (img.pixel (i * pix_size + (a : Int)) (j * pix_size + (b : Int))),
        ∑ a ∈ Finset.range (min ((i + 1) * pix_size) img.width - i * pix_size).toNat,
          ∑ b ∈ Finset.range (min ((j + 1) * pix_size) img.height - j * pix_size).toNat,
            qBlue (img.pixel (i * pix_size + (a : Int)) (j * pix_size + (b : Int))),
        (min ((i + 1) * pix_size) img.width - i * pix_size).toNat *
          (min ((j + 1) * pix_size) img.height - j * pix_size).toNat⟩ := by
  unfold PixelateImageGenerator.blockSums
  have inner : ∀ (x : Int) (acc : BlockSums),
      forLoop (j * pix_size) (min ((j + 1) * pix_size) img.height) (fun y acc =>
        let pixel := img.pixel x y
        ({ avg_r := acc.avg_r + qRed pixel
           avg_g := acc.avg_g + qGreen pixel
           avg_b := acc.avg_b + qBlue pixel
           pixels := acc.pixels + 1 } : BlockSums)) acc =
      ⟨acc.avg_r + ∑ b ∈ Finset.range (min ((j + 1) * pix_size) img.height - j * pix_size).toNat,
          qRed (img.pixel x (j * pix_size + (b : Int))),
        acc.avg_g + ∑ b ∈ Finset.range (min ((j + 1) * pix_size) img.height - j * pix_size).toNat,
          qGreen (img.pixel x (j * pix_size + (b : Int))),
        acc.avg_b + ∑ b ∈ Finset.range (min ((j + 1) * pix_size) img.height - j * pix_size).toNat,
          qBlue (img.pixel x (j * pix_size + (b : Int))),
        acc.pixels + (min ((j + 1) * pix_size) img.height - j * pix_size).toNat⟩ := by
    intro x acc
    exact forLoop_induct
      (fun k st => st = (⟨acc.avg_r + ∑ b ∈ Finset.range k, qRed (img.pixel x (j * pix_size + (b : Int))),
        acc.avg_g + ∑ b ∈ Finset.range k, qGreen (img.pixel x (j * pix_size + (b : Int))),
        acc.avg_b + ∑ b ∈ Finset.range k, qBlue (img.pixel x (j * pix_size + (b : Int))),
        acc.pixels + k⟩ : BlockSums)) _ _ _ _ (by simp)
      (by
        intro k st _ hst
        subst hst
        simp only [Finset.sum_range_succ, BlockSums.mk.injEq]
        omega)
  simp only [inner]
  exact forLoop_induct
    (fun k st => st = (⟨∑ a ∈ Finset.range k,
          ∑ b ∈ Finset.range (min ((j + 1) * pix_size) img.height - j * pix_size).toNat,
            qRed (img.pixel (i * pix_size + (a : Int)) (j * pix_size + (b : Int))),
        ∑ a ∈ Finset.range k,
          ∑ b ∈ Finset.range (min ((j + 1) * pix_size) img.height - j * pix_size).toNat,
            qGreen (img.pixel (i * pix_size + (a : Int)) (j * pix_size + (b : Int))),
        ∑ a ∈ Finset.range k,
          ∑ b ∈ Finset.range (min ((j + 1) * pix_size) img.height - j * pix_size).toNat,
            qBlue (img.pixel (i * pix_size + (a : Int)) (j * pix_size + (b : Int))),
        k * (min ((j + 1) * pix_size) img.height - j * pix_size).toNat⟩ : BlockSums)) _ _ _ _
    (by simp)
    (by
      intro k st _ hst
      subst hst
      simp only [Finset.sum_range_succ, BlockSums.mk.injEq, Nat.succ_mul, and_self])

/-! ### Blocks -/

/-- The channel sums of a block are at most 255 times its pixel count. -/
theorem blockSums_le (pix_size i j : Int) (img : QImage) :
    (PixelateImageGenerator.blockSums pix_size i j img).avg_r ≤
        255 * (PixelateImageGenerator.blockSums pix_size i j img).pixels ∧
      (PixelateImageGenerator.blockSums pix_size i j img).avg_g ≤
        255 * (PixelateImageGenerator.blockSums pix_size i j img).pixels ∧
      (PixelateImageGenerator.blockSums pix_size i j img).avg_b ≤
        255 * (PixelateImageGenerator.blockSums pix_size i j img).pixels := by
  rw [blockSums_eq]
  have key : ∀ (chan : QRgb → Nat), (∀ p, chan p < 256) → ∀ (m n : Nat) (f : Nat → Nat → QRgb),
      ∑ a ∈ Finset.range m, ∑ b ∈ Finset.range n, chan (f a b) ≤ 255 * (m * n) := by
    intro chan hc m n f
    have h1 : ∀ a ∈ Finset.range m, ∑ b ∈ Finset.range n, chan (f a b) ≤ n * 255 := by
      intro a _
      have := Finset.sum_le_card_nsmul (Finset.range n) (fun b => chan (f a b)) 255
        (fun b _ => Nat.lt_succ_iff.1 (hc _))
      simpa using this
    have h2 := Finset.sum_le_card_nsmul (Finset.range m)
      (fun a => ∑ b ∈ Finset.range n, chan (f a b)) (n * 255) h1
    simp only [Finset.card_range, smul_eq_mul] at h2
    calc ∑ a ∈ Finset.range m, ∑ b ∈ Finset.range n, chan (f a b) ≤ m * (n * 255) := h2
      _ = 255 * (m * n) := by ring
  exact ⟨key qRed qRed_lt _ _ _, key qGreen qGreen_lt _ _ _, key qBlue qBlue_lt _ _ _⟩

theorem forLoop2_induct {σ : Type} (P : Nat → σ → Prop) (a0 a1 b0 b1 : Int)
    (body : Int → Int → σ → σ) (init : σ) (h0 : P 0 init)
    (hs : ∀ (k : Nat) (st : σ), (k : Int) < min (a1 + 1 - a0) (b1 + 1 - b0) → P k st →
      P (k + 1) (body (a0 + k) (b0 + k) st)) :
    P (min (a1 + 1 - a0) (b1 + 1 - b0)).toNat (forLoop2 a0 a1 b0 b1 body init) := by
  unfold forLoop2
  have key : ∀ n : Nat, n ≤ (min (a1 + 1 - a0) (b1 + 1 - b0)).toNat →
      P n ((List.range n).foldl (fun st (k : Nat) => body (a0 + (k : Int)) (b0 + (k : Int)) st)
        init) := by
    intro n
    induction n with
    | zero => intro _; simpa using h0
    | succ n ih =>
      intro hn
      rw [List.range_succ, List.foldl_append]
      simp only [List.foldl_cons, List.foldl_nil]
      exact hs n _ (by omega) (ih (by omega))
  exact key _ le_rfl

theorem clonedImage_congr (img : QImage) (S : QPoint) (cx cy r : Int) (D D' : Int → Int → Bool)
    (h : ∀ dx dy, withinBrush dx dy r = true → D dx dy = D' dx dy) :
    clonedImage img S cx cy r D = clonedImage img S cx cy r D' := by
  refine (QImage.ext_iff' _ _).2 ⟨rfl, rfl, fun a b => ?_⟩
  simp only [clonedImage]
  by_cases hw : withinBrush (a - cx) (b - cy) r = true
  · rw [h _ _ hw]
  · rw [if_neg (fun hc => hw hc.2), if_neg (fun hc => hw hc.2)]

theorem withinBrush_sq (dx dy r : Int) (h : withinBrush dx dy r = true) :
    dx * dx + dy * dy ≤ r * r := by
  simp only [withinBrush, decide_eq_true_eq] at h
  exact h.2

/-- One step of the inner clone loop, at brush offset `(dx, dy)`. -/
theorem clone_step (img : QImage) (S : QPoint) (cx cy r dx dy : Int) (D : Int → Int → Bool)
    (hS : DiscInside img S.x S.y r) (hC : DiscInside img cx cy r)
    (hdisj : DiscsDisjoint S.x S.y cx cy r)
    (from_x from_y to_x to_y : Int) (hfx : from_x = S.x + dx) (hfy : from_y = S.y + dy)
    (htx : to_x = cx + dx) (hty : to_y = cy + dy) :
    (if from_x ≥ 0 ∧ from_x < ((clonedImage img S cx cy r D).width : Int) ∧ from_y ≥ 0 ∧
          from_y < ((clonedImage img S cx cy r D).height : Int) ∧
          withinBrush (from_x - S.x) (from_y - S.y) r = true ∧
          to_x ≥ 0 ∧ to_x < ((clonedImage img S cx cy r D).width : Int) ∧ to_y ≥ 0 ∧
          to_y < ((clonedImage img S cx cy r D).height : Int) ∧
          withinBrush (to_x - cx) (to_y - cy) r = true
      then (clonedImage img S cx cy r D).setPixel to_x to_y
        ((clonedImage img S cx cy r D).pixel from_x from_y)
      else clonedImage img S cx cy r D) =
    clonedImage img S cx cy r (fun a b => D a b || decide (a = dx ∧ b = dy)) := by
  subst hfx hfy htx hty
  have e1 : S.x + dx - S.x = dx := by omega
  have e2 : S.y + dy - S.y = dy := by omega
  have e3 : cx + dx - cx = dx := by omega
  have e4 : cy + dy - cy = dy := by omega
  rw [e1, e2, e3, e4]
  by_cases hw : withinBrush dx dy r = true
  · have hsq := withinBrush_sq _ _ _ hw
    have hvS := hS dx dy hsq
    have hvC := hC dx dy hsq
    have hvS' := hvS
    have hvC' := hvC
    simp only [QImage.valid, decide_eq_true_eq] at hvS' hvC'
    have hw1 : (clonedImage img S cx cy r D).width = img.width := rfl
    have hh1 : (clonedImage img S cx cy r D).height = img.height := rfl
    rw [if_pos ⟨by omega, by rw [hw1]; omega, by omega, by rw [hh1]; omega, hw, by omega,
      by rw [hw1]; omega, by omega, by rw [hh1]; omega, hw⟩]
    have hnot : ¬ withinBrush (S.x + dx - cx) (S.y + dy - cy) r = true := by
      intro hc
      exact hdisj dx dy _ _ hsq (withinBrush_sq _ _ _ hc) ⟨by omega, by omega⟩
    have hread : (clonedImage img S cx cy r D).pixel (S.x + dx) (S.y + dy) =
        img.pix (S.x + dx) (S.y + dy) := by
      unfold QImage.pixel
      rw [if_pos (show (clonedImage img S cx cy r D).valid (S.x + dx) (S.y + dy) = true from hvS)]
      simp only [clonedImage]
      rw [if_neg (fun hc => hnot hc.2)]
    rw [hread]
    unfold QImage.setPixel
    rw [if_pos (show (clonedImage img S cx cy r D).valid (cx + dx) (cy + dy) = true from hvC)]
    refine (QImage.ext_iff' _ _).2 ⟨rfl, rfl, fun a b => ?_⟩
    simp only [clonedImage]
    by_cases hab : a = cx + dx ∧ b = cy + dy
    · obtain ⟨rfl, rfl⟩ := hab
      rw [if_pos ⟨rfl, rfl⟩, e3, e4, if_pos ⟨by simp, hw⟩]
      congr 1 <;> omega
    · rw [if_neg hab]
      have hne : ¬ (a - cx = dx ∧ b - cy = dy) := fun hc => hab ⟨by omega, by omega⟩
      simp only [hne, decide_False, Bool.or_false]
  · rw [if_neg (fun hc => hw hc.2.2.2.2.1)]
    refine clonedImage_congr _ _ _ _ _ _ _ fun a b hab => ?_
    have hne : ¬ (a = dx ∧ b = dy) := by
      rintro ⟨rfl, rfl⟩; exact hw hab
    simp only [hne, decide_False, Bool.or_false]

theorem withinBrush_bounds (dx dy r : Int) (h : withinBrush dx dy r = true) :
    0 ≤ r ∧ -r ≤ dx ∧ dx ≤ r ∧ -r ≤ dy ∧ dy ≤ r := by
  simp only [withinBrush, decide_eq_true_eq] at h
  obtain ⟨h0, h1⟩ := h
  refine ⟨h0, ?_, ?_, ?_, ?_⟩ <;> nlinarith [mul_self_nonneg dx, mul_self_nonneg dy]

/-- One column of the clone loops: the inner loop at horizontal offset `kx - r`. -/
theorem clone_column (img : QImage) (S : QPoint) (cx cy r : Int) (kx : Nat)
    (hS : DiscInside img S.x S.y r) (hC : DiscInside img cx cy r)
    (hdisj : DiscsDisjoint S.x S.y cx cy r) :
    forLoop2 (S.y - r) (S.y + r) (cy - r) (cy + r) (fun from_y to_y im =>
        if S.x - r + (kx : Int) ≥ 0 ∧ S.x - r + (kx : Int) < (im.width : Int) ∧ from_y ≥ 0 ∧
            from_y < (im.height : Int) ∧
            withinBrush (S.x - r + (kx : Int) - S.x) (from_y - S.y) r = true ∧
            cx - r + (kx : Int) ≥ 0 ∧ cx - r + (kx : Int) < (im.width : Int) ∧ to_y ≥ 0 ∧
            to_y < (im.height : Int) ∧
            withinBrush (cx - r + (kx : Int) - cx) (to_y - cy) r = true
        then im.setPixel (cx - r + (kx : Int)) to_y (im.pixel (S.x - r + (kx : Int)) from_y)
        else im)
      (clonedImage img S cx cy r (fun a _ => decide (a + r < (kx : Int)))) =
    clonedImage img S cx cy r (fun a _ => decide (a + r < ((kx + 1 : Nat) : Int))) := by
  have h := forLoop2_induct
    (fun ky im => im = clonedImage img S cx cy r (fun a b => decide (a + r < (kx : Int)) ||
      decide (a + r = (kx : Int) ∧ b + r < (ky : Int))))
    (S.y - r) (S.y + r) (cy - r) (cy + r) (fun from_y to_y im =>
        if S.x - r + (kx : Int) ≥ 0 ∧ S.x - r + (kx : Int) < (im.width : Int) ∧ from_y ≥ 0 ∧
            from_y < (im.height : Int) ∧
            withinBrush (S.x - r + (kx : Int) - S.x) (from_y - S.y) r = true ∧
            cx - r + (kx : Int) ≥ 0 ∧ cx - r + (kx : Int) < (im.width : Int) ∧ to_y ≥ 0 ∧
            to_y < (im.height : Int) ∧
            withinBrush (cx - r + (kx : Int) - cx) (to_y - cy) r = true
        then im.setPixel (cx - r + (kx : Int)) to_y (im.pixel (S.x - r + (kx : Int)) from_y)
        else im)
    (clonedImage img S cx cy r (fun a _ => decide (a + r < (kx : Int))))
    (by
      refine clonedImage_congr _ _ _ _ _ _ _ fun a b hab => ?_
      have hb := withinBrush_bounds _ _ _ hab
      rw [Bool.eq_iff_iff]
      simp only [Bool.or_eq_true, decide_eq_true_eq]
      omega)
    (by
      intro ky st _ hst
      subst hst
      simp only
      rw [clone_step img S cx cy r ((kx : Int) - r) ((ky : Int) - r) _ hS hC hdisj
        (S.x - r + (kx : Int)) (S.y - r + (ky : Int)) (cx - r + (kx : Int)) (cy - r + (ky : Int))
        (by omega) (by omega) (by omega) (by omega)]
      refine clonedImage_congr _ _ _ _ _ _ _ fun a b _ => ?_
      rw [Bool.eq_iff_iff]
      simp only [Bool.or_eq_true, decide_eq_true_eq]
      omega)
  simp only at h
  rw [h]
  refine clonedImage_congr _ _ _ _ _ _ _ fun a b hab => ?_
  have hb := withinBrush_bounds _ _ _ hab
  rw [Bool.eq_iff_iff]
  simp only [Bool.or_eq_true, decide_eq_true_eq]
  omega

/-- With both discs inside the image and disjoint, the clone loops copy the
whole source disc, read from the untouched image, onto the destination disc. -/
theorem cloneStamp_eq (img : QImage) (S : QPoint) (cx cy r : Int)
    (hS : DiscInside img S.x S.y r) (hC : DiscInside img cx cy r)
    (hdisj : DiscsDisjoint S.x S.y cx cy r) :
    cloneStamp S cx cy r img = clonedImage img S cx cy r (fun _ _ => true) := by
  unfold cloneStamp
  have h := forLoop2_induct
    (fun kx im => im = clonedImage img S cx cy r (fun a _ => decide (a + r < (kx : Int))))
    (S.x - r) (S.x + r) (cx - r) (cx + r) (fun from_x to_x im =>
      forLoop2 (S.y - r) (S.y + r) (cy - r) (cy + r) (fun from_y to_y im =>
        if from_x ≥ 0 ∧ from_x < (im.width : Int) ∧ from_y ≥ 0 ∧ from_y < (im.height : Int) ∧
            withinBrush (from_x - S.x) (from_y - S.y) r = true ∧
            to_x ≥ 0 ∧ to_x < (im.width : Int) ∧ to_y ≥ 0 ∧ to_y < (im.height : Int) ∧
            withinBrush (to_x - cx) (to_y - cy) r = true
        then im.setPixel to_x to_y (im.pixel from_x from_y)
        else im) im) img
    (by
      refine (QImage.ext_iff' _ _).2 ⟨rfl, rfl, fun a b => ?_⟩
      simp only [clonedImage]
      rw [if_neg]
      rintro ⟨h1, h2⟩
      have hb := withinBrush_bounds _ _ _ h2
      simp only [decide_eq_true_eq] at h1
      omega)
    (by
      intro kx st _ hst
      subst hst
      exact clone_column img S cx cy r kx hS hC hdisj)
  simp only at h
  rw [h]
  refine clonedImage_congr _ _ _ _ _ _ _ fun a b hab => ?_
  have hb := withinBrush_bounds _ _ _ hab
  simp only [decide_eq_true_eq]
  omega

/-- C2: in clone mode, when the discs of radius `r ≥ 0` around the sampling point and
around the brush centre both lie inside the image and share no pixel, one update of
`RetouchEditor::ChangeImageAt` gives `new(C + d) = old(S + d)` for every offset `d`
with `|d| ≤ r`, and leaves every pixel outside the destination disc as it was. -/
theorem clone_update_copies_disc (qt : QtImaging) (GAUSSIAN_RADIUS : Int) (save_undo : Bool)
    (st : RetouchEditor) (cx cy r : Int)
    (hmode : st.CurrentMode = RetouchEditor.ModeClone) (hr : 0 ≤ r)
    (hS : DiscInside st.CurrentImage st.SamplingPoint.x st.SamplingPoint.y r)
    (hC : DiscInside st.CurrentImage cx cy r)
    (hdisj : DiscsDisjoint st.SamplingPoint.x st.SamplingPoint.y cx cy r) :
    ∃ st' : RetouchEditor,
      RetouchEditor.ChangeImageAt qt GAUSSIAN_RADIUS save_undo cx cy r st = some st' ∧
      st'.CurrentImage.width = st.CurrentImage.width ∧
      st'.CurrentImage.height = st.CurrentImage.height ∧
      (∀ dx dy : Int, dx * dx + dy * dy ≤ r * r →
        st'.CurrentImage.pixel (cx + dx) (cy + dy) =
          st.CurrentImage.pixel (st.SamplingPoint.x + dx) (st.SamplingPoint.y + dy)) ∧
      (∀ x y : Int, ¬ ((x - cx) * (x - cx) + (y - cy) * (y - cy) ≤ r * r) →
        st'.CurrentImage.pixel x y = st.CurrentImage.pixel x y) := by
  have hst : ∀ b : Bool, (if b = true then st.SaveUndoImage else st).CurrentMode = st.CurrentMode ∧
      (if b = true then st.SaveUndoImage else st).SamplingPoint = st.SamplingPoint ∧
      (if b = true then st.SaveUndoImage else st).CurrentImage = st.CurrentImage := by
    intro b
    cases b
    · exact ⟨rfl, rfl, rfl⟩
    · simp only [if_true, RetouchEditor.SaveUndoImage, RetouchEditor.emit]
      split_ifs <;> exact ⟨rfl, rfl, rfl⟩
  obtain ⟨h1, h2, h3⟩ := hst save_undo
  have hrun : RetouchEditor.ChangeImageAt qt GAUSSIAN_RADIUS save_undo cx cy r st =
      some (({ (if save_undo = true then st.SaveUndoImage else st) with
        CurrentImage := clonedImage st.CurrentImage st.SamplingPoint cx cy r (fun _ _ => true)
        IsChanged := true }).emit .helperImageReady) := by
    unfold RetouchEditor.ChangeImageAt
    rw [if_pos (Or.inl hmode)]
    simp only [h1, h2, h3, hmode, if_true, Option.map_some']
    rw [cloneStamp_eq _ _ _ _ _ hS hC hdisj]
  refine ⟨_, hrun, rfl, rfl, ?_, ?_⟩
  · intro dx dy hd
    have hv := hS dx dy hd
    have hv2 := hC dx dy hd
    have hw : withinBrush (cx + dx - cx) (cy + dy - cy) r = true := by
      have e1 : cx + dx - cx = dx := by omega
      have e2 : cy + dy - cy = dy := by omega
      rw [e1, e2]
      simp only [withinBrush, decide_eq_true_eq]
      exact ⟨hr, hd⟩
    show (clonedImage st.CurrentImage st.SamplingPoint cx cy r (fun _ _ => true)).pixel
      (cx + dx) (cy + dy) = _
    unfold QImage.pixel
    rw [if_pos (show (clonedImage st.CurrentImage st.SamplingPoint cx cy r
      (fun _ _ => true)).valid (cx + dx) (cy + dy) = true from hv2), if_pos hv]
    simp only [clonedImage]
    rw [if_pos ⟨trivial, hw⟩]
    congr 1 <;> omega
  · intro x y hd
    have hw : ¬ withinBrush (x - cx) (y - cy) r = true := by
      simp only [withinBrush, decide_eq_true_eq]
      exact fun hc => hd hc.2
    have hpix : (clonedImage st.CurrentImage st.SamplingPoint cx cy r (fun _ _ => true)).pix x y =
        st.CurrentImage.pix x y := by
      simp only [clonedImage]
      rw [if_neg (fun hc => hw hc.2)]
    show (clonedImage st.CurrentImage st.SamplingPoint cx cy r (fun _ _ => true)).pixel x y = _
    unfold QImage.pixel
    rw [hpix]
    rfl

theorem unit_disc_bounds (dx dy : Int) (h : dx * dx + dy * dy ≤ 1 * 1) :
    -1 ≤ dx ∧ dx ≤ 1 ∧ -1 ≤ dy ∧ dy ≤ 1 := by
  refine ⟨?_, ?_, ?_, ?_⟩ <;> nlinarith [mul_self_nonneg dx, mul_self_nonneg dy]

/-- C2 at a 6 x 3 image: sampling point `(1, 1)`, brush centre `(4, 1)`, radius 1. -/
theorem clone_update_copies_disc_witness :
    ∃ st' : RetouchEditor,
      RetouchEditor.ChangeImageAt ⟨fun i _ => i, fun _ _ => ⟨0, 0, fun _ _ _ => 0⟩,
          fun i _ _ => i, fun i _ _ => i⟩ 5 false 4 1 1 sampleCloneEditor = some st' ∧
      st'.CurrentImage.width = sampleCloneEditor.CurrentImage.width ∧
      st'.CurrentImage.height = sampleCloneEditor.CurrentImage.height ∧
      (∀ dx dy : Int, dx * dx + dy * dy ≤ 1 * 1 →
        st'.CurrentImage.pixel (4 + dx) (1 + dy) =
          sampleCloneEditor.CurrentImage.pixel (sampleCloneEditor.SamplingPoint.x + dx)
            (sampleCloneEditor.SamplingPoint.y + dy)) ∧
      (∀ x y : Int, ¬ ((x - 4) * (x - 4) + (y - 1) * (y - 1) ≤ 1 * 1) →
        st'.CurrentImage.pixel x y = sampleCloneEditor.CurrentImage.pixel x y) :=
  clone_update_copies_disc _ 5 false sampleCloneEditor 4 1 1 rfl (by decide)
    (by
      intro dx dy h
      have hb := unit_disc_bounds dx dy h
      simp only [sampleCloneEditor, QImage.valid, RetouchEditor.new, decide_eq_true_eq]
      omega)
    (by
      intro dx dy h
      have hb := unit_disc_bounds dx dy h
      simp only [sampleCloneEditor, QImage.valid, RetouchEditor.new, decide_eq_true_eq]
      omega)
    (by
      intro dx dy ex ey h h'
      have hb := unit_disc_bounds dx dy h
      have hb' := unit_disc_bounds ex ey h'
      simp only [sampleCloneEditor, RetouchEditor.new]
      omega)

/-! ### C3: the undo log -/

/-- Pushing onto a log of at most `UNDO_DEPTH` entries keeps the newest
`UNDO_DEPTH` of them. -/
theorem push_evict (stack : List QImage) (s : QImage) (h : stack.length ≤ UNDO_DEPTH) :
    (if (stack ++ [s]).length > UNDO_DEPTH then evictOldest 0 (stack ++ [s]) else stack ++ [s]) =
      (stack ++ [s]).drop ((stack ++ [s]).length - UNDO_DEPTH) := by
  unfold UNDO_DEPTH at *
  match stack, h with
  | [], _ => simp
  | [a], _ => simp
  | [a, b], _ => simp
  | [a, b, c], _ => simp
  | [a, b, c, d], _ => simp [evictOldest, UNDO_DEPTH]
  | _ :: _ :: _ :: _ :: _ :: _, h => simp at h

theorem drop_snoc_last (L : List QImage) (s : QImage) :
    ((L.drop (L.length - UNDO_DEPTH)) ++ [s]).drop
        (((L.drop (L.length - UNDO_DEPTH)) ++ [s]).length - UNDO_DEPTH) =
      (L ++ [s]).drop ((L ++ [s]).length - UNDO_DEPTH) := by
  unfold UNDO_DEPTH
  simp only [List.length_append, List.length_drop, List.length_singleton]
  by_cases h : L.length ≤ 4
  · have e : L.length - 4 = 0 := by omega
    simp only [e, List.drop_zero, Nat.sub_zero]
  · have e1 : L.length - (L.length - 4) + 1 - 4 = 1 := by omega
    have e2 : L.length + 1 - 4 = (L.length - 4) + 1 := by omega
    rw [e1, e2]
    rw [List.drop_append_of_le_length (by omega : L.length - 4 + 1 ≤ L.length)]
    rw [List.drop_append_of_le_length (by rw [List.length_drop]; omega)]
    rw [List.drop_drop]

theorem pixelate_SaveUndoImage_stack (st : PixelateEditor) :
    st.SaveUndoImage.UndoStack =
      if (st.UndoStack ++ [st.CurrentImage]).length > UNDO_DEPTH
      then evictOldest 0 (st.UndoStack ++ [st.CurrentImage])
      else st.UndoStack ++ [st.CurrentImage] := by
  unfold PixelateEditor.SaveUndoImage PixelateEditor.emit
  simp only
  split_ifs <;> rfl

theorem retouch_SaveUndoImage_stack (st : RetouchEditor) :
    st.SaveUndoImage.UndoStack =
      if (st.UndoStack ++ [st.CurrentImage]).length > UNDO_DEPTH
      then evictOldest 0 (st.UndoStack ++ [st.CurrentImage])
      else st.UndoStack ++ [st.CurrentImage] := by
  unfold RetouchEditor.SaveUndoImage RetouchEditor.emit
  simp only
  split_ifs <;> rfl

theorem pixelate_saveSnapshots_stack (L : List QImage) (st : PixelateEditor)
    (h : st.UndoStack = []) :
    (PixelateEditor.saveSnapshots L st).UndoStack = L.drop (L.length - UNDO_DEPTH) := by
  induction L using List.reverseRecOn with
  | nil => simpa [PixelateEditor.saveSnapshots] using h
  | append_singleton L s ih =>
    have e : PixelateEditor.saveSnapshots (L ++ [s]) st =
        PixelateEditor.SaveUndoImage { PixelateEditor.saveSnapshots L st with CurrentImage := s } := by
      unfold PixelateEditor.saveSnapshots
      rw [List.foldl_append]
      rfl
    rw [e, pixelate_SaveUndoImage_stack]
    simp only [ih]
    rw [push_evict _ s (by rw [List.length_drop]; omega)]
    exact drop_snoc_last L s

theorem retouch_saveSnapshots_stack (L : List QImage) (st : RetouchEditor)
    (h : st.UndoStack = []) :
    (RetouchEditor.saveSnapshots L st).UndoStack = L.drop (L.length - UNDO_DEPTH) := by
  induction L using List.reverseRecOn with
  | nil => simpa [RetouchEditor.saveSnapshots] using h
  | append_singleton L s ih =>
    have e : RetouchEditor.saveSnapshots (L ++ [s]) st =
        RetouchEditor.SaveUndoImage { RetouchEditor.saveSnapshots L st with CurrentImage := s } := by
      unfold RetouchEditor.saveSnapshots
      rw [List.foldl_append]
      rfl
    rw [e, retouch_SaveUndoImage_stack]
    simp only [ih]
    rw [push_evict _ s (by rw [List.length_drop]; omega)]
    exact drop_snoc_last L s

theorem pixelate_undo_four (s1 s2 s3 s4 : QImage) (st : PixelateEditor)
    (hst : st.UndoStack = [s1, s2, s3, s4]) :
    st.undo.CurrentImage = s4 ∧ st.undo.UndoStack = [s1, s2, s3] ∧
      st.undo.undo.CurrentImage = s3 ∧ st.undo.undo.UndoStack = [s1, s2] ∧
      st.undo.undo.undo.CurrentImage = s2 ∧ st.undo.undo.undo.UndoStack = [s1] ∧
      st.undo.undo.undo.undo.CurrentImage = s1 ∧ st.undo.undo.undo.undo.UndoStack = [] ∧
      st.undo.undo.undo.Emitted = st.Emitted ∧
      st.undo.undo.undo.undo.Emitted = st.Emitted ++ [.undoAvailabilityChanged false] := by
  simp [PixelateEditor.undo, PixelateEditor.emit, hst]

theorem retouch_undo_four (s1 s2 s3 s4 : QImage) (st : RetouchEditor)
    (hst : st.UndoStack = [s1, s2, s3, s4]) :
    st.undo.CurrentImage = s4 ∧ st.undo.UndoStack = [s1, s2, s3] ∧
      st.undo.undo.CurrentImage = s3 ∧ st.undo.undo.UndoStack = [s1, s2] ∧
      st.undo.undo.undo.CurrentImage = s2 ∧ st.undo.undo.undo.UndoStack = [s1] ∧
      st.undo.undo.undo.undo.CurrentImage = s1 ∧ st.undo.undo.undo.undo.UndoStack = [] ∧
      st.undo.undo.undo.Emitted = st.Emitted ∧
      st.undo.undo.undo.undo.Emitted = st.Emitted ++ [.undoAvailabilityChanged false] := by
  simp [RetouchEditor.undo, RetouchEditor.emit, hst]

/-- C3: starting from an empty undo log, after `SaveUndoImage` has pushed the
`4 + k` snapshots `old ++ [s1, s2, s3, s4]` (`k = old.length`), the log holds exactly
`[s1, s2, s3, s4]`, newest last; four calls of `undo()` then bring back `s4`, `s3`,
`s2`, `s1` in this order and leave the log empty, the last one (and none before it)
announcing that undo is no longer available.  Both editors behave so. -/
theorem undo_log_keeps_last_four (old : List QImage) (s1 s2 s3 s4 : QImage)
    (pe : PixelateEditor) (re : RetouchEditor) :
    let p := PixelateEditor.saveSnapshots (old ++ [s1, s2, s3, s4]) { pe with UndoStack := [] }
    let r := RetouchEditor.saveSnapshots (old ++ [s1, s2, s3, s4]) { re with UndoStack := [] }
    (p.UndoStack = [s1, s2, s3, s4] ∧
      p.undo.CurrentImage = s4 ∧ p.undo.UndoStack = [s1, s2, s3] ∧
      p.undo.undo.CurrentImage = s3 ∧ p.undo.undo.UndoStack = [s1, s2] ∧
      p.undo.undo.undo.CurrentImage = s2 ∧ p.undo.undo.undo.UndoStack = [s1] ∧
      p.undo.undo.undo.undo.CurrentImage = s1 ∧ p.undo.undo.undo.undo.UndoStack = [] ∧
      p.undo.undo.undo.Emitted = p.Emitted ∧
      p.undo.undo.undo.undo.Emitted = p.Emitted ++ [.undoAvailabilityChanged false]) ∧
    (r.UndoStack = [s1, s2, s3, s4] ∧
      r.undo.CurrentImage = s4 ∧ r.undo.UndoStack = [s1, s2, s3] ∧
      r.undo.undo.CurrentImage = s3 ∧ r.undo.undo.UndoStack = [s1, s2] ∧
      r.undo.undo.undo.CurrentImage = s2 ∧ r.undo.undo.undo.UndoStack = [s1] ∧
      r.undo.undo.undo.undo.CurrentImage = s1 ∧ r.undo.undo.undo.undo.UndoStack = [] ∧
      r.undo.undo.undo.Emitted = r.Emitted ∧
      r.undo.undo.undo.undo.Emitted = r.Emitted ++ [.undoAvailabilityChanged false]) := by
  intro p r
  have hdrop : (old ++ [s1, s2, s3, s4]).drop ((old ++ [s1, s2, s3, s4]).length - UNDO_DEPTH) =
      [s1, s2, s3, s4] := by
    have e : (old ++ [s1, s2, s3, s4]).length - UNDO_DEPTH = old.length := by
      simp [UNDO_DEPTH]
    rw [e, List.drop_left]
  have hp : p.UndoStack = [s1, s2, s3, s4] := by
    rw [pixelate_saveSnapshots_stack _ _ rfl, hdrop]
  have hr : r.UndoStack = [s1, s2, s3, s4] := by
    rw [retouch_saveSnapshots_stack _ _ rfl, hdrop]
  exact ⟨⟨hp, pixelate_undo_four s1 s2 s3 s4 p hp⟩, ⟨hr, retouch_undo_four s1 s2 s3 s4 r hr⟩⟩

/-! ### C4, C7, C8: the preview generator -/

/-- A generator with a non-zero denominator delivers an image. -/
theorem start_isSome (PixelDenom : Int) (img : QImage) (h : PixelDenom ≠ 0) :
    ∃ out, PixelateImageGenerator.start PixelDenom img = some out := by
  unfold PixelateImageGenerator.start
  rw [if_neg h]
  simp only
  split_ifs <;> exact ⟨_, rfl⟩

/-- C4: for an idle preview generator with an image loaded, three calls
`setPixDenom(P1)`, `setPixDenom(P2)`, `setPixDenom(P3)` made before the first
computation completes start one generator, with `P1`; its completion starts the second
and last one, with `P3`; no generator is ever started with `P2`, and when the second
completes the stored `PixelatedImage` is what `start` computes from the loaded image
with `P3`, nothing being left running or pending. -/
theorem three_submits_two_computations (st : PixelatePreviewGenerator) (P1 P2 P3 : Int)
    (hidle : st.PixelateGeneratorRunning = false)
    (hnone : st.Workers = []) (himg : st.LoadedImage.isNull = false)
    (h1 : P1 ≠ 0) (h3 : P3 ≠ 0) :
    let st3 := ((st.setPixDenom P1).setPixDenom P2).setPixDenom P3
    st3.Started = st.Started ++ [⟨P1, st.LoadedImage⟩] ∧
    st3.Workers = [⟨P1, st.LoadedImage⟩] ∧
    ∃ out1 out3 st4 st5,
      PixelateImageGenerator.start P1 st.LoadedImage = some out1 ∧
      PixelateImageGenerator.start P3 st.LoadedImage = some out3 ∧
      st3.workerFinished 0 = some st4 ∧
      st4.Started = st.Started ++ [⟨P1, st.LoadedImage⟩, ⟨P3, st.LoadedImage⟩] ∧
      st4.Workers = [⟨P3, st.LoadedImage⟩] ∧
      st4.PixelatedImage = out1 ∧
      st4.workerFinished 0 = some st5 ∧
      st5.Started = st.Started ++ [⟨P1, st.LoadedImage⟩, ⟨P3, st.LoadedImage⟩] ∧
      st5.Workers = [] ∧
      st5.PixelateGeneratorRunning = false ∧ st5.RestartPixelateGenerator = false ∧
      st5.PixelDenom = P3 ∧ st5.LoadedImage = st.LoadedImage ∧
      st5.PixelatedImage = out3 := by
  intro st3
  obtain ⟨out1, ho1⟩ := start_isSome P1 st.LoadedImage h1
  obtain ⟨out3, ho3⟩ := start_isSome P3 st.LoadedImage h3
  have e3 : st3 = { st with
      PixelateGeneratorRunning := true, RestartPixelateGenerator := true, PixelDenom := P3
      Workers := [⟨P1, st.LoadedImage⟩], Started := st.Started ++ [⟨P1, st.LoadedImage⟩]
      Emitted := st.Emitted ++ [.generationStarted] } := by
    simp [st3, PixelatePreviewGenerator.setPixDenom, PixelatePreviewGenerator.StartPixelateGenerator,
      PixelatePreviewGenerator.emit, hidle, hnone, himg]
  have e4 : st3.workerFinished 0 = some { st with
      PixelateGeneratorRunning := true, RestartPixelateGenerator := false, PixelDenom := P3
      PixelatedImage := out1
      Workers := [⟨P3, st.LoadedImage⟩]
      Started := st.Started ++ [⟨P1, st.LoadedImage⟩, ⟨P3, st.LoadedImage⟩]
      Emitted := st.Emitted ++ [.generationStarted, .generationFinished, .generationStarted] } := by
    rw [e3]
    simp [PixelatePreviewGenerator.pixelatedImageReady, PixelatePreviewGenerator.workerFinished,
      PixelatePreviewGenerator.StartPixelateGenerator, PixelatePreviewGenerator.emit,
      PixelateImageGenerator.run, ho1]
  have e5 : PixelatePreviewGenerator.workerFinished 0 { st with
      PixelateGeneratorRunning := true, RestartPixelateGenerator := false, PixelDenom := P3
      PixelatedImage := out1
      Workers := [⟨P3, st.LoadedImage⟩]
      Started := st.Started ++ [⟨P1, st.LoadedImage⟩, ⟨P3, st.LoadedImage⟩]
      Emitted := st.Emitted ++ [.generationStarted, .generationFinished, .generationStarted] } =
      some { st with
        PixelateGeneratorRunning := false, RestartPixelateGenerator := false, PixelDenom := P3
        PixelatedImage := out3
        Workers := []
        Started := st.Started ++ [⟨P1, st.LoadedImage⟩, ⟨P3, st.LoadedImage⟩]
        Emitted := st.Emitted ++
          [.generationStarted, .generationFinished, .generationStarted, .generationFinished] } := by
    simp [PixelatePreviewGenerator.pixelatedImageReady, PixelatePreviewGenerator.workerFinished,
      PixelatePreviewGenerator.emit, PixelateImageGenerator.run, ho3]
  exact ⟨by rw [e3], by rw [e3], out1, out3, _, _, ho1, ho3, e4, rfl, rfl, rfl, e5, rfl, rfl, rfl,
    rfl, rfl, rfl, rfl⟩

/-- C4 at the sample preview generator with the denominators 2, 3 and 1. -/
theorem three_submits_two_computations_witness :
    let st3 := ((samplePreview.setPixDenom 2).setPixDenom 3).setPixDenom 1
    st3.Started = samplePreview.Started ++ [⟨2, samplePreview.LoadedImage⟩] ∧
    st3.Workers = [⟨2, samplePreview.LoadedImage⟩] ∧
    ∃ out1 out3 st4 st5,
      PixelateImageGenerator.start 2 samplePreview.LoadedImage = some out1 ∧
      PixelateImageGenerator.start 1 samplePreview.LoadedImage = some out3 ∧
      st3.workerFinished 0 = some st4 ∧
      st4.Started = samplePreview.Started ++
        [⟨2, samplePreview.LoadedImage⟩, ⟨1, samplePreview.LoadedImage⟩] ∧
      st4.Workers = [⟨1, samplePreview.LoadedImage⟩] ∧
      st4.PixelatedImage = out1 ∧
      st4.workerFinished 0 = some st5 ∧
      st5.Started = samplePreview.Started ++
        [⟨2, samplePreview.LoadedImage⟩, ⟨1, samplePreview.LoadedImage⟩] ∧
      st5.Workers = [] ∧
      st5.PixelateGeneratorRunning = false ∧ st5.RestartPixelateGenerator = false ∧
      st5.PixelDenom = 1 ∧ st5.LoadedImage = samplePreview.LoadedImage ∧
      st5.PixelatedImage = out3 :=
  three_submits_two_computations samplePreview 2 3 1 rfl rfl rfl (by decide) (by decide)

theorem PixelatePreviewGenerator.coherent_new : PixelatePreviewGenerator.new.Coherent := by
  right
  refine ⟨rfl, rfl, rfl, ?_⟩
  intro h
  exact absurd h (by decide)

theorem PixelatePreviewGenerator.coherent_setPixDenom (st : PixelatePreviewGenerator) (p : Int)
    (h : st.Coherent) : (st.setPixDenom p).Coherent := by
  unfold PixelatePreviewGenerator.setPixDenom
  simp only
  by_cases hn : st.LoadedImage.isNull = true
  · simp only [hn, Bool.not_true, Bool.false_eq_true, if_false]
    rcases h with ⟨hr, g, hg, _⟩ | ⟨hr, hw, hf, _⟩
    · exact Or.inl ⟨hr, g, hg, fun _ hc => absurd hn (by simp [hc])⟩
    · exact Or.inr ⟨hr, hw, hf, fun hc => absurd hn (by simp [hc])⟩
  · simp only [Bool.not_eq_true] at hn
    simp only [hn, Bool.not_false, if_true]
    rcases h with ⟨hr, g, hg, _⟩ | ⟨hr, hw, hf, _⟩
    · simp only [hr, if_true]
      exact Or.inl ⟨rfl, g, hg, fun hc => absurd hc (by simp)⟩
    · simp only [hr, Bool.false_eq_true, if_false]
      left
      refine ⟨rfl, ⟨p, st.LoadedImage⟩, ?_, fun _ _ => rfl⟩
      simp [PixelatePreviewGenerator.StartPixelateGenerator, PixelatePreviewGenerator.emit, hw]

theorem PixelatePreviewGenerator.coherent_openImage (st : PixelatePreviewGenerator)
    (read : Option QImage) (h : st.Coherent) : (st.openImage read).Coherent := by
  unfold PixelatePreviewGenerator.openImage
  cases read with
  | none =>
    simp only [PixelatePreviewGenerator.emit]
    exact h
  | some image =>
    simp only
    by_cases hn : image.isNull = true
    · simp only [hn, Bool.not_true, Bool.false_eq_true, if_false, PixelatePreviewGenerator.emit]
      rcases h with ⟨hr, g, hg, _⟩ | ⟨hr, hw, hf, _⟩
      · exact Or.inl ⟨hr, g, hg, fun _ hc => absurd hn (by simp [hc])⟩
      · exact Or.inr ⟨hr, hw, hf, fun hc => absurd hn (by simp [hc])⟩
    · simp only [Bool.not_eq_true] at hn
      simp only [hn, Bool.not_false, if_true, PixelatePreviewGenerator.emit]
      rcases h with ⟨hr, g, hg, _⟩ | ⟨hr, hw, hf, _⟩
      · simp only [hr, if_true]
        exact Or.inl ⟨rfl, g, hg, fun hc => absurd hc (by simp)⟩
      · simp only [hr, Bool.false_eq_true, if_false]
        left
        refine ⟨rfl, ⟨st.PixelDenom, image⟩, ?_, fun _ _ => rfl⟩
        simp [PixelatePreviewGenerator.StartPixelateGenerator, PixelatePreviewGenerator.emit, hw]

theorem PixelatePreviewGenerator.coherent_workerFinished (st st' : PixelatePreviewGenerator)
    (k : Nat) (h : st.Coherent) (hk : st.workerFinished k = some st') : st'.Coherent := by
  unfold PixelatePreviewGenerator.workerFinished at hk
  rcases h with ⟨_, g, hg, hcur⟩ | ⟨_, hw, _, _⟩
  · rw [hg] at hk
    cases k with
    | succ k => simp at hk
    | zero =>
      simp only [List.get?, PixelateImageGenerator.run, Option.map_eq_some'] at hk
      obtain ⟨out, hout, rfl⟩ := hk
      unfold PixelatePreviewGenerator.pixelatedImageReady
      simp only [PixelatePreviewGenerator.emit, List.eraseIdx_cons_zero]
      by_cases hf : st.RestartPixelateGenerator = true
      · simp only [hf, if_true]
        left
        refine ⟨rfl, ⟨st.PixelDenom, st.LoadedImage⟩, ?_, fun _ _ => rfl⟩
        simp [PixelatePreviewGenerator.StartPixelateGenerator, PixelatePreviewGenerator.emit]
      · simp only [Bool.not_eq_true] at hf
        simp only [hf, Bool.false_eq_true, if_false]
        right
        refine ⟨rfl, rfl, rfl, fun hl => ?_⟩
        have hgeq := hcur hf hl
        rw [hgeq] at hout
        exact hout
  · rw [hw] at hk
    simp at hk

/-- Every event keeps the preview generator coherent. -/
theorem PixelatePreviewGenerator.coherent_run (evs : List PixelatePreviewGenerator.Event) :
    ∀ st st' : PixelatePreviewGenerator, st.Coherent → st.run evs = some st' → st'.Coherent := by
  induction evs with
  | nil =>
    intro st st' h hr
    simp only [PixelatePreviewGenerator.run, Option.some.injEq] at hr
    exact hr ▸ h
  | cons e es ih =>
    intro st st' h hr
    simp only [PixelatePreviewGenerator.run, Option.bind_eq_some] at hr
    obtain ⟨st1, h1, h2⟩ := hr
    refine ih st1 st' ?_ h2
    cases e with
    | setPixDenom p =>
      simp only [PixelatePreviewGenerator.step, Option.some.injEq] at h1
      exact h1 ▸ PixelatePreviewGenerator.coherent_setPixDenom st p h
    | openImage read =>
      simp only [PixelatePreviewGenerator.step, Option.some.injEq] at h1
      exact h1 ▸ PixelatePreviewGenerator.coherent_openImage st read h
    | workerFinished k =>
      exact PixelatePreviewGenerator.coherent_workerFinished st st1 k h h1

/-- C7: after every sequence of `setPixDenom` calls, `openImage` calls (successful or
not) and generator completions on a new preview generator, hence at any time, at most
one generator is in flight; `PixelateGeneratorRunning` is set exactly when one is in
flight; `RestartPixelateGenerator` is set only while one is in flight; and a
`setPixDenom` made while one is in flight starts nothing, it only sets that flag. -/
theorem at_most_one_generator (evs : List PixelatePreviewGenerator.Event)
    (st : PixelatePreviewGenerator) (h : PixelatePreviewGenerator.new.run evs = some st) :
    st.Workers.length ≤ 1 ∧
    (st.PixelateGeneratorRunning = true ↔ st.Workers.length = 1) ∧
    (st.RestartPixelateGenerator = true →
      st.PixelateGeneratorRunning = true ∧ st.Workers.length = 1) ∧
    (st.PixelateGeneratorRunning = true → ∀ p : Int,
      (st.setPixDenom p).Workers = st.Workers ∧ (st.setPixDenom p).Started = st.Started ∧
      ((st.setPixDenom p).RestartPixelateGenerator = true ∨
        (st.setPixDenom p).RestartPixelateGenerator = st.RestartPixelateGenerator)) := by
  have hc := PixelatePreviewGenerator.coherent_run evs _ st PixelatePreviewGenerator.coherent_new h
  rcases hc with ⟨hr, g, hg, _⟩ | ⟨hr, hw, hf, _⟩
  · refine ⟨by rw [hg]; simp, ⟨fun _ => by rw [hg]; rfl, fun _ => hr⟩,
      fun _ => ⟨hr, by rw [hg]; rfl⟩, fun _ p => ?_⟩
    unfold PixelatePreviewGenerator.setPixDenom
    simp only [hr, if_true]
    split_ifs
    · exact ⟨rfl, rfl, Or.inl rfl⟩
    · exact ⟨rfl, rfl, Or.inr rfl⟩
  · refine ⟨by rw [hw]; simp, ⟨fun hc => ?_, fun hc => ?_⟩, fun hc => ?_, fun hc => ?_⟩
    · rw [hr] at hc; exact absurd hc (by decide)
    · rw [hw] at hc; exact absurd hc (by decide)
    · rw [hf] at hc; exact absurd hc (by decide)
    · rw [hr] at hc; exact absurd hc (by decide)

theorem sampleEvents_isSome :
    (PixelatePreviewGenerator.new.run sampleEvents).isSome = true := rfl

/-- C7 at the sample run. -/
theorem at_most_one_generator_witness :
    ∃ st : PixelatePreviewGenerator, PixelatePreviewGenerator.new.run sampleEvents = some st ∧
      st.Workers.length ≤ 1 ∧
      (st.PixelateGeneratorRunning = true ↔ st.Workers.length = 1) ∧
      (st.RestartPixelateGenerator = true →
        st.PixelateGeneratorRunning = true ∧ st.Workers.length = 1) ∧
      (st.PixelateGeneratorRunning = true → ∀ p : Int,
        (st.setPixDenom p).Workers = st.Workers ∧ (st.setPixDenom p).Started = st.Started ∧
        ((st.setPixDenom p).RestartPixelateGenerator = true ∨
          (st.setPixDenom p).RestartPixelateGenerator = st.RestartPixelateGenerator)) :=
  ⟨(PixelatePreviewGenerator.new.run sampleEvents).get sampleEvents_isSome,
    (Option.some_get sampleEvents_isSome).symm,
    at_most_one_generator sampleEvents _ (Option.some_get sampleEvents_isSome).symm⟩

/-- C8: after every sequence of `setPixDenom` calls, `openImage` calls (successful or
not) and generator completions on a new preview generator, whenever no generator is
running and an image is loaded, the stored `PixelatedImage` is the image `start`
computes from the current `LoadedImage` with the current `PixelDenom`.  No change is
lost on the way: a running generator with no restart pending works on the current
values, and one with a restart pending is followed, when it completes, by a generator
on the values current at that moment. -/
theorem idle_result_is_current (evs : List PixelatePreviewGenerator.Event)
    (st : PixelatePreviewGenerator) (h : PixelatePreviewGenerator.new.run evs = some st) :
    (st.PixelateGeneratorRunning = false → st.LoadedImage.isNull = false →
      PixelateImageGenerator.start st.PixelDenom st.LoadedImage = some st.PixelatedImage) ∧
    (st.PixelateGeneratorRunning = true → st.RestartPixelateGenerator = false →
      st.LoadedImage.isNull = false → st.Workers = [⟨st.PixelDenom, st.LoadedImage⟩]) ∧
    (st.PixelateGeneratorRunning = true → st.RestartPixelateGenerator = true →
      ∀ k st', st.workerFinished k = some st' →
        st'.Workers = [⟨st.PixelDenom, st.LoadedImage⟩] ∧
        st'.PixelDenom = st.PixelDenom ∧ st'.LoadedImage = st.LoadedImage) := by
  have hc := PixelatePreviewGenerator.coherent_run evs _ st PixelatePreviewGenerator.coherent_new h
  rcases hc with ⟨hr, g, hg, hcur⟩ | ⟨hr, hw, hf, hres⟩
  · refine ⟨fun hc => ?_, fun _ hf hl => ?_, fun _ hf k st' hk => ?_⟩
    · rw [hr] at hc; exact absurd hc (by decide)
    · rw [hg, hcur hf hl]
    · unfold PixelatePreviewGenerator.workerFinished at hk
      rw [hg] at hk
      cases k with
      | succ k => simp at hk
      | zero =>
        simp only [List.get?, PixelateImageGenerator.run, Option.map_eq_some'] at hk
        obtain ⟨out, _, rfl⟩ := hk
        simp [PixelatePreviewGenerator.pixelatedImageReady, PixelatePreviewGenerator.emit, hf,
          PixelatePreviewGenerator.StartPixelateGenerator]
  · refine ⟨fun _ hl => hres hl, fun hc => ?_, fun hc => ?_⟩
    · rw [hr] at hc; exact absurd hc (by decide)
    · rw [hr] at hc; exact absurd hc (by decide)

/-- C8 at the sample run. -/
theorem idle_result_is_current_witness :
    ∃ st : PixelatePreviewGenerator, PixelatePreviewGenerator.new.run sampleEvents = some st ∧
      st.PixelateGeneratorRunning = false ∧ st.LoadedImage.isNull = false ∧
      PixelateImageGenerator.start st.PixelDenom st.LoadedImage = some st.PixelatedImage :=
  ⟨(PixelatePreviewGenerator.new.run sampleEvents).get sampleEvents_isSome,
    (Option.some_get sampleEvents_isSome).symm, rfl, rfl,
    (idle_result_is_current sampleEvents _ (Option.some_get sampleEvents_isSome).symm).1 rfl rfl⟩

/-! ### C10: the smoothing coefficient -/

/-- C10: for every integer radius the coefficient exists (the table is never read
outside its 17 entries); it is 16 when `radius < 1`, 1 when `radius > 17`, and
otherwise entry `radius - 1` of `{14, 10, 8, 6, 5, 5, 4, 3, 3, 3, 3, 2, 2, 2, 2, 2, 2}`;
it always lies in `[1, 16]`. -/
theorem blurAlpha_table (radius : Int) :
    ∃ alpha : Int, blurAlpha radius = some alpha ∧ 1 ≤ alpha ∧ alpha ≤ 16 ∧
      (radius < 1 → alpha = 16) ∧ (radius > 17 → alpha = 1) ∧
      (1 ≤ radius → radius ≤ 17 →
        0 ≤ radius - 1 ∧ (radius - 1).toNat < 17 ∧
        ([14, 10, 8, 6, 5, 5, 4, 3, 3, 3, 3, 2, 2, 2, 2, 2, 2] : List Int).get?
          (radius - 1).toNat = some alpha) := by
  by_cases h1 : radius < 1
  · refine ⟨16, by simp [blurAlpha, h1], by decide, by decide, fun _ => rfl, fun h => ?_,
      fun h => ?_⟩ <;> omega
  · by_cases h2 : radius > 17
    · refine ⟨1, by simp [blurAlpha, h1, h2], by decide, by decide, fun h => ?_, fun _ => rfl,
        fun _ h => ?_⟩ <;> omega
    · have hlo : 1 ≤ radius := by omega
      have hhi : radius ≤ 17 := by omega
      have htab : ∃ alpha : Int, tabAt (radius - 1) = some alpha ∧ 1 ≤ alpha ∧ alpha ≤ 16 := by
        interval_cases radius <;> exact ⟨_, rfl, by decide, by decide⟩
      obtain ⟨alpha, ha, ha1, ha2⟩ := htab
      refine ⟨alpha, by simp [blurAlpha, h1, h2, ha], ha1, ha2, fun h => absurd h h1,
        fun h => absurd h h2, fun _ _ => ⟨by omega, by omega, ?_⟩⟩
      unfold tabAt at ha
      rw [if_pos (by omega)] at ha
      exact ha

/-! ### C5: the blur with coefficient 16 -/

theorem BlurState.seed_keeps (st : BlurState) :
    st.seed.byte = st.byte ∧ st.seed.row = st.row ∧ st.seed.col = st.col := by
  unfold BlurState.seed
  have h := forLoop_induct (fun _ (s : BlurState) => s.byte = st.byte ∧ s.row = st.row ∧ s.col = st.col) 0 4
    (fun i st =>
      { st with rgba := Function.update st.rgba i ((st.byte st.row st.col i : Int) * 16) }) st
    ⟨rfl, rfl, rfl⟩ (fun _ _ _ hs => hs)
  exact h

theorem BlurState.smooth_keeps_position (alpha : Int) (st : BlurState) :
    (st.smooth alpha).row = st.row ∧ (st.smooth alpha).col = st.col := by
  unfold BlurState.smooth
  have h := forLoop_induct (fun _ (s : BlurState) => s.row = st.row ∧ s.col = st.col) 0 4
    (fun i st =>
      let acc := st.rgba i +
        Int.tdiv ((((st.byte st.row st.col i : Int) * 16) - st.rgba i) * alpha) 16
      { st with
        rgba := Function.update st.rgba i acc
        byte := fun r c k =>
          if r = st.row ∧ c = st.col ∧ k = i then ((acc >>> (4 : Nat)) % 256).toNat else st.byte r c k }) st
    ⟨rfl, rfl⟩ (fun _ _ _ hs => hs)
  exact h

/-- With coefficient 16 the accumulator becomes the sample itself, and the byte
written back is the byte that was read. -/
theorem smooth16_value (v : Nat) (acc : Int) (hv : v < 256) :
    (((acc + Int.tdiv ((((v : Int) * 16) - acc) * 16) 16) >>> (4 : Nat)) % 256).toNat = v := by
  rw [Int.mul_tdiv_cancel _ (by decide : (16 : Int) ≠ 0)]
  have e : acc + ((v : Int) * 16 - acc) = (v : Int) * 16 := by omega
  rw [e, Int.shiftRight_eq_div_pow]
  norm_num
  omega

theorem BlurState.smooth16_keeps_bytes (st : BlurState) (hb : ∀ r c k, st.byte r c k < 256) :
    (st.smooth 16).byte = st.byte := by
  unfold BlurState.smooth
  have h := forLoop_induct (fun _ (s : BlurState) => s.byte = st.byte ∧ s.row = st.row ∧ s.col = st.col) 0 4
    (fun i st =>
      let acc := st.rgba i +
        Int.tdiv ((((st.byte st.row st.col i : Int) * 16) - st.rgba i) * 16) 16
      { st with
        rgba := Function.update st.rgba i acc
        byte := fun r c k =>
          if r = st.row ∧ c = st.col ∧ k = i then ((acc >>> (4 : Nat)) % 256).toNat else st.byte r c k }) st
    ⟨rfl, rfl, rfl⟩
    (by
      intro k s _ hs
      obtain ⟨h1, h2, h3⟩ := hs
      refine ⟨?_, h2, h3⟩
      simp only
      funext r c j
      split_ifs with hc
      · obtain ⟨rfl, rfl, rfl⟩ := hc
        rw [smooth16_value _ _ (by rw [h1]; exact hb _ _ _), h1]
      · rw [h1])
  exact h.1

/-- Each of the four loop nests leaves the bytes alone when the coefficient is 16. -/
theorem blurLoop1_16_keeps_bytes (r1 r2 c1 c2 : Int) (st : BlurState)
    (hb : ∀ r c k, st.byte r c k < 256) :
    (blurLoop1 16 r1 r2 c1 c2 st).byte = st.byte := by
  unfold blurLoop1
  refine forLoop_induct (fun _ (s : BlurState) => s.byte = st.byte) _ _ _ _ rfl ?_
  intro k s _ hs
  simp only
  refine forLoop_induct (fun _ (t : BlurState) => t.byte = st.byte) _ _ _ _ ?_ ?_
  · exact (BlurState.seed_keeps _).1.trans hs
  · intro j t _ ht
    simp only
    rw [BlurState.smooth16_keeps_bytes t (by rw [ht]; exact hb)]
    exact ht

theorem blurLoop2_16_keeps_bytes (r1 r2 c1 c2 : Int) (st : BlurState)
    (hb : ∀ r c k, st.byte r c k < 256) :
    (blurLoop2 16 r1 r2 c1 c2 st).byte = st.byte := by
  unfold blurLoop2
  refine forLoop_induct (fun _ (s : BlurState) => s.byte = st.byte) _ _ _ _ rfl ?_
  intro k s _ hs
  simp only
  refine forLoop_induct (fun _ (t : BlurState) => t.byte = st.byte) _ _ _ _ ?_ ?_
  · exact (BlurState.seed_keeps _).1.trans hs
  · intro j t _ ht
    simp only
    rw [BlurState.smooth16_keeps_bytes t (by rw [ht]; exact hb)]
    exact ht

theorem blurLoop3_16_keeps_bytes (r1 r2 c1 c2 : Int) (st : BlurState)
    (hb : ∀ r c k, st.byte r c k < 256) :
    (blurLoop3 16 r1 r2 c1 c2 st).byte = st.byte := by
  unfold blurLoop3
  refine forLoop_induct (fun _ (s : BlurState) => s.byte = st.byte) _ _ _ _ rfl ?_
  intro k s _ hs
  simp only
  refine forLoop_induct (fun _ (t : BlurState) => t.byte = st.byte) _ _ _ _ ?_ ?_
  · exact (BlurState.seed_keeps _).1.trans hs
  · intro j t _ ht
    simp only
    rw [BlurState.smooth16_keeps_bytes t (by rw [ht]; exact hb)]
    exact ht

theorem blurLoop4_16_keeps_bytes (r1 r2 c1 c2 : Int) (st : BlurState)
    (hb : ∀ r c k, st.byte r c k < 256) :
    (blurLoop4 16 r1 r2 c1 c2 st).byte = st.byte := by
  unfold blurLoop4
  refine forLoop_induct (fun _ (s : BlurState) => s.byte = st.byte) _ _ _ _ rfl ?_
  intro k s _ hs
  simp only
  refine forLoop_induct (fun _ (t : BlurState) => t.byte = st.byte) _ _ _ _ ?_ ?_
  · exact (BlurState.seed_keeps _).1.trans hs
  · intro j t _ ht
    simp only
    rw [BlurState.smooth16_keeps_bytes t (by rw [ht]; exact hb)]
    exact ht

/-- C5: with the coefficient 16, which is the one chosen for every radius below 1,
the four-pass blur leaves every channel byte of every pixel of every working image
unchanged: its output is its input. -/
theorem blur_identity_at_sixteen (blur_image : BlurImage) (hb : blur_image.IsBytes) :
    (∀ radius : Int, radius < 1 → blurAlpha radius = some 16) ∧
    blurPasses 16 blur_image = blur_image := by
  refine ⟨fun radius h => by simp [blurAlpha, h], ?_⟩
  unfold blurPasses
  simp only
  have h1 := blurLoop1_16_keeps_bytes 0 ((blur_image.height : Int) - 1) 0
    ((blur_image.width : Int) - 1) ⟨blur_image.byte, fun _ => 0, 0, 0⟩ hb
  have h2 := blurLoop2_16_keeps_bytes 0 ((blur_image.height : Int) - 1) 0
    ((blur_image.width : Int) - 1) _ (by rw [h1]; exact hb)
  have h3 := blurLoop3_16_keeps_bytes 0 ((blur_image.height : Int) - 1) 0
    ((blur_image.width : Int) - 1) _ (by rw [h2, h1]; exact hb)
  have h4 := blurLoop4_16_keeps_bytes 0 ((blur_image.height : Int) - 1) 0
    ((blur_image.width : Int) - 1) _ (by rw [h3, h2, h1]; exact hb)
  rw [h4, h3, h2, h1]

/-- C5 at the sample working image. -/
theorem blur_identity_at_sixteen_witness :
    sampleBlurImage.IsBytes ∧
    (∀ radius : Int, radius < 1 → blurAlpha radius = some 16) ∧
    blurPasses 16 sampleBlurImage = sampleBlurImage :=
  ⟨fun r c k => by simp only [sampleBlurImage]; omega,
    blur_identity_at_sixteen sampleBlurImage (fun r c k => by simp only [sampleBlurImage]; omega)⟩

/-! ### C6: the order of the four passes -/

set_option maxRecDepth 100000 in
/-- C6 fails as stated: on the 2 x 2 image `0 0 / 1 3` with coefficient 8 the
code leaves 0 in the first channel of the bottom right pixel, while the passes composed
in the order the spec lists them leave 1 there. -/
theorem listed_order_differs :
    (blurPasses 8 orderSensitiveImage).byte 1 1 0 = 0 ∧
    (specBlurListedOrder 8 orderSensitiveImage).byte 1 1 0 = 1 ∧
    ¬ (∀ (alpha : Int) (b : BlurImage), blurPasses alpha b = specBlurListedOrder alpha b) := by
  have h1 : (blurPasses 8 orderSensitiveImage).byte 1 1 0 = 0 := by decide
  have h2 : (specBlurListedOrder 8 orderSensitiveImage).byte 1 1 0 = 1 := by decide
  refine ⟨h1, h2, fun h => ?_⟩
  have h3 := congrArg (fun b => b.byte 1 1 0) (h 8 orderSensitiveImage)
  simp only [h1, h2] at h3
  exact absurd h3 (by decide)

/-- What `seed` does: the four accumulators are loaded from the pixel at `p`. -/
theorem BlurState.seed_spec (st : BlurState) :
    st.seed.byte = st.byte ∧ st.seed.row = st.row ∧ st.seed.col = st.col ∧
      ∀ k : Int, 0 ≤ k → k < 4 → st.seed.rgba k = (st.byte st.row st.col k : Int) * 16 := by
  unfold BlurState.seed
  have h := forLoop_induct
    (fun i (s : BlurState) => s.byte = st.byte ∧ s.row = st.row ∧ s.col = st.col ∧
      ∀ k : Int, 0 ≤ k → k < (i : Int) → s.rgba k = (st.byte st.row st.col k : Int) * 16) 0 4
    (fun i st =>
      { st with rgba := Function.update st.rgba i ((st.byte st.row st.col i : Int) * 16) }) st
    ⟨rfl, rfl, rfl, fun k h0 h1 => by omega⟩
    (by
      intro i s _ hs
      obtain ⟨h1, h2, h3, h4⟩ := hs
      refine ⟨h1, h2, h3, fun k hk0 hk1 => ?_⟩
      simp only [Function.update_apply]
      split_ifs with hc
      · rw [h1, h2, h3, hc]
      · exact h4 k hk0 (by omega))
  exact h

/-- What `smooth` does: each of the four channels of the pixel at `p` advances
its accumulator by one step of the recurrence and is overwritten by the output. -/
theorem BlurState.smooth_spec (alpha : Int) (st : BlurState) :
    (st.smooth alpha).row = st.row ∧ (st.smooth alpha).col = st.col ∧
      (∀ k : Int, 0 ≤ k → k < 4 → (st.smooth alpha).rgba k =
        st.rgba k + Int.tdiv ((((st.byte st.row st.col k : Int) * 16) - st.rgba k) * alpha) 16) ∧
      (∀ k : Int, 0 ≤ k → k < 4 → (st.smooth alpha).byte st.row st.col k =
        (((st.rgba k + Int.tdiv ((((st.byte st.row st.col k : Int) * 16) - st.rgba k) * alpha) 16)
          >>> (4 : Nat)) % 256).toNat) ∧
      (∀ r c k : Int, ¬ (r = st.row ∧ c = st.col ∧ 0 ≤ k ∧ k < 4) →
        (st.smooth alpha).byte r c k = st.byte r c k) := by
  unfold BlurState.smooth
  have h := forLoop_induct
    (fun i (s : BlurState) => s.row = st.row ∧ s.col = st.col ∧
      (∀ k : Int, 0 ≤ k → k < (i : Int) → s.rgba k =
        st.rgba k + Int.tdiv ((((st.byte st.row st.col k : Int) * 16) - st.rgba k) * alpha) 16) ∧
      (∀ k : Int, (i : Int) ≤ k → s.rgba k = st.rgba k) ∧
      (∀ k : Int, 0 ≤ k → k < (i : Int) → s.byte st.row st.col k =
        (((st.rgba k + Int.tdiv ((((st.byte st.row st.col k : Int) * 16) - st.rgba k) * alpha) 16)
          >>> (4 : Nat)) % 256).toNat) ∧
      (∀ r c k : Int, ¬ (r = st.row ∧ c = st.col ∧ 0 ≤ k ∧ k < (i : Int)) →
        s.byte r c k = st.byte r c k)) 0 4
    (fun i st =>
      let acc := st.rgba i +
        Int.tdiv ((((st.byte st.row st.col i : Int) * 16) - st.rgba i) * alpha) 16
      { st with
        rgba := Function.update st.rgba i acc
        byte := fun r c k =>
          if r = st.row ∧ c = st.col ∧ k = i then ((acc >>> (4 : Nat)) % 256).toNat
          else st.byte r c k }) st
    ⟨rfl, rfl, fun k h0 h1 => by omega, fun _ _ => rfl, fun k h0 h1 => by omega, fun _ _ _ _ => rfl⟩
    (by
      intro i s _ hs
      obtain ⟨h1, h2, h3, h4, h5, h6⟩ := hs
      have hr : s.rgba (0 + (i : Int)) = st.rgba (0 + (i : Int)) := h4 _ (by omega)
      have hb : s.byte s.row s.col (0 + (i : Int)) = st.byte st.row st.col (0 + (i : Int)) := by
        rw [h1, h2]
        exact h6 _ _ _ (by omega)
      refine ⟨h1, h2, fun k hk0 hk1 => ?_, fun k hk => ?_, fun k hk0 hk1 => ?_,
        fun r c k hk => ?_⟩
      · simp only [Function.update_apply]
        split_ifs with hc
        · rw [hr, hb, hc]
        · exact h3 k hk0 (by omega)
      · simp only [Function.update_apply]
        rw [if_neg (by omega)]
        exact h4 k (by omega)
      · simp only
        split_ifs with hc
        · obtain ⟨_, _, hc⟩ := hc
          rw [hr, hb, hc]
        · exact h5 k hk0 (by
            by_contra hn
            exact hc ⟨h1.symm, h2.symm, by omega⟩)
      · simp only
        split_ifs with hc
        · exfalso
          obtain ⟨rfl, rfl, rfl⟩ := hc
          exact hk ⟨h1, h2, by omega, by omega⟩
        · exact h6 r c k (fun hn => hk ⟨hn.1, hn.2.1, hn.2.2.1, by omega⟩))
  exact ⟨h.1, h.2.1, h.2.2.1, h.2.2.2.2.1, h.2.2.2.2.2⟩

/-- One line of a pass.  The pointer starts on the pixel `(pr 0, pc 0)`, the
accumulators are seeded there, and each of the following steps moves the pointer to
the next pixel `(pr (n + 1), pc (n + 1))` of the line and smooths it.  The pixels of
the line receive the outputs of the recurrence over the values the line had before,
and no other byte changes. -/
theorem walk_line (alpha : Int) (move : BlurState → BlurState)
    (pr pc : Nat → Int) (s0 : BlurState) (lo hi : Int)
    (hmb : ∀ s, (move s).byte = s.byte) (hmr : ∀ s, (move s).rgba = s.rgba)
    (hrow : ∀ s n, s.row = pr n → (move s).row = pr (n + 1))
    (hcol : ∀ s n, s.col = pc n → (move s).col = pc (n + 1))
    (hinj : ∀ n n' : Nat, pr n = pr n' → pc n = pc n' → n = n')
    (h0r : s0.row = pr 0) (h0c : s0.col = pc 0) :
    (∀ (r c k : Int) (n : Nat), n ≤ (hi - lo).toNat → r = pr n → c = pc n → 0 ≤ k → k < 4 →
      (forLoop lo hi (fun _ s => move (s.smooth alpha)) (move s0.seed)).byte r c k =
        emaOut alpha (fun j => s0.byte (pr j) (pc j) k) n) ∧
    (∀ r c k : Int,
      (¬ (0 ≤ k ∧ k < 4) ∨ ∀ n : Nat, 1 ≤ n → n ≤ (hi - lo).toNat → ¬ (r = pr n ∧ c = pc n)) →
      (forLoop lo hi (fun _ s => move (s.smooth alpha)) (move s0.seed)).byte r c k =
        s0.byte r c k) := by
  obtain ⟨hsb, hsr, hsc, hsa⟩ := s0.seed_spec
  have h := forLoop_induct
    (fun m (s : BlurState) => s.row = pr (m + 1) ∧ s.col = pc (m + 1) ∧
      (∀ k : Int, 0 ≤ k → k < 4 → s.rgba k = emaAcc alpha (fun j => s0.byte (pr j) (pc j) k) m) ∧
      (∀ (n : Nat) (k : Int), n ≤ m → 0 ≤ k → k < 4 →
        s.byte (pr n) (pc n) k = emaOut alpha (fun j => s0.byte (pr j) (pc j) k) n) ∧
      (∀ r c k : Int,
        (¬ (0 ≤ k ∧ k < 4) ∨ ∀ n : Nat, 1 ≤ n → n ≤ m → ¬ (r = pr n ∧ c = pc n)) →
        s.byte r c k = s0.byte r c k))
    lo hi (fun _ s => move (s.smooth alpha)) (move s0.seed)
    (by
      refine ⟨?_, ?_, ?_, ?_, ?_⟩
      · exact hrow _ 0 (hsr.trans h0r)
      · exact hcol _ 0 (hsc.trans h0c)
      · intro k hk0 hk1
        rw [hmr, hsa k hk0 hk1, h0r, h0c]
        rfl
      · intro n k hn hk0 hk1
        have : n = 0 := by omega
        subst this
        rw [hmb, hsb]
        rfl
      · intro r c k _
        rw [hmb, hsb])
    (by
      intro m s _ hs
      obtain ⟨h1, h2, h3, h4, h5⟩ := hs
      obtain ⟨q1, q2, q3, q4, q5⟩ := s.smooth_spec alpha
      have hcur : ∀ k : Int, s.byte s.row s.col k = s0.byte (pr (m + 1)) (pc (m + 1)) k := by
        intro k
        rw [h1, h2]
        refine h5 _ _ _ (Or.inr fun n hn1 hn2 hc => ?_)
        have := hinj _ _ hc.1 hc.2
        omega
      refine ⟨?_, ?_, ?_, ?_, ?_⟩
      · exact hrow _ (m + 1) (q1.trans h1)
      · exact hcol _ (m + 1) (q2.trans h2)
      · intro k hk0 hk1
        rw [hmr, q3 k hk0 hk1, h3 k hk0 hk1, hcur k]
        rfl
      · intro n k hn hk0 hk1
        rw [hmb]
        by_cases hlast : n = m + 1
        · subst hlast
          rw [← h1, ← h2, q4 k hk0 hk1, h3 k hk0 hk1, hcur k]
          rfl
        · rw [q5 _ _ _ (fun hc => hlast (hinj _ _ (hc.1.trans h1) (hc.2.1.trans h2)))]
          exact h4 n k (by omega) hk0 hk1
      · intro r c k hk
        rw [hmb]
        have hne : ¬ (r = s.row ∧ c = s.col ∧ 0 ≤ k ∧ k < 4) := by
          rintro ⟨hr, hc, hk0, hk1⟩
          rcases hk with hk | hk
          · exact hk ⟨hk0, hk1⟩
          · exact hk (m + 1) (by omega) le_rfl ⟨hr.trans h1, hc.trans h2⟩
        rw [q5 _ _ _ hne]
        refine h5 r c k ?_
        rcases hk with hk | hk
        · exact Or.inl hk
        · exact Or.inr fun n hn1 hn2 => hk n hn1 (by omega))
  refine ⟨fun r c k n hn hr hc hk0 hk1 => ?_, h.2.2.2.2⟩
  rw [hr, hc]
  exact h.2.2.2.1 n k hn hk0 hk1

/-- The first loop nest is the top-to-bottom pass of the spec. -/
theorem blurLoop1_spec (alpha : Int) (b : BlurImage) (st : BlurState) (hst : st.byte = b.byte) :
    (blurLoop1 alpha 0 ((b.height : Int) - 1) 0 ((b.width : Int) - 1) st).byte =
      (specTopToBottom alpha b).byte := by
  unfold blurLoop1
  have h := forLoop_induct
    (fun kk (s : BlurState) => s.byte = fun r c k =>
      if b.inside r c k = true ∧ c < (kk : Int)
      then emaOut alpha (fun n => b.byte (n : Int) c k) (r.toNat) else b.byte r c k)
    0 ((b.width : Int) - 1 + 1)
    (fun col st =>
      let st := { st with row := 0, col := col }
      let st := st.seed
      let st := { st with row := st.row + 1 }
      forLoop 0 ((b.height : Int) - 1) (fun _ st =>
        let st := st.smooth alpha
        { st with row := st.row + 1 }) st) st
    (by
      show st.byte = _
      rw [hst]
      funext r c k
      rw [if_neg]
      simp only [BlurImage.inside, decide_eq_true_eq]
      omega)
    (by
      intro kk s hk hs
      obtain ⟨w1, w2⟩ := walk_line alpha (fun s => { s with row := s.row + 1 })
        (fun n => (n : Int)) (fun _ => 0 + (kk : Int)) { s with row := 0, col := 0 + (kk : Int) }
        0 ((b.height : Int) - 1) (fun _ => rfl) (fun _ => rfl)
        (fun s n h => by simp only [h]; push_cast; ring) (fun s n h => h)
        (fun n n' h _ => by simpa using h) rfl rfl
      simp only at w1 w2 ⊢
      funext r c k
      by_cases hin : b.inside r c k = true
      · have hin' := hin
        simp only [BlurImage.inside, decide_eq_true_eq] at hin'
        by_cases hc : c = (kk : Int)
        · rw [if_pos ⟨hin, by omega⟩]
          rw [w1 r c k (r.toNat) (by omega) (by omega) (by omega) hin'.2.2.2.2.1 hin'.2.2.2.2.2]
          congr 1
          funext j
          rw [hs]
          refine (if_neg (fun h => by have := h.2; omega)).trans ?_
          have e : 0 + (kk : Int) = c := by omega
          rw [e]
        · rw [w2 r c k (Or.inr fun n _ _ hn => hc (by omega)), hs]
          by_cases hlt : c < (kk : Int)
          · exact (if_pos ⟨hin, hlt⟩).trans (if_pos ⟨hin, by omega⟩).symm
          · exact (if_neg (fun h => hlt h.2)).trans
              (if_neg (fun h => hc (by have := h.2; omega))).symm
      · have hin' := hin
        simp only [BlurImage.inside, decide_eq_true_eq] at hin'
        rw [if_neg (fun h => hin h.1)]
        rw [w2 r c k (by
          by_cases hk4 : 0 ≤ k ∧ k < 4
          · right
            intro n hn1 hn2 hn
            exact hin' ⟨by omega, by omega, by omega, by omega, hk4.1, hk4.2⟩
          · exact Or.inl hk4), hs]
        exact if_neg (fun h => hin h.1))
  simp only at h
  rw [h]
  funext r c k
  simp only [specTopToBottom]
  by_cases hin : b.inside r c k = true
  · have hin' := hin
    simp only [BlurImage.inside, decide_eq_true_eq] at hin'
    rw [if_pos ⟨hin, by omega⟩, if_pos hin]
  · rw [if_neg (fun h => hin h.1), if_neg hin]

/-- The second loop nest is the left-to-right pass of the spec. -/
theorem blurLoop2_spec (alpha : Int) (b : BlurImage) (st : BlurState) (hst : st.byte = b.byte) :
    (blurLoop2 alpha 0 ((b.height : Int) - 1) 0 ((b.width : Int) - 1) st).byte =
      (specLeftToRight alpha b).byte := by
  unfold blurLoop2
  have h := forLoop_induct
    (fun kk (s : BlurState) => s.byte = fun r c k =>
      if b.inside r c k = true ∧ r < (kk : Int)
      then emaOut alpha (fun n => b.byte r (n : Int) k) (c.toNat) else b.byte r c k)
    0 ((b.height : Int) - 1 + 1)
    (fun row st =>
      let st := { st with row := row, col := 0 }
      let st := st.seed
      let st := { st with col := st.col + 1 }
      forLoop 0 ((b.width : Int) - 1) (fun _ st =>
        let st := st.smooth alpha
        { st with col := st.col + 1 }) st) st
    (by
      show st.byte = _
      rw [hst]
      funext r c k
      rw [if_neg]
      simp only [BlurImage.inside, decide_eq_true_eq]
      omega)
    (by
      intro kk s hk hs
      obtain ⟨w1, w2⟩ := walk_line alpha (fun s => { s with col := s.col + 1 })
        (fun _ => 0 + (kk : Int)) (fun n => (n : Int)) { s with row := 0 + (kk : Int), col := 0 }
        0 ((b.width : Int) - 1) (fun _ => rfl) (fun _ => rfl)
        (fun s n h => h) (fun s n h => by simp only [h]; push_cast; ring)
        (fun n n' _ h => by simpa using h) rfl rfl
      simp only at w1 w2 ⊢
      funext r c k
      by_cases hin : b.inside r c k = true
      · have hin' := hin
        simp only [BlurImage.inside, decide_eq_true_eq] at hin'
        by_cases hc : r = (kk : Int)
        · rw [if_pos ⟨hin, by omega⟩]
          rw [w1 r c k (c.toNat) (by omega) (by omega) (by omega) hin'.2.2.2.2.1 hin'.2.2.2.2.2]
          congr 1
          funext j
          rw [hs]
          refine (if_neg (fun h => by have := h.2; omega)).trans ?_
          have e : 0 + (kk : Int) = r := by omega
          rw [e]
        · rw [w2 r c k (Or.inr fun n _ _ hn => hc (by omega)), hs]
          by_cases hlt : r < (kk : Int)
          · exact (if_pos ⟨hin, hlt⟩).trans (if_pos ⟨hin, by omega⟩).symm
          · exact (if_neg (fun h => hlt h.2)).trans
              (if_neg (fun h => hc (by have := h.2; omega))).symm
      · have hin' := hin
        simp only [BlurImage.inside, decide_eq_true_eq] at hin'
        rw [if_neg (fun h => hin h.1)]
        rw [w2 r c k (by
          by_cases hk4 : 0 ≤ k ∧ k < 4
          · right
            intro n hn1 hn2 hn
            exact hin' ⟨by omega, by omega, by omega, by omega, hk4.1, hk4.2⟩
          · exact Or.inl hk4), hs]
        exact if_neg (fun h => hin h.1))
  simp only at h
  rw [h]
  funext r c k
  simp only [specLeftToRight]
  by_cases hin : b.inside r c k = true
  · have hin' := hin
    simp only [BlurImage.inside, decide_eq_true_eq] at hin'
    rw [if_pos ⟨hin, by omega⟩, if_pos hin]
  · rw [if_neg (fun h => hin h.1), if_neg hin]

/-- The third loop nest is the bottom-to-top pass of the spec. -/
theorem blurLoop3_spec (alpha : Int) (b : BlurImage) (st : BlurState) (hst : st.byte = b.byte) :
    (blurLoop3 alpha 0 ((b.height : Int) - 1) 0 ((b.width : Int) - 1) st).byte =
      (specBottomToTop alpha b).byte := by
  unfold blurLoop3
  have h := forLoop_induct
    (fun kk (s : BlurState) => s.byte = fun r c k =>
      if b.inside r c k = true ∧ c < (kk : Int)
      then emaOut alpha (fun n => b.byte ((b.height : Int) - 1 - (n : Int)) c k) (((b.height : Int) - 1 - r).toNat) else b.byte r c k)
    0 ((b.width : Int) - 1 + 1)
    (fun col st =>
      let st := { st with row := (b.height : Int) - 1, col := col }
      let st := st.seed
      let st := { st with row := st.row - 1 }
      forLoop 0 ((b.height : Int) - 1) (fun _ st =>
        let st := st.smooth alpha
        { st with row := st.row - 1 }) st) st
    (by
      show st.byte = _
      rw [hst]
      funext r c k
      rw [if_neg]
      simp only [BlurImage.inside, decide_eq_true_eq]
      omega)
    (by
      intro kk s hk hs
      obtain ⟨w1, w2⟩ := walk_line alpha (fun s => { s with row := s.row - 1 })
        (fun n => (b.height : Int) - 1 - (n : Int)) (fun _ => 0 + (kk : Int)) { s with row := (b.height : Int) - 1, col := 0 + (kk : Int) }
        0 ((b.height : Int) - 1) (fun _ => rfl) (fun _ => rfl)
        (fun s n h => by simp only [h]; push_cast; ring) (fun s n h => h)
        (fun n n' h _ => by simp only at h; omega) (by simp) rfl
      simp only at w1 w2 ⊢
      funext r c k
      by_cases hin : b.inside r c k = true
      · have hin' := hin
        simp only [BlurImage.inside, decide_eq_true_eq] at hin'
        by_cases hc : c = (kk : Int)
        · rw [if_pos ⟨hin, by omega⟩]
          rw [w1 r c k (((b.height : Int) - 1 - r).toNat) (by omega) (by omega) (by omega) hin'.2.2.2.2.1 hin'.2.2.2.2.2]
          congr 1
          funext j
          rw [hs]
          refine (if_neg (fun h => by have := h.2; omega)).trans ?_
          have e : 0 + (kk : Int) = c := by omega
          rw [e]
        · rw [w2 r c k (Or.inr fun n _ _ hn => hc (by omega)), hs]
          by_cases hlt : c < (kk : Int)
          · exact (if_pos ⟨hin, hlt⟩).trans (if_pos ⟨hin, by omega⟩).symm
          · exact (if_neg (fun h => hlt h.2)).trans
              (if_neg (fun h => hc (by have := h.2; omega))).symm
      · have hin' := hin
        simp only [BlurImage.inside, decide_eq_true_eq] at hin'
        rw [if_neg (fun h => hin h.1)]
        rw [w2 r c k (by
          by_cases hk4 : 0 ≤ k ∧ k < 4
          · right
            intro n hn1 hn2 hn
            exact hin' ⟨by omega, by omega, by omega, by omega, hk4.1, hk4.2⟩
          · exact Or.inl hk4), hs]
        exact if_neg (fun h => hin h.1))
  simp only at h
  rw [h]
  funext r c k
  simp only [specBottomToTop]
  by_cases hin : b.inside r c k = true
  · have hin' := hin
    simp only [BlurImage.inside, decide_eq_true_eq] at hin'
    rw [if_pos ⟨hin, by omega⟩, if_pos hin]
  · rw [if_neg (fun h => hin h.1), if_neg hin]

/-- The fourth loop nest is the right-to-left pass of the spec. -/
theorem blurLoop4_spec (alpha : Int) (b : BlurImage) (st : BlurState) (hst : st.byte = b.byte) :
    (blurLoop4 alpha 0 ((b.height : Int) - 1) 0 ((b.width : Int) - 1) st).byte =
      (specRightToLeft alpha b).byte := by
  unfold blurLoop4
  have h := forLoop_induct
    (fun kk (s : BlurState) => s.byte = fun r c k =>
      if b.inside r c k = true ∧ r < (kk : Int)
      then emaOut alpha (fun n => b.byte r ((b.width : Int) - 1 - (n : Int)) k) (((b.width : Int) - 1 - c).toNat) else b.byte r c k)
    0 ((b.height : Int) - 1 + 1)
    (fun row st =>
      let st := { st with row := row, col := (b.width : Int) - 1 }
      let st := st.seed
      let st := { st with col := st.col - 1 }
      forLoop 0 ((b.width : Int) - 1) (fun _ st =>
        let st := st.smooth alpha
        { st with col := st.col - 1 }) st) st
    (by
      show st.byte = _
      rw [hst]
      funext r c k
      rw [if_neg]
      simp only [BlurImage.inside, decide_eq_true_eq]
      omega)
    (by
      intro kk s hk hs
      obtain ⟨w1, w2⟩ := walk_line alpha (fun s => { s with col := s.col - 1 })
        (fun _ => 0 + (kk : Int)) (fun n => (b.width : Int) - 1 - (n : Int)) { s with row := 0 + (kk : Int), col := (b.width : Int) - 1 }
        0 ((b.width : Int) - 1) (fun _ => rfl) (fun _ => rfl)
        (fun s n h => h) (fun s n h => by simp only [h]; push_cast; ring)
        (fun n n' _ h => by simp only at h; omega) rfl (by simp)
      simp only at w1 w2 ⊢
      funext r c k
      by_cases hin : b.inside r c k = true
      · have hin' := hin
        simp only [BlurImage.inside, decide_eq_true_eq] at hin'
        by_cases hc : r = (kk : Int)
        · rw [if_pos ⟨hin, by omega⟩]
          rw [w1 r c k (((b.width : Int) - 1 - c).toNat) (by omega) (by omega) (by omega) hin'.2.2.2.2.1 hin'.2.2.2.2.2]
          congr 1
          funext j
          rw [hs]
          refine (if_neg (fun h => by have := h.2; omega)).trans ?_
          have e : 0 + (kk : Int) = r := by omega
          rw [e]
        · rw [w2 r c k (Or.inr fun n _ _ hn => hc (by omega)), hs]
          by_cases hlt : r < (kk : Int)
          · exact (if_pos ⟨hin, hlt⟩).trans (if_pos ⟨hin, by omega⟩).symm
          · exact (if_neg (fun h => hlt h.2)).trans
              (if_neg (fun h => hc (by have := h.2; omega))).symm
      · have hin' := hin
        simp only [BlurImage.inside, decide_eq_true_eq] at hin'
        rw [if_neg (fun h => hin h.1)]
        rw [w2 r c k (by
          by_cases hk4 : 0 ≤ k ∧ k < 4
          · right
            intro n hn1 hn2 hn
            exact hin' ⟨by omega, by omega, by omega, by omega, hk4.1, hk4.2⟩
          · exact Or.inl hk4), hs]
        exact if_neg (fun h => hin h.1))
  simp only at h
  rw [h]
  funext r c k
  simp only [specRightToLeft]
  by_cases hin : b.inside r c k = true
  · have hin' := hin
    simp only [BlurImage.inside, decide_eq_true_eq] at hin'
    rw [if_pos ⟨hin, by omega⟩, if_pos hin]
  · rw [if_neg (fun h => hin h.1), if_neg hin]

/-- C6, amended: for every working image and every coefficient, the blur is the
composition, each pass reading the output of the one before, of (1) the top-to-bottom
pass across every column, seeded by the column's first pixel, (2) the left-to-right
pass across every row, seeded by the row's first pixel, (3) the bottom-to-top pass
across every column, seeded by the column's last pixel, and (4) the right-to-left pass
across every row, seeded by the row's last pixel. -/
theorem blur_is_four_passes (alpha : Int) (b : BlurImage) :
    blurPasses alpha b =
      specRightToLeft alpha (specBottomToTop alpha (specLeftToRight alpha
        (specTopToBottom alpha b))) := by
  have h1 := blurLoop1_spec alpha b ⟨b.byte, fun _ => 0, 0, 0⟩ rfl
  have h2 := blurLoop2_spec alpha (specTopToBottom alpha b) _ h1
  have h3 := blurLoop3_spec alpha (specLeftToRight alpha (specTopToBottom alpha b)) _ h2
  have h4 := blurLoop4_spec alpha
    (specBottomToTop alpha (specLeftToRight alpha (specTopToBottom alpha b))) _ h3
  show BlurImage.mk b.width b.height _ = BlurImage.mk b.width b.height _
  congr 1

/-! ### C9: the pair stored by `effectedImageReady` -/

/-- C9 fails on the code: after `openImage` for a 2 x 1 image and, before its generator
delivers, `openImage` for a 3 x 2 image, two generators are in flight; when the first
delivers, `effectedImageReady` stores the 3 x 2 image as `OriginalImage` next to the
2 x 1 `EffectedImage` computed from the first image, and when the second delivers,
`OriginalImage` becomes the null image next to the 3 x 2 `EffectedImage`. -/
theorem effectedImageReady_mismatch :
    twiceOpenedEditor.Workers.length = 2 ∧
    ∃ st1 st2 : PixelateEditor,
      twiceOpenedEditor.workerFinished 0 = some st1 ∧
      PixelateImageGenerator.start 1 smallImage = some st1.EffectedImage ∧
      st1.OriginalImage = sampleImage ∧
      (st1.EffectedImage.width, st1.EffectedImage.height) = (2, 1) ∧
      (st1.OriginalImage.width, st1.OriginalImage.height) = (3, 2) ∧
      st1.workerFinished 0 = some st2 ∧
      PixelateImageGenerator.start 1 sampleImage = some st2.EffectedImage ∧
      st2.OriginalImage = QImage.null ∧
      (st2.EffectedImage.width, st2.EffectedImage.height) = (3, 2) ∧
      (st2.OriginalImage.width, st2.OriginalImage.height) = (0, 0) := by
  obtain ⟨out1, h1⟩ := start_isSome 1 smallImage (by decide)
  obtain ⟨out2, h2⟩ := start_isSome 1 sampleImage (by decide)
  have d1 : (PixelateImageGenerator.start 1 smallImage).map (fun o => (o.width, o.height)) =
      some (2, 1) := by decide
  have d2 : (PixelateImageGenerator.start 1 sampleImage).map (fun o => (o.width, o.height)) =
      some (3, 2) := by decide
  rw [h1, Option.map_some', Option.some.injEq] at d1
  rw [h2, Option.map_some', Option.some.injEq] at d2
  have e1 : twiceOpenedEditor.workerFinished 0 = some
      (PixelateEditor.effectedImageReady out1
        { twiceOpenedEditor with Workers := [⟨1, sampleImage⟩] }) := by
    have hw : twiceOpenedEditor.Workers = [⟨1, smallImage⟩, ⟨1, sampleImage⟩] := rfl
    unfold PixelateEditor.workerFinished
    rw [hw]
    simp only [List.get?, PixelateImageGenerator.run, h1, Option.map_some', List.eraseIdx_cons_zero]
  have e2 : (PixelateEditor.effectedImageReady out1
        { twiceOpenedEditor with Workers := [⟨1, sampleImage⟩] }).workerFinished 0 = some
      (PixelateEditor.effectedImageReady out2
        { PixelateEditor.effectedImageReady out1
            { twiceOpenedEditor with Workers := [⟨1, sampleImage⟩] } with Workers := [] }) := by
    have hw : (PixelateEditor.effectedImageReady out1
        { twiceOpenedEditor with Workers := [⟨1, sampleImage⟩] }).Workers =
          [⟨1, sampleImage⟩] := rfl
    unfold PixelateEditor.workerFinished
    rw [hw]
    simp only [List.get?, PixelateImageGenerator.run, h2, Option.map_some', List.eraseIdx_cons_zero]
  exact ⟨rfl, _, _, e1, h1, rfl, d1, rfl, e2, h2, rfl, d2, rfl⟩

/-! ### C13, C14: the signals of the undo log -/

/-- The eviction loop only drops entries from the front, and never the last one. -/
theorem evictOldest_drop (l : List QImage) :
    ∀ i : Nat, ∃ n : Nat, evictOldest i l = l.drop n ∧ (l ≠ [] → n < l.length) := by
  induction l with
  | nil => intro i; exact ⟨0, rfl, fun h => absurd rfl h⟩
  | cons x rest ih =>
    intro i
    unfold evictOldest
    split_ifs with hc
    · obtain ⟨n, hn, hlt⟩ := ih (i + 1)
      refine ⟨n + 1, by simpa using hn, fun _ => ?_⟩
      have hr : rest ≠ [] := by
        intro h0
        rw [h0] at hc
        simp [UNDO_DEPTH] at hc
        omega
      have := hlt hr
      simp only [List.length_cons]
      omega
    · exact ⟨0, rfl, fun _ => by simp⟩

/-- What `SaveUndoImage` leaves in the log, for every log: the old entries and the
current image, minus some oldest entries, the current image staying last. -/
theorem saved_stack_shape (stack : List QImage) (cur : QImage) :
    ∃ n : Nat, n ≤ stack.length ∧
      (if (stack ++ [cur]).length > UNDO_DEPTH then evictOldest 0 (stack ++ [cur])
        else stack ++ [cur]) = stack.drop n ++ [cur] := by
  split_ifs with hc
  · obtain ⟨n, hn, hlt⟩ := evictOldest_drop (stack ++ [cur]) 0
    have h := hlt (by simp)
    simp only [List.length_append, List.length_singleton] at h
    refine ⟨n, by omega, ?_⟩
    rw [hn, List.drop_append_of_le_length (by omega)]
  · exact ⟨0, Nat.zero_le _, rfl⟩

/-- C13 fails as stated: a push onto a log that already holds one snapshot emits
`undoAvailabilityChanged(true)` all the same, in both editors. -/
theorem push_on_nonempty_emits :
    loggedPixelateEditor.UndoStack ≠ [] ∧
    loggedPixelateEditor.SaveUndoImage.Emitted =
      loggedPixelateEditor.Emitted ++ [.undoAvailabilityChanged true] ∧
    loggedRetouchEditor.UndoStack ≠ [] ∧
    loggedRetouchEditor.SaveUndoImage.Emitted =
      loggedRetouchEditor.Emitted ++ [.undoAvailabilityChanged true] := by
  refine ⟨by simp [loggedPixelateEditor], rfl, by simp [loggedRetouchEditor], rfl⟩

/-- C13, amended: `SaveUndoImage` emits `undoAvailabilityChanged(true)` exactly once on
every push, whether the log was empty before or not, and nothing else; the log is never
empty after it.  Both editors behave so. -/
theorem push_always_emits (pe : PixelateEditor) (re : RetouchEditor) :
    pe.SaveUndoImage.Emitted = pe.Emitted ++ [.undoAvailabilityChanged true] ∧
    pe.SaveUndoImage.UndoStack ≠ [] ∧
    re.SaveUndoImage.Emitted = re.Emitted ++ [.undoAvailabilityChanged true] ∧
    re.SaveUndoImage.UndoStack ≠ [] := by
  obtain ⟨n, _, hn⟩ := saved_stack_shape pe.UndoStack pe.CurrentImage
  obtain ⟨m, _, hm⟩ := saved_stack_shape re.UndoStack re.CurrentImage
  refine ⟨?_, ?_, ?_, ?_⟩
  · unfold PixelateEditor.SaveUndoImage PixelateEditor.emit
    simp only
    split_ifs <;> rfl
  · rw [pixelate_SaveUndoImage_stack, hn]
    simp
  · unfold RetouchEditor.SaveUndoImage RetouchEditor.emit
    simp only
    split_ifs <;> rfl
  · rw [retouch_SaveUndoImage_stack, hm]
    simp

/-- C14: in both editors `undo()` on an empty undo log changes nothing at all (current
image, log, changed flag and emitted signals are those of before); on a log
`old ++ [top]` it makes `top` the current image, leaves `old` as the log, and emits
`undoAvailabilityChanged(false)`, once, exactly when `old` is empty. -/
theorem undo_empty_is_noop (pe : PixelateEditor) (re : RetouchEditor) (old : List QImage)
    (top : QImage) :
    ({ pe with UndoStack := [] } : PixelateEditor).undo = { pe with UndoStack := [] } ∧
    ({ pe with UndoStack := old ++ [top] } : PixelateEditor).undo.CurrentImage = top ∧
    ({ pe with UndoStack := old ++ [top] } : PixelateEditor).undo.UndoStack = old ∧
    ({ pe with UndoStack := old ++ [top] } : PixelateEditor).undo.Emitted =
      pe.Emitted ++ (if old.isEmpty then [.undoAvailabilityChanged false] else []) ∧
    ({ re with UndoStack := [] } : RetouchEditor).undo = { re with UndoStack := [] } ∧
    ({ re with UndoStack := old ++ [top] } : RetouchEditor).undo.CurrentImage = top ∧
    ({ re with UndoStack := old ++ [top] } : RetouchEditor).undo.UndoStack = old ∧
    ({ re with UndoStack := old ++ [top] } : RetouchEditor).undo.Emitted =
      re.Emitted ++ (if old.isEmpty then [.undoAvailabilityChanged false] else []) := by
  have hlen : (old ++ [top]).length > 0 := by simp
  have hlast : (old ++ [top]).getLast? = some top := by simp
  have hdrop : (old ++ [top]).dropLast = old := by simp
  refine ⟨rfl, ?_, ?_, ?_, rfl, ?_, ?_, ?_⟩
  · simp only [PixelateEditor.undo, hlen, if_true, hlast, hdrop]
    split_ifs <;> rfl
  · simp only [PixelateEditor.undo, hlen, if_true, hlast, hdrop]
    split_ifs <;> rfl
  · simp only [PixelateEditor.undo, hlen, if_true, hlast, hdrop, PixelateEditor.emit]
    cases old with
    | nil => simp
    | cons a l => simp
  · simp only [RetouchEditor.undo, hlen, if_true, hlast, hdrop]
    split_ifs <;> rfl
  · simp only [RetouchEditor.undo, hlen, if_true, hlast, hdrop]
    split_ifs <;> rfl
  · simp only [RetouchEditor.undo, hlen, if_true, hlast, hdrop, RetouchEditor.emit]
    cases old with
    | nil => simp
    | cons a l => simp

/-- C15 fails on the code: `start` divides by `PixelDenom` before any test, so with
`PixelDenom = 0` it delivers nothing, whatever the input image; a new
`PixelateEditor` has `PixelDenom = 0`, and its `openImage` on the 3 x 2 image starts
exactly one generator, with that denominator, which delivers nothing.  With another
denominator the zero-sized image is delivered as it is. -/
theorem start_zero_denom_delivers_nothing :
    (∀ img : QImage, PixelateImageGenerator.start 0 img = none) ∧
    PixelateEditor.new.PixelDenom = 0 ∧
    (∃ g : PixelateImageGenerator,
      (PixelateEditor.openImage (some sampleImage) PixelateEditor.new).Workers = [g] ∧
      g.PixelDenom = 0 ∧ g.run = none) ∧
    PixelateEditor.workerFinished 0
      (PixelateEditor.openImage (some sampleImage) PixelateEditor.new) = none ∧
    (PixelateImageGenerator.start 4 QImage.null).isSome = true := by
  refine ⟨fun img => rfl, rfl, ⟨⟨0, sampleImage⟩, rfl, rfl, rfl⟩, rfl, rfl⟩

/-! ### C18: a clone update whose brushes overlap -/

/-- C18: on the 4 x 1 image `1 2 3 4` with the sampling point at `(0, 0)`, the clone
update of radius 1 at `(1, 0)`, whose brush shares pixels with the brush around the
sampling point, leaves `1 1 1 4`, while copy-before-write gives `1 1 2 4`: pixel
`(2, 0)` received the value pixel `(1, 0)` had been given earlier in the same update,
not the value 2 it held before.  The two buffers differ. -/
theorem overlapping_clone_reads_overwritten (qt : QtImaging) (G : Int) :
    ¬ DiscsDisjoint overlapCloneEditor.SamplingPoint.x overlapCloneEditor.SamplingPoint.y 1 0 1 ∧
    ∃ st : RetouchEditor,
      RetouchEditor.ChangeImageAt qt G false 1 0 1 overlapCloneEditor = some st ∧
      (List.range 4).map (fun x => st.CurrentImage.pixel x 0) = [1, 1, 1, 4] ∧
      (List.range 4).map (fun x =>
        (cloneFromCopy overlapCloneEditor.CurrentImage overlapCloneEditor.SamplingPoint 1 0 1).pixel
          x 0) = [1, 1, 2, 4] ∧
      overlapCloneEditor.CurrentImage.pixel 1 0 = 2 ∧
      st.CurrentImage ≠
        cloneFromCopy overlapCloneEditor.CurrentImage overlapCloneEditor.SamplingPoint 1 0 1 := by
  refine ⟨fun h => h 1 0 0 0 (by decide) (by decide) ⟨rfl, rfl⟩, ?_⟩
  have hrun : RetouchEditor.ChangeImageAt qt G false 1 0 1 overlapCloneEditor =
      some (({ overlapCloneEditor with
        CurrentImage := cloneStamp ⟨0, 0⟩ 1 0 1 rowImage, IsChanged := true }).emit
          .helperImageReady) := rfl
  refine ⟨_, hrun, ?_, ?_, ?_, ?_⟩
  · decide
  · decide
  · decide
  · intro h
    have h2 := congrArg (fun img => QImage.pixel img 2 0) h
    revert h2
    decide

/-! ### C20: a press followed by `undo` -/

/-- The eviction loop entered with counter `i` removes `(length - i - 3) / 2` oldest
entries: one for a log of five or six, none for a shorter one. -/
theorem evictOldest_eq_drop :
    ∀ (l : List QImage) (i : Nat), evictOldest i l = l.drop ((l.length - i - 3) / 2)
  | [], i => by simp [evictOldest]
  | img :: rest, i => by
    rw [evictOldest]
    split_ifs with h
    · rw [evictOldest_eq_drop rest (i + 1)]
      have e : ((img :: rest).length - i - 3) / 2 = (rest.length - (i + 1) - 3) / 2 + 1 := by
        simp only [List.length_cons, UNDO_DEPTH] at h ⊢
        omega
      rw [e, List.drop_succ_cons]
    · have e : ((img :: rest).length - i - 3) / 2 = 0 := by
        simp only [List.length_cons, UNDO_DEPTH] at h ⊢
        omega
      rw [e, List.drop_zero]

/-- What `SaveUndoImage` leaves in the log, for every log `stack`: the entries of
`stack` without its `(length - 2) / 2` oldest ones (none up to three entries, one
for four), followed by the current image. -/
theorem saved_stack_exact (stack : List QImage) (cur : QImage) :
    (if (stack ++ [cur]).length > UNDO_DEPTH then evictOldest 0 (stack ++ [cur])
      else stack ++ [cur]) = stack.drop ((stack.length - 2) / 2) ++ [cur] := by
  split_ifs with hc
  · rw [evictOldest_eq_drop]
    simp only [List.length_append, List.length_singleton] at hc ⊢
    have e : (stack.length + 1 - 0 - 3) / 2 = (stack.length - 2) / 2 := by omega
    rw [e, List.drop_append_of_le_length (by omega)]
  · simp only [List.length_append, List.length_singleton, UNDO_DEPTH] at hc
    have e : (stack.length - 2) / 2 = 0 := by omega
    rw [e, List.drop_zero]

theorem pixelate_undo_snoc (st : PixelateEditor) (old : List QImage) (top : QImage)
    (h : st.UndoStack = old ++ [top]) :
    st.undo.CurrentImage = top ∧ st.undo.UndoStack = old := by
  have hlen : st.UndoStack.length > 0 := by simp [h]
  have hlast : st.UndoStack.getLast? = some top := by simp [h]
  have hdrop : st.UndoStack.dropLast = old := by simp [h]
  simp only [PixelateEditor.undo, hlen, if_true, hlast, hdrop, PixelateEditor.emit]
  split_ifs <;> exact ⟨rfl, rfl⟩

theorem retouch_undo_snoc (st : RetouchEditor) (old : List QImage) (top : QImage)
    (h : st.UndoStack = old ++ [top]) :
    st.undo.CurrentImage = top ∧ st.undo.UndoStack = old := by
  have hlen : st.UndoStack.length > 0 := by simp [h]
  have hlast : st.UndoStack.getLast? = some top := by simp [h]
  have hdrop : st.UndoStack.dropLast = old := by simp [h]
  simp only [RetouchEditor.undo, hlen, if_true, hlast, hdrop, RetouchEditor.emit]
  split_ifs <;> exact ⟨rfl, rfl⟩

/-- The coefficient is defined for every `GAUSSIAN_RADIUS`: the table is read inside
its 17 entries only. -/
theorem blurAlpha_some (G : Int) : ∃ alpha : Int, blurAlpha G = some alpha := by
  unfold blurAlpha
  split_ifs with h1 h2
  · exact ⟨16, rfl⟩
  · exact ⟨1, rfl⟩
  · have h3 : 1 ≤ G := by omega
    have h4 : G ≤ 17 := by omega
    interval_cases G <;> exact ⟨_, rfl⟩

/-- A brush update of the pixelate editor with `save_undo = true` leaves in the log
what `SaveUndoImage` leaves there. -/
theorem pixelate_press_stack (st : PixelateEditor) (cx cy r : Int)
    (hmode : st.CurrentMode ≠ PixelateEditor.ModeScroll) :
    (st.ChangeImageAt true cx cy r).UndoStack =
      st.UndoStack.drop ((st.UndoStack.length - 2) / 2) ++ [st.CurrentImage] := by
  have hs : (st.ChangeImageAt true cx cy r).UndoStack = st.SaveUndoImage.UndoStack := by
    unfold PixelateEditor.ChangeImageAt
    rw [if_pos hmode]
    rfl
  rw [hs, pixelate_SaveUndoImage_stack, saved_stack_exact]

/-- A brush update of the retouch editor with `save_undo = true` delivers a state,
with in its log what `SaveUndoImage` leaves there. -/
theorem retouch_press_stack (qt : QtImaging) (G : Int) (st : RetouchEditor) (cx cy r : Int)
    (hmode : st.CurrentMode = RetouchEditor.ModeClone ∨ st.CurrentMode = RetouchEditor.ModeBlur) :
    ∃ st' : RetouchEditor, RetouchEditor.ChangeImageAt qt G true cx cy r st = some st' ∧
      st'.UndoStack = st.UndoStack.drop ((st.UndoStack.length - 2) / 2) ++ [st.CurrentImage] := by
  have hm : st.SaveUndoImage.CurrentMode = st.CurrentMode := by
    simp only [RetouchEditor.SaveUndoImage, RetouchEditor.emit]
    split_ifs <;> rfl
  have hstack := (retouch_SaveUndoImage_stack st).trans (saved_stack_exact st.UndoStack st.CurrentImage)
  obtain ⟨alpha, ha⟩ := blurAlpha_some G
  unfold RetouchEditor.ChangeImageAt
  rw [if_pos hmode]
  simp only [if_true, hm]
  by_cases hc : st.CurrentMode = RetouchEditor.ModeClone
  · rw [if_pos hc]
    exact ⟨_, rfl, hstack⟩
  · have hb : st.CurrentMode = RetouchEditor.ModeBlur := hmode.resolve_left hc
    rw [if_neg hc, if_pos hb]
    simp only [RetouchEditor.blurBrush, ha, Option.map_some']
    exact ⟨_, rfl, hstack⟩

/-- C20: in both editors a brush update with `save_undo = true` (pixelate editor: any
mode but scroll; retouch editor: clone or blur mode, where the update always
delivers a state) followed by `undo()` gives back the current image of before the
update, whatever the undo log held; the log is then the previous log without its
`(L - 2) / 2` oldest entries, `L` being its previous length: the previous log itself
for `L ≤ 3`, the previous log without its oldest entry for `L = 4`. -/
theorem press_then_undo_restores (qt : QtImaging) (G : Int) (pe : PixelateEditor)
    (re : RetouchEditor) (cx cy r : Int)
    (hp : pe.CurrentMode ≠ PixelateEditor.ModeScroll)
    (hr : re.CurrentMode = RetouchEditor.ModeClone ∨ re.CurrentMode = RetouchEditor.ModeBlur) :
    (pe.ChangeImageAt true cx cy r).undo.CurrentImage = pe.CurrentImage ∧
    (pe.ChangeImageAt true cx cy r).undo.UndoStack =
      pe.UndoStack.drop ((pe.UndoStack.length - 2) / 2) ∧
    ∃ st : RetouchEditor, RetouchEditor.ChangeImageAt qt G true cx cy r re = some st ∧
      st.undo.CurrentImage = re.CurrentImage ∧
      st.undo.UndoStack = re.UndoStack.drop ((re.UndoStack.length - 2) / 2) := by
  have h1 := pixelate_undo_snoc _ _ _ (pixelate_press_stack pe cx cy r hp)
  obtain ⟨st, hst, hstack⟩ := retouch_press_stack qt G re cx cy r hr
  have h2 := retouch_undo_snoc _ _ _ hstack
  exact ⟨h1.1, h1.2, st, hst, h2.1, h2.2⟩

/-- C20 at two editors whose logs are at capacity: the oldest snapshot is lost, the
current image comes back. -/
theorem press_then_undo_restores_witness :
    fullLogPixelateEditor.UndoStack.length = UNDO_DEPTH ∧
    fullLogRetouchEditor.UndoStack.length = UNDO_DEPTH ∧
    (fullLogPixelateEditor.UndoStack.length - 2) / 2 = 1 ∧
    (fullLogPixelateEditor.ChangeImageAt true 1 1 1).undo.CurrentImage =
      fullLogPixelateEditor.CurrentImage ∧
    (fullLogPixelateEditor.ChangeImageAt true 1 1 1).undo.UndoStack =
      fullLogPixelateEditor.UndoStack.drop ((fullLogPixelateEditor.UndoStack.length - 2) / 2) ∧
    ∃ st : RetouchEditor,
      RetouchEditor.ChangeImageAt plainQt 5 true 1 1 1 fullLogRetouchEditor = some st ∧
      st.undo.CurrentImage = fullLogRetouchEditor.CurrentImage ∧
      st.undo.UndoStack =
        fullLogRetouchEditor.UndoStack.drop ((fullLogRetouchEditor.UndoStack.length - 2) / 2) :=
  ⟨rfl, rfl, rfl,
    press_then_undo_restores plainQt 5 fullLogPixelateEditor fullLogRetouchEditor 1 1 1
      (by decide) (by decide)⟩

/-! ### C17: the brush of the pixelate editor -/

theorem brushedImage_congr (img src : QImage) (cx cy r : Int) (D D' : Int → Int → Bool)
    (h : ∀ a b, withinBrush (a - cx) (b - cy) r = true → D a b = D' a b) :
    brushedImage img src cx cy r D = brushedImage img src cx cy r D' := by
  refine (QImage.ext_iff' _ _).2 ⟨rfl, rfl, fun a b => ?_⟩
  simp only [brushedImage]
  by_cases hw : withinBrush (a - cx) (b - cy) r = true
  · rw [h _ _ hw]
  · rw [if_neg (fun hc => hw hc.2.2), if_neg (fun hc => hw hc.2.2)]

/-- One step of the inner brush loop, at pixel `(x, y)`. -/
theorem brush_step (img src : QImage) (cx cy r x y : Int) (D : Int → Int → Bool) :
    (if x ≥ 0 ∧ x < ((brushedImage img src cx cy r D).width : Int) ∧ y ≥ 0 ∧
          y < ((brushedImage img src cx cy r D).height : Int) ∧
          withinBrush (x - cx) (y - cy) r = true
      then (brushedImage img src cx cy r D).setPixel x y (src.pixel x y)
      else brushedImage img src cx cy r D) =
    brushedImage img src cx cy r (fun a b => D a b || decide (a = x ∧ b = y)) := by
  have hw1 : (brushedImage img src cx cy r D).width = img.width := rfl
  have hh1 : (brushedImage img src cx cy r D).height = img.height := rfl
  rw [hw1, hh1]
  by_cases hc : x ≥ 0 ∧ x < (img.width : Int) ∧ y ≥ 0 ∧ y < (img.height : Int) ∧
      withinBrush (x - cx) (y - cy) r = true
  · rw [if_pos hc]
    have hv : img.valid x y = true := by
      simp only [QImage.valid, decide_eq_true_eq]
      exact ⟨hc.1, hc.2.1, hc.2.2.1, hc.2.2.2.1⟩
    unfold QImage.setPixel
    rw [if_pos (show (brushedImage img src cx cy r D).valid x y = true from hv)]
    refine (QImage.ext_iff' _ _).2 ⟨rfl, rfl, fun a b => ?_⟩
    simp only [brushedImage]
    by_cases hab : a = x ∧ b = y
    · obtain ⟨rfl, rfl⟩ := hab
      rw [if_pos ⟨rfl, rfl⟩, if_pos ⟨by simp, hv, hc.2.2.2.2⟩]
    · rw [if_neg hab]
      simp only [hab, decide_False, Bool.or_false]
  · rw [if_neg hc]
    refine (QImage.ext_iff' _ _).2 ⟨rfl, rfl, fun a b => ?_⟩
    simp only [brushedImage]
    by_cases hab : a = x ∧ b = y
    · obtain ⟨rfl, rfl⟩ := hab
      have hno : ¬ (img.valid a b = true ∧ withinBrush (a - cx) (b - cy) r = true) := by
        rintro ⟨hv, hw⟩
        simp only [QImage.valid, decide_eq_true_eq] at hv
        exact hc ⟨hv.1, hv.2.1, hv.2.2.1, hv.2.2.2, hw⟩
      rw [if_neg (fun h => hno h.2), if_neg (fun h => hno h.2)]
    · simp only [hab, decide_False, Bool.or_false]

/-- One column of the brush loops: the inner loop at the column `cx - r + kx`. -/
theorem brush_column (img src : QImage) (cx cy r : Int) (kx : Nat) :
    forLoop (cy - r) (cy + r + 1) (fun y im =>
        if cx - r + (kx : Int) ≥ 0 ∧ cx - r + (kx : Int) < (im.width : Int) ∧ y ≥ 0 ∧
            y < (im.height : Int) ∧ withinBrush (cx - r + (kx : Int) - cx) (y - cy) r = true
        then im.setPixel (cx - r + (kx : Int)) y (src.pixel (cx - r + (kx : Int)) y)
        else im)
      (brushedImage img src cx cy r (fun a _ => decide (a - cx + r < (kx : Int)))) =
    brushedImage img src cx cy r (fun a _ => decide (a - cx + r < ((kx + 1 : Nat) : Int))) := by
  have h := forLoop_induct
    (fun ky (im : QImage) => im = brushedImage img src cx cy r (fun a b =>
      decide (a - cx + r < (kx : Int)) || decide (a - cx + r = (kx : Int) ∧ b - cy + r < (ky : Int))))
    (cy - r) (cy + r + 1) (fun y im =>
        if cx - r + (kx : Int) ≥ 0 ∧ cx - r + (kx : Int) < (im.width : Int) ∧ y ≥ 0 ∧
            y < (im.height : Int) ∧ withinBrush (cx - r + (kx : Int) - cx) (y - cy) r = true
        then im.setPixel (cx - r + (kx : Int)) y (src.pixel (cx - r + (kx : Int)) y)
        else im)
    (brushedImage img src cx cy r (fun a _ => decide (a - cx + r < (kx : Int))))
    (by
      refine brushedImage_congr _ _ _ _ _ _ _ fun a b hab => ?_
      have hb := withinBrush_bounds _ _ _ hab
      rw [Bool.eq_iff_iff]
      simp only [Bool.or_eq_true, decide_eq_true_eq]
      omega)
    (by
      intro ky st _ hst
      subst hst
      simp only
      rw [brush_step img src cx cy r (cx - r + (kx : Int)) (cy - r + (ky : Int))]
      refine brushedImage_congr _ _ _ _ _ _ _ fun a b _ => ?_
      rw [Bool.eq_iff_iff]
      simp only [Bool.or_eq_true, decide_eq_true_eq]
      omega)
  simp only at h
  rw [h]
  refine brushedImage_congr _ _ _ _ _ _ _ fun a b hab => ?_
  have hb := withinBrush_bounds _ _ _ hab
  rw [Bool.eq_iff_iff]
  simp only [Bool.or_eq_true, decide_eq_true_eq]
  omega

/-- The brush loops write the value of `src` on every pixel of the image inside the
brush, and nothing else. -/
theorem brushLoop_eq (img src : QImage) (cx cy r : Int) :
    forLoop (cx - r) (cx + r + 1) (fun x im =>
      forLoop (cy - r) (cy + r + 1) (fun y im =>
        if x ≥ 0 ∧ x < (im.width : Int) ∧ y ≥ 0 ∧ y < (im.height : Int) ∧
            withinBrush (x - cx) (y - cy) r = true
        then im.setPixel x y (src.pixel x y)
        else im) im) img =
    brushedImage img src cx cy r (fun _ _ => true) := by
  have h := forLoop_induct
    (fun kx (im : QImage) =>
      im = brushedImage img src cx cy r (fun a _ => decide (a - cx + r < (kx : Int))))
    (cx - r) (cx + r + 1) (fun x im =>
      forLoop (cy - r) (cy + r + 1) (fun y im =>
        if x ≥ 0 ∧ x < (im.width : Int) ∧ y ≥ 0 ∧ y < (im.height : Int) ∧
            withinBrush (x - cx) (y - cy) r = true
        then im.setPixel x y (src.pixel x y)
        else im) im) img
    (by
      refine (QImage.ext_iff' _ _).2 ⟨rfl, rfl, fun a b => ?_⟩
      simp only [brushedImage]
      by_cases hw : withinBrush (a - cx) (b - cy) r = true
      · have hb := withinBrush_bounds _ _ _ hw
        rw [if_neg]
        rintro ⟨hd, -⟩
        simp only [decide_eq_true_eq] at hd
        omega
      · rw [if_neg (fun hc => hw hc.2.2)])
    (by
      intro kx st _ hst
      subst hst
      exact brush_column img src cx cy r kx)
  simp only at h
  rw [h]
  refine brushedImage_congr _ _ _ _ _ _ _ fun a b hab => ?_
  have hb := withinBrush_bounds _ _ _ hab
  simp only [decide_eq_true_eq]
  omega

/-- The current image after a brush update of the pixelate editor outside scroll
mode. -/
theorem pixelate_ChangeImageAt_image (st : PixelateEditor) (save_undo : Bool) (cx cy r : Int)
    (hm : st.CurrentMode ≠ PixelateEditor.ModeScroll) :
    (st.ChangeImageAt save_undo cx cy r).CurrentImage =
      brushedImage st.CurrentImage
        (if st.CurrentMode = PixelateEditor.ModeOriginal then st.OriginalImage
          else st.EffectedImage) cx cy r (fun _ _ => true) := by
  have hst : ∀ b : Bool,
      (if b = true then st.SaveUndoImage else st).CurrentMode = st.CurrentMode ∧
      (if b = true then st.SaveUndoImage else st).OriginalImage = st.OriginalImage ∧
      (if b = true then st.SaveUndoImage else st).EffectedImage = st.EffectedImage ∧
      (if b = true then st.SaveUndoImage else st).CurrentImage = st.CurrentImage := by
    intro b
    cases b
    · exact ⟨rfl, rfl, rfl, rfl⟩
    · simp only [if_true, PixelateEditor.SaveUndoImage, PixelateEditor.emit]
      split_ifs <;> simp
  obtain ⟨h1, h2, h3, h4⟩ := hst save_undo
  unfold PixelateEditor.ChangeImageAt
  rw [if_pos hm]
  simp only [PixelateEditor.emit, h1, h2, h3, h4]
  by_cases hO : st.CurrentMode = PixelateEditor.ModeOriginal
  · simp only [hO, if_true]
    exact brushLoop_eq _ _ _ _ _
  · simp only [hO, if_false]
    exact brushLoop_eq _ _ _ _ _

theorem brushedImage_pixel_in (img src : QImage) (cx cy r x y : Int) (hr : 0 ≤ r)
    (hv : img.valid x y = true) (hd : (x - cx) * (x - cx) + (y - cy) * (y - cy) ≤ r * r) :
    (brushedImage img src cx cy r (fun _ _ => true)).pixel x y = src.pixel x y := by
  have hw : withinBrush (x - cx) (y - cy) r = true := by
    simp only [withinBrush, decide_eq_true_eq]
    exact ⟨hr, hd⟩
  have hpix : (brushedImage img src cx cy r (fun _ _ => true)).pix x y = src.pixel x y := by
    simp only [brushedImage, hv, hw, and_self, if_true]
  have hval : (brushedImage img src cx cy r (fun _ _ => true)).valid x y = true := hv
  rw [QImage.pixel, if_pos hval, hpix]

theorem brushedImage_pixel_out (img src : QImage) (cx cy r x y : Int)
    (hd : ¬ ((x - cx) * (x - cx) + (y - cy) * (y - cy) ≤ r * r)) :
    (brushedImage img src cx cy r (fun _ _ => true)).pixel x y = img.pixel x y := by
  have hw : ¬ withinBrush (x - cx) (y - cy) r = true := fun h => hd (withinBrush_sq _ _ _ h)
  have hpix : (brushedImage img src cx cy r (fun _ _ => true)).pix x y = img.pix x y := by
    simp only [brushedImage]
    rw [if_neg (fun hc => hw hc.2.2)]
  unfold QImage.pixel
  rw [hpix]
  rfl

/-- C17: one brush update of `PixelateEditor::ChangeImageAt` with centre `(cx, cy)` and
radius `r ≥ 0`.  In mode "original" (respectively "effected") every pixel of the current
image with `(x - cx)² + (y - cy)² ≤ r²` takes the value `OriginalImage` (respectively
`EffectedImage`) has there, every pixel outside that disc keeps its value, and the size
of the image is kept; in scroll mode the whole state, undo log included, is left as it
is.  The three images need not even be of equal size: a read outside an image gives the
value Qt answers there. -/
theorem brush_update_frame (st : PixelateEditor) (save_undo : Bool) (cx cy r : Int)
    (hr : 0 ≤ r) :
    (∀ x y : Int, st.CurrentImage.valid x y = true → (x - cx) * (x - cx) + (y - cy) * (y - cy) ≤ r * r →
      (PixelateEditor.ChangeImageAt save_undo cx cy r
        { st with CurrentMode := PixelateEditor.ModeOriginal }).CurrentImage.pixel x y = st.OriginalImage.pixel x y ∧
      (PixelateEditor.ChangeImageAt save_undo cx cy r
        { st with CurrentMode := PixelateEditor.ModeEffected }).CurrentImage.pixel x y = st.EffectedImage.pixel x y) ∧
    (∀ x y : Int, ¬ ((x - cx) * (x - cx) + (y - cy) * (y - cy) ≤ r * r) →
      (PixelateEditor.ChangeImageAt save_undo cx cy r
        { st with CurrentMode := PixelateEditor.ModeOriginal }).CurrentImage.pixel x y = st.CurrentImage.pixel x y ∧
      (PixelateEditor.ChangeImageAt save_undo cx cy r
        { st with CurrentMode := PixelateEditor.ModeEffected }).CurrentImage.pixel x y = st.CurrentImage.pixel x y) ∧
    ((PixelateEditor.ChangeImageAt save_undo cx cy r
        { st with CurrentMode := PixelateEditor.ModeOriginal }).CurrentImage.width = st.CurrentImage.width ∧
      (PixelateEditor.ChangeImageAt save_undo cx cy r
        { st with CurrentMode := PixelateEditor.ModeOriginal }).CurrentImage.height = st.CurrentImage.height ∧
      (PixelateEditor.ChangeImageAt save_undo cx cy r
        { st with CurrentMode := PixelateEditor.ModeEffected }).CurrentImage.width = st.CurrentImage.width ∧
      (PixelateEditor.ChangeImageAt save_undo cx cy r
        { st with CurrentMode := PixelateEditor.ModeEffected }).CurrentImage.height = st.CurrentImage.height) ∧
    PixelateEditor.ChangeImageAt save_undo cx cy r { st with CurrentMode := PixelateEditor.ModeScroll } =
      { st with CurrentMode := PixelateEditor.ModeScroll } := by
  have h10 : PixelateEditor.ModeOriginal ≠ PixelateEditor.ModeScroll := by decide
  have h20 : PixelateEditor.ModeEffected ≠ PixelateEditor.ModeScroll := by decide
  have h21 : PixelateEditor.ModeEffected ≠ PixelateEditor.ModeOriginal := by decide
  have hO := pixelate_ChangeImageAt_image { st with CurrentMode := PixelateEditor.ModeOriginal }
    save_undo cx cy r h10
  have hE := pixelate_ChangeImageAt_image { st with CurrentMode := PixelateEditor.ModeEffected }
    save_undo cx cy r h20
  simp only [if_true] at hO
  simp only [if_neg h21] at hE
  refine ⟨fun x y hv hd => ?_, fun x y hd => ?_, ?_, ?_⟩
  · rw [hO, hE]
    exact ⟨brushedImage_pixel_in _ _ _ _ _ _ _ hr hv hd,
      brushedImage_pixel_in _ _ _ _ _ _ _ hr hv hd⟩
  · rw [hO, hE]
    exact ⟨brushedImage_pixel_out _ _ _ _ _ _ _ hd, brushedImage_pixel_out _ _ _ _ _ _ _ hd⟩
  · rw [hO, hE]
    exact ⟨rfl, rfl, rfl, rfl⟩
  · unfold PixelateEditor.ChangeImageAt
    rw [if_neg (fun h => h rfl)]

/-- C17 at the editor over the 3 x 2 image: a brush of radius 1 at `(1, 1)`, with a
snapshot pushed. -/
theorem brush_update_frame_witness :
    (0 : Int) ≤ 1 ∧
    (∀ x y : Int, fullLogPixelateEditor.CurrentImage.valid x y = true → (x - 1) * (x - 1) + (y - 1) * (y - 1) ≤ 1 * 1 →
      (PixelateEditor.ChangeImageAt true 1 1 1
        { fullLogPixelateEditor with CurrentMode := PixelateEditor.ModeOriginal }).CurrentImage.pixel x y = fullLogPixelateEditor.OriginalImage.pixel x y ∧
      (PixelateEditor.ChangeImageAt true 1 1 1
        { fullLogPixelateEditor with CurrentMode := PixelateEditor.ModeEffected }).CurrentImage.pixel x y = fullLogPixelateEditor.EffectedImage.pixel x y) ∧
    (∀ x y : Int, ¬ ((x - 1) * (x - 1) + (y - 1) * (y - 1) ≤ 1 * 1) →
      (PixelateEditor.ChangeImageAt true 1 1 1
        { fullLogPixelateEditor with CurrentMode := PixelateEditor.ModeOriginal }).CurrentImage.pixel x y = fullLogPixelateEditor.CurrentImage.pixel x y ∧
      (PixelateEditor.ChangeImageAt true 1 1 1
        { fullLogPixelateEditor with CurrentMode := PixelateEditor.ModeEffected }).CurrentImage.pixel x y = fullLogPixelateEditor.CurrentImage.pixel x y) ∧
    ((PixelateEditor.ChangeImageAt true 1 1 1
        { fullLogPixelateEditor with CurrentMode := PixelateEditor.ModeOriginal }).CurrentImage.width = fullLogPixelateEditor.CurrentImage.width ∧
      (PixelateEditor.ChangeImageAt true 1 1 1
        { fullLogPixelateEditor with CurrentMode := PixelateEditor.ModeOriginal }).CurrentImage.height = fullLogPixelateEditor.CurrentImage.height ∧
      (PixelateEditor.ChangeImageAt true 1 1 1
        { fullLogPixelateEditor with CurrentMode := PixelateEditor.ModeEffected }).CurrentImage.width = fullLogPixelateEditor.CurrentImage.width ∧
      (PixelateEditor.ChangeImageAt true 1 1 1
        { fullLogPixelateEditor with CurrentMode := PixelateEditor.ModeEffected }).CurrentImage.height = fullLogPixelateEditor.CurrentImage.height) ∧
    PixelateEditor.ChangeImageAt true 1 1 1 { fullLogPixelateEditor with CurrentMode := PixelateEditor.ModeScroll } =
      { fullLogPixelateEditor with CurrentMode := PixelateEditor.ModeScroll } :=
  ⟨by decide, brush_update_frame fullLogPixelateEditor true 1 1 1 (by decide)⟩

/-! ### C11: the name `saveImage` writes to -/

theorem afterLast_cons (c d : Char) (rest : List Char) :
    afterLast c (d :: rest) =
      match afterLast c rest with
      | some t => some t
      | none => if d = c then some rest else none := rfl

theorem afterLast_append (c : Char) (t : List Char) :
    ∀ s : List Char, afterLast c (s ++ t) =
      match afterLast c t with
      | some u => some u
      | none => (afterLast c s).map (fun u => u ++ t)
  | [] => by
    rw [List.nil_append]
    cases afterLast c t <;> rfl
  | d :: s => by
    rw [List.cons_append, afterLast_cons, afterLast_cons, afterLast_append c t s]
    cases afterLast c t with
    | some u => rfl
    | none =>
      cases afterLast c s with
      | some v => rfl
      | none =>
        by_cases hd : d = c
        · simp only [hd, if_true, Option.map_some', Option.map_none']
        · simp only [hd, if_false, Option.map_none']

theorem fileName_append_jpg (name : QString) :
    QFileInfo.fileName (name ++ ".jpg".toList) = QFileInfo.fileName name ++ ".jpg".toList := by
  unfold QFileInfo.fileName
  rw [afterLast_append]
  have h : afterLast '/' ".jpg".toList = none := by decide
  rw [h]
  cases afterLast '/' name <;> rfl

theorem suffix_append_jpg (name : QString) :
    QFileInfo.suffix (name ++ ".jpg".toList) = "jpg".toList := by
  unfold QFileInfo.suffix
  rw [fileName_append_jpg, afterLast_append]
  have h : afterLast '.' ".jpg".toList = some "jpg".toList := by decide
  rw [h]
  rfl

theorem compareCaseInsensitiveIsZero_iff (a b : QString) :
    compareCaseInsensitiveIsZero a b = true ↔ a.map Char.toLower = b.map Char.toLower := by
  unfold compareCaseInsensitiveIsZero
  exact beq_iff_eq

theorem saveFileName_cond (s : QString) :
    ((!compareCaseInsensitiveIsZero s "png".toList) &&
      (!compareCaseInsensitiveIsZero s "jpg".toList) &&
      (!compareCaseInsensitiveIsZero s "bmp".toList)) = true ↔ ¬ isRecognisedSuffix s := by
  have e1 := compareCaseInsensitiveIsZero_iff s "png".toList
  have e2 := compareCaseInsensitiveIsZero_iff s "jpg".toList
  have e3 := compareCaseInsensitiveIsZero_iff s "bmp".toList
  have m1 : ("png".toList).map Char.toLower = "png".toList := by decide
  have m2 : ("jpg".toList).map Char.toLower = "jpg".toList := by decide
  have m3 : ("bmp".toList).map Char.toLower = "bmp".toList := by decide
  rw [m1] at e1
  rw [m2] at e2
  rw [m3] at e3
  unfold isRecognisedSuffix
  rw [← e1, ← e2, ← e3]
  generalize compareCaseInsensitiveIsZero s "png".toList = a
  generalize compareCaseInsensitiveIsZero s "jpg".toList = b
  generalize compareCaseInsensitiveIsZero s "bmp".toList = c
  cases a <;> cases b <;> cases c <;> decide

/-- The name handed to `QImage::save`, in the words of the spec. -/
theorem saveFileName_eq (name : QString) :
    saveFileName name =
      if isRecognisedSuffix (QFileInfo.suffix name) then name else name ++ ".jpg".toList := by
  unfold saveFileName
  by_cases hrec : isRecognisedSuffix (QFileInfo.suffix name)
  · rw [if_pos hrec, if_neg (fun h => (saveFileName_cond _).1 h hrec)]
  · rw [if_neg hrec, if_pos ((saveFileName_cond _).2 hrec)]

theorem saveFileName_recognised (name : QString) :
    isRecognisedSuffix (QFileInfo.suffix (saveFileName name)) := by
  rw [saveFileName_eq]
  by_cases hrec : isRecognisedSuffix (QFileInfo.suffix name)
  · rw [if_pos hrec]
    exact hrec
  · rw [if_neg hrec, suffix_append_jpg]
    exact Or.inr (Or.inl (by decide))

/-- C11: for every destination name, `saveImage` of both editors, when it reaches
`QImage::save` (the name is not null and there is a current image), hands it the given
name if the suffix of that name, the text after the last `.` of the file name, is
`png`, `jpg` or `bmp` in any mix of cases, and the given name followed by `.jpg` if
not.  So `out` is written as `out.jpg` and `out.PNG` as `out.PNG`; the written name
always has a recognised suffix, and normalising it again changes nothing. -/
theorem saveImage_name (save : QImage → QString → Bool) (name : QString)
    (pe : PixelateEditor) (re : RetouchEditor) :
    (pe.saveImage save (some name)).2 =
      (if pe.CurrentImage.isNull = true then none else some (saveFileName name)) ∧
    (re.saveImage save (some name)).2 =
      (if re.CurrentImage.isNull = true then none else some (saveFileName name)) ∧
    saveFileName name =
      (if isRecognisedSuffix (QFileInfo.suffix name) then name else name ++ ".jpg".toList) ∧
    isRecognisedSuffix (QFileInfo.suffix (saveFileName name)) ∧
    saveFileName (saveFileName name) = saveFileName name ∧
    saveFileName "out".toList = "out.jpg".toList ∧
    saveFileName "out.PNG".toList = "out.PNG".toList := by
  refine ⟨?_, ?_, saveFileName_eq name, saveFileName_recognised name, ?_, by decide, by decide⟩
  · unfold PixelateEditor.saveImage
    cases h : pe.CurrentImage.isNull
    · simp only [Bool.not_false, if_true, Bool.false_eq_true, if_false]
      split_ifs <;> rfl
    · simp only [Bool.not_true, Bool.false_eq_true, if_false, if_true]
  · unfold RetouchEditor.saveImage
    cases h : re.CurrentImage.isNull
    · simp only [Bool.not_false, if_true, Bool.false_eq_true, if_false]
      split_ifs <;> rfl
    · simp only [Bool.not_true, Bool.false_eq_true, if_false, if_true]
  · rw [saveFileName_eq (saveFileName name), if_pos (saveFileName_recognised name)]

/-! ### C12: the sampling point stays inside the image -/

theorem clampCoordinate_eq_clamp (v : Int) (size : Nat) (h : 1 ≤ size) :
    RetouchEditor.clampCoordinate v size = clamp v 0 ((size : Int) - 1) := by
  unfold RetouchEditor.clampCoordinate clamp
  simp only
  split_ifs <;> omega

theorem clampCoordinate_inside (v : Int) (size : Nat) (h : 1 ≤ size) :
    0 ≤ RetouchEditor.clampCoordinate v size ∧ RetouchEditor.clampCoordinate v size < (size : Int) := by
  unfold RetouchEditor.clampCoordinate
  simp only
  split_ifs <;> omega

theorem setPixel_size (img : QImage) (x y : Int) (rgb : QRgb) :
    (img.setPixel x y rgb).width = img.width ∧ (img.setPixel x y rgb).height = img.height := by
  unfold QImage.setPixel
  split_ifs <;> exact ⟨rfl, rfl⟩

/-- The clone loops keep the size of the image. -/
theorem cloneStamp_size (S : QPoint) (cx cy r : Int) (img : QImage) :
    (cloneStamp S cx cy r img).width = img.width ∧
    (cloneStamp S cx cy r img).height = img.height := by
  unfold cloneStamp
  have h := forLoop2_induct
    (fun _ (im : QImage) => im.width = img.width ∧ im.height = img.height)
    (S.x - r) (S.x + r) (cx - r) (cx + r) (fun from_x to_x im =>
      forLoop2 (S.y - r) (S.y + r) (cy - r) (cy + r) (fun from_y to_y im =>
        if from_x ≥ 0 ∧ from_x < (im.width : Int) ∧ from_y ≥ 0 ∧ from_y < (im.height : Int) ∧
            withinBrush (from_x - S.x) (from_y - S.y) r = true ∧
            to_x ≥ 0 ∧ to_x < (im.width : Int) ∧ to_y ≥ 0 ∧ to_y < (im.height : Int) ∧
            withinBrush (to_x - cx) (to_y - cy) r = true
        then im.setPixel to_x to_y (im.pixel from_x from_y)
        else im) im) img ⟨rfl, rfl⟩
    (by
      intro kx st _ hst
      have h2 := forLoop2_induct
        (fun _ (im : QImage) => im.width = img.width ∧ im.height = img.height)
        (S.y - r) (S.y + r) (cy - r) (cy + r) (fun from_y to_y im =>
          if S.x - r + (kx : Int) ≥ 0 ∧ S.x - r + (kx : Int) < (im.width : Int) ∧ from_y ≥ 0 ∧
              from_y < (im.height : Int) ∧
              withinBrush (S.x - r + (kx : Int) - S.x) (from_y - S.y) r = true ∧
              cx - r + (kx : Int) ≥ 0 ∧ cx - r + (kx : Int) < (im.width : Int) ∧ to_y ≥ 0 ∧
              to_y < (im.height : Int) ∧
              withinBrush (cx - r + (kx : Int) - cx) (to_y - cy) r = true
          then im.setPixel (cx - r + (kx : Int)) to_y (im.pixel (S.x - r + (kx : Int)) from_y)
          else im) st hst
        (by
          intro ky im _ him
          simp only
          split_ifs
          · exact ⟨(setPixel_size _ _ _ _).1.trans him.1, (setPixel_size _ _ _ _).2.trans him.2⟩
          · exact him)
      exact h2)
  exact h

/-- The blur branch always delivers an image, of the size of the current image. -/
theorem blurBrush_size (qt : QtImaging) (hqt : qt.KeepsSize) (G : Int) (st : RetouchEditor)
    (cx cy r : Int) :
    ∃ img : QImage, RetouchEditor.blurBrush qt G st cx cy r = some img ∧
      img.width = st.CurrentImage.width ∧ img.height = st.CurrentImage.height := by
  obtain ⟨alpha, ha⟩ := blurAlpha_some G
  unfold RetouchEditor.blurBrush
  simp only [ha]
  cases hv : st.IsLastBlurPointValid
  · simp only [Bool.false_eq_true, if_false]
    exact ⟨_, rfl, (hqt.1 _ _ _).1, (hqt.1 _ _ _).2⟩
  · simp only [if_true]
    exact ⟨_, rfl, ((hqt.2 _ _ _).1).trans (hqt.1 _ _ _).1,
      ((hqt.2 _ _ _).2).trans (hqt.1 _ _ _).2⟩

/-- A brush update of the retouch editor always delivers a state; it keeps the mode,
the sampling point with its flag, the two anchors of the stroke and the size of the
current image, and its log holds old snapshots and possibly the old current image. -/
theorem retouch_ChangeImageAt_frame (qt : QtImaging) (hqt : qt.KeepsSize) (G : Int)
    (save_undo : Bool) (cx cy r : Int) (st : RetouchEditor) :
    ∃ st' : RetouchEditor, RetouchEditor.ChangeImageAt qt G save_undo cx cy r st = some st' ∧
      st'.CurrentMode = st.CurrentMode ∧
      st'.IsSamplingPointValid = st.IsSamplingPointValid ∧
      st'.SamplingPoint = st.SamplingPoint ∧
      st'.InitialSamplingPoint = st.InitialSamplingPoint ∧
      st'.InitialTouchPoint = st.InitialTouchPoint ∧
      st'.CurrentImage.width = st.CurrentImage.width ∧
      st'.CurrentImage.height = st.CurrentImage.height ∧
      (∀ img ∈ st'.UndoStack, img ∈ st.UndoStack ∨ img = st.CurrentImage) := by
  have hst : ∀ b : Bool,
      (if b = true then st.SaveUndoImage else st).CurrentMode = st.CurrentMode ∧
      (if b = true then st.SaveUndoImage else st).IsSamplingPointValid = st.IsSamplingPointValid ∧
      (if b = true then st.SaveUndoImage else st).SamplingPoint = st.SamplingPoint ∧
      (if b = true then st.SaveUndoImage else st).InitialSamplingPoint = st.InitialSamplingPoint ∧
      (if b = true then st.SaveUndoImage else st).InitialTouchPoint = st.InitialTouchPoint ∧
      (if b = true then st.SaveUndoImage else st).CurrentImage = st.CurrentImage ∧
      (∀ img ∈ (if b = true then st.SaveUndoImage else st).UndoStack,
        img ∈ st.UndoStack ∨ img = st.CurrentImage) := by
    intro b
    cases b
    · exact ⟨rfl, rfl, rfl, rfl, rfl, rfl, fun img h => Or.inl h⟩
    · have hstack := (retouch_SaveUndoImage_stack st).trans
        (saved_stack_exact st.UndoStack st.CurrentImage)
      refine ⟨?_, ?_, ?_, ?_, ?_, ?_, ?_⟩
      · simp only [if_true, RetouchEditor.SaveUndoImage, RetouchEditor.emit]
        split_ifs <;> rfl
      · simp only [if_true, RetouchEditor.SaveUndoImage, RetouchEditor.emit]
        split_ifs <;> rfl
      · simp only [if_true, RetouchEditor.SaveUndoImage, RetouchEditor.emit]
        split_ifs <;> rfl
      · simp only [if_true, RetouchEditor.SaveUndoImage, RetouchEditor.emit]
        split_ifs <;> rfl
      · simp only [if_true, RetouchEditor.SaveUndoImage, RetouchEditor.emit]
        split_ifs <;> rfl
      · simp only [if_true, RetouchEditor.SaveUndoImage, RetouchEditor.emit]
        split_ifs <;> rfl
      · intro img himg
        rw [if_pos rfl, hstack, List.mem_append, List.mem_singleton] at himg
        rcases himg with h | h
        · exact Or.inl (List.mem_of_mem_drop h)
        · exact Or.inr h
  obtain ⟨h1, h2, h3, h4, h5, h6, h7⟩ := hst save_undo
  unfold RetouchEditor.ChangeImageAt
  by_cases hmode : st.CurrentMode = RetouchEditor.ModeClone ∨ st.CurrentMode = RetouchEditor.ModeBlur
  · rw [if_pos hmode]
    simp only [h1]
    by_cases hc : st.CurrentMode = RetouchEditor.ModeClone
    · rw [if_pos hc]
      refine ⟨_, rfl, rfl, h2, h3, h4, h5, ?_, ?_, h7⟩
      · show (cloneStamp _ cx cy r _).width = _
        rw [(cloneStamp_size _ _ _ _ _).1, h6]
      · show (cloneStamp _ cx cy r _).height = _
        rw [(cloneStamp_size _ _ _ _ _).2, h6]
    · have hb : st.CurrentMode = RetouchEditor.ModeBlur := hmode.resolve_left hc
      rw [if_neg hc, if_pos hb]
      obtain ⟨img, himg, hw, hh⟩ := blurBrush_size qt hqt G
        (if save_undo = true then st.SaveUndoImage else st) cx cy r
      rw [himg]
      exact ⟨_, rfl, rfl, h2, h3, h4, h5, hw.trans (congrArg QImage.width h6),
        hh.trans (congrArg QImage.height h6), h7⟩
  · rw [if_neg hmode]
    exact ⟨st, rfl, rfl, rfl, rfl, rfl, rfl, rfl, rfl, fun img h => Or.inl h⟩

/-- How the invariant passes from a state to the next: the current image keeps its
size, the log holds images of that size, and a valid sampling point is the old one,
which was valid, or a pixel of the image. -/
theorem retouch_inv_step (st st' : RetouchEditor) (hinv : st.Inv)
    (hw : st'.CurrentImage.width = st.CurrentImage.width)
    (hh : st'.CurrentImage.height = st.CurrentImage.height)
    (hstack : ∀ img ∈ st'.UndoStack,
      img.width = st.CurrentImage.width ∧ img.height = st.CurrentImage.height)
    (hsp : st'.IsSamplingPointValid = true → 1 ≤ st.CurrentImage.width →
      1 ≤ st.CurrentImage.height →
      (st.IsSamplingPointValid = true ∧ st'.SamplingPoint = st.SamplingPoint) ∨
      (0 ≤ st'.SamplingPoint.x ∧ st'.SamplingPoint.x < (st.CurrentImage.width : Int) ∧
        0 ≤ st'.SamplingPoint.y ∧ st'.SamplingPoint.y < (st.CurrentImage.height : Int))) :
    st'.Inv := by
  refine ⟨fun img himg => ?_, fun hv h1 h2 => ?_⟩
  · rw [hw, hh]
    exact hstack img himg
  · unfold RetouchEditor.SamplingPointInside
    rw [hw, hh]
    rw [hw] at h1
    rw [hh] at h2
    rcases hsp hv h1 h2 with ⟨hv0, hsame⟩ | hin
    · rw [hsame]
      exact hinv.2 hv0 h1 h2
    · exact hin

/-- A brush update keeps the invariant, the sampling point with its flag, the mode
and the anchors of the stroke. -/
theorem retouch_ChangeImageAt_inv (qt : QtImaging) (hqt : qt.KeepsSize) (G : Int)
    (save_undo : Bool) (cx cy r : Int) (st : RetouchEditor) (hinv : st.Inv) :
    ∃ st' : RetouchEditor, RetouchEditor.ChangeImageAt qt G save_undo cx cy r st = some st' ∧
      st'.Inv ∧ st'.SamplingPoint = st.SamplingPoint ∧
      st'.IsSamplingPointValid = st.IsSamplingPointValid ∧
      st'.CurrentImage.width = st.CurrentImage.width ∧
      st'.CurrentImage.height = st.CurrentImage.height := by
  obtain ⟨st', hrun, _, hv, hsp, _, _, hw, hh, hstack⟩ :=
    retouch_ChangeImageAt_frame qt hqt G save_undo cx cy r st
  refine ⟨st', hrun, ?_, hsp, hv, hw, hh⟩
  refine retouch_inv_step st st' hinv hw hh (fun img himg => ?_) (fun hv' _ _ => ?_)
  · rcases hstack img himg with h | h
    · exact hinv.1 img h
    · rw [h]
      exact ⟨rfl, rfl⟩
  · exact Or.inl ⟨hv ▸ hv', hsp⟩

/-- The state after an event that only emits a signal or changes a field other than
the image, the log and the sampling point. -/
theorem retouch_inv_same (st st' : RetouchEditor) (hinv : st.Inv)
    (hi : st'.CurrentImage = st.CurrentImage) (hs : st'.UndoStack = st.UndoStack)
    (hv : st'.IsSamplingPointValid = st.IsSamplingPointValid)
    (hp : st'.SamplingPoint = st.SamplingPoint) : st'.Inv := by
  refine retouch_inv_step st st' hinv (by rw [hi]) (by rw [hi]) (fun img himg => ?_)
    (fun hv' _ _ => Or.inl ⟨hv ▸ hv', hp⟩)
  rw [hs] at himg
  exact hinv.1 img himg

theorem retouch_new_inv : RetouchEditor.new.Inv := by
  refine ⟨fun img himg => ?_, fun hv _ _ => ?_⟩
  · simp [RetouchEditor.new] at himg
  · simp [RetouchEditor.new] at hv

theorem retouch_openImage_inv (read : Option QImage) (st : RetouchEditor) (hinv : st.Inv) :
    (st.openImage read).Inv := by
  unfold RetouchEditor.openImage
  cases read with
  | none => exact retouch_inv_same st _ hinv rfl rfl rfl rfl
  | some image =>
    simp only
    cases hn : image.isNull
    · simp only [Bool.not_false, if_true]
      refine ⟨fun img himg => ?_, fun hv _ _ => ?_⟩
      · simp [RetouchEditor.emit] at himg
      · simp [RetouchEditor.emit] at hv
    · simp only [Bool.not_true, Bool.false_eq_true, if_false]
      exact retouch_inv_same st _ hinv rfl rfl rfl rfl

theorem retouch_saveImage_inv (save : QImage → QString → Bool) (file_name : Option QString)
    (st : RetouchEditor) (hinv : st.Inv) : (st.saveImage save file_name).1.Inv := by
  unfold RetouchEditor.saveImage
  cases file_name with
  | none => exact retouch_inv_same st _ hinv rfl rfl rfl rfl
  | some name =>
    simp only
    split_ifs <;> exact retouch_inv_same st _ hinv rfl rfl rfl rfl

theorem retouch_undo_inv (st : RetouchEditor) (hinv : st.Inv) : st.undo.Inv := by
  rcases List.eq_nil_or_concat st.UndoStack with hnil | ⟨old, top, hsnoc⟩
  · have : st.undo = st := by
      unfold RetouchEditor.undo
      rw [hnil]
      rfl
    rw [this]
    exact hinv
  · rw [List.concat_eq_append] at hsnoc
    have hu := retouch_undo_snoc st old top hsnoc
    have htop : top ∈ st.UndoStack := by rw [hsnoc]; simp
    have hdims := hinv.1 top htop
    have hv : st.undo.IsSamplingPointValid = st.IsSamplingPointValid := by
      unfold RetouchEditor.undo
      split_ifs
      · split
        · simp only [RetouchEditor.emit]
          split_ifs <;> rfl
        · rfl
      · rfl
    have hp : st.undo.SamplingPoint = st.SamplingPoint := by
      unfold RetouchEditor.undo
      split_ifs
      · split
        · simp only [RetouchEditor.emit]
          split_ifs <;> rfl
        · rfl
      · rfl
    refine retouch_inv_step st st.undo hinv (by rw [hu.1]; exact hdims.1)
      (by rw [hu.1]; exact hdims.2) (fun img himg => ?_) (fun hv' _ _ => Or.inl ⟨hv ▸ hv', hp⟩)
    rw [hu.2] at himg
    exact hinv.1 img (by rw [hsnoc]; exact List.mem_append_left _ himg)

/-- Picking the sampling point (press or move in sampling mode) keeps the invariant. -/
theorem retouch_pick_inv (x y : Int) (st : RetouchEditor) (hinv : st.Inv) :
    RetouchEditor.Inv
      ((({ st with
        IsSamplingPointValid := true
        SamplingPoint := ⟨RetouchEditor.clampCoordinate x st.CurrentImage.width,
          RetouchEditor.clampCoordinate y st.CurrentImage.height⟩ } : RetouchEditor).emit
        .samplingPointValidChanged).emit .samplingPointChanged) := by
  refine retouch_inv_step st _ hinv rfl rfl (fun img himg => hinv.1 img himg)
    (fun _ h1 h2 => Or.inr ?_)
  have hx := clampCoordinate_inside x st.CurrentImage.width h1
  have hy := clampCoordinate_inside y st.CurrentImage.height h2
  exact ⟨hx.1, hx.2, hy.1, hy.2⟩

theorem retouch_mousePressEvent_inv (qt : QtImaging) (hqt : qt.KeepsSize) (G B x y : Int)
    (st : RetouchEditor) (hinv : st.Inv) :
    ∃ st' : RetouchEditor, st.mousePressEvent qt G B x y = some st' ∧ st'.Inv := by
  unfold RetouchEditor.mousePressEvent
  by_cases h1 : st.CurrentMode = RetouchEditor.ModeSamplingPoint
  · rw [if_pos h1]
    exact ⟨_, rfl, retouch_pick_inv x y st hinv⟩
  · rw [if_neg h1]
    by_cases h2 : st.CurrentMode = RetouchEditor.ModeClone
    · rw [if_pos h2]
      by_cases hv : st.IsSamplingPointValid = true
      · have hinv2 : RetouchEditor.Inv { st with
            InitialSamplingPoint := ⟨st.SamplingPoint.x, st.SamplingPoint.y⟩
            InitialTouchPoint := ⟨x, y⟩ } := retouch_inv_same st _ hinv rfl rfl rfl rfl
        obtain ⟨st3, hrun, hinv3, _⟩ := retouch_ChangeImageAt_inv qt hqt G true x y B _ hinv2
        rw [if_pos hv]
        simp only
        rw [hrun]
        exact ⟨_, rfl, retouch_inv_same st3 _ hinv3 rfl rfl rfl rfl⟩
      · rw [if_neg hv]
        exact ⟨st, rfl, hinv⟩
    · rw [if_neg h2]
      by_cases h3 : st.CurrentMode = RetouchEditor.ModeBlur
      · rw [if_pos h3]
        obtain ⟨st3, hrun, hinv3, _⟩ := retouch_ChangeImageAt_inv qt hqt G true x y B st hinv
        rw [hrun]
        exact ⟨_, rfl, retouch_inv_same st3 _ hinv3 rfl rfl rfl rfl⟩
      · rw [if_neg h3]
        exact ⟨st, rfl, hinv⟩

/-- A move in clone mode with a valid sampling point: the event delivers a state, in
which the sampling point is the clamped sum and the invariant holds. -/
theorem retouch_clone_move (qt : QtImaging) (hqt : qt.KeepsSize) (G B x y : Int)
    (st : RetouchEditor) (hinv : st.Inv) (hmode : st.CurrentMode = RetouchEditor.ModeClone)
    (hv : st.IsSamplingPointValid = true) :
    ∃ st' : RetouchEditor, st.mouseMoveEvent qt G B x y = some st' ∧ st'.Inv ∧
      st'.SamplingPoint =
        ⟨RetouchEditor.clampCoordinate (st.InitialSamplingPoint.x + (x - st.InitialTouchPoint.x))
            st.CurrentImage.width,
          RetouchEditor.clampCoordinate (st.InitialSamplingPoint.y + (y - st.InitialTouchPoint.y))
            st.CurrentImage.height⟩ ∧
      st'.CurrentImage.width = st.CurrentImage.width ∧
      st'.CurrentImage.height = st.CurrentImage.height := by
  have h1 : ¬ st.CurrentMode = RetouchEditor.ModeSamplingPoint := by
    rw [hmode]
    decide
  have hinv2 : RetouchEditor.Inv (({ st with
      SamplingPoint :=
        ⟨RetouchEditor.clampCoordinate (st.InitialSamplingPoint.x + (x - st.InitialTouchPoint.x))
            st.CurrentImage.width,
          RetouchEditor.clampCoordinate (st.InitialSamplingPoint.y + (y - st.InitialTouchPoint.y))
            st.CurrentImage.height⟩ } : RetouchEditor).emit .samplingPointChanged) := by
    refine retouch_inv_step st _ hinv rfl rfl (fun img himg => hinv.1 img himg)
      (fun _ h1 h2 => Or.inr ?_)
    have hx := clampCoordinate_inside (st.InitialSamplingPoint.x + (x - st.InitialTouchPoint.x))
      st.CurrentImage.width h1
    have hy := clampCoordinate_inside (st.InitialSamplingPoint.y + (y - st.InitialTouchPoint.y))
      st.CurrentImage.height h2
    exact ⟨hx.1, hx.2, hy.1, hy.2⟩
  obtain ⟨st3, hrun, hinv3, hsp, _, hw, hh⟩ :=
    retouch_ChangeImageAt_inv qt hqt G false x y B _ hinv2
  unfold RetouchEditor.mouseMoveEvent
  rw [if_neg h1, if_pos hmode, if_pos hv]
  simp only
  rw [hrun]
  exact ⟨_, rfl, retouch_inv_same st3 _ hinv3 rfl rfl rfl rfl, hsp, hw, hh⟩

theorem retouch_mouseMoveEvent_inv (qt : QtImaging) (hqt : qt.KeepsSize) (G B x y : Int)
    (st : RetouchEditor) (hinv : st.Inv) :
    ∃ st' : RetouchEditor, st.mouseMoveEvent qt G B x y = some st' ∧ st'.Inv := by
  by_cases h2 : st.CurrentMode = RetouchEditor.ModeClone
  · by_cases hv : st.IsSamplingPointValid = true
    · obtain ⟨st', hrun, hinv', _⟩ := retouch_clone_move qt hqt G B x y st hinv h2 hv
      exact ⟨st', hrun, hinv'⟩
    · have h1 : ¬ st.CurrentMode = RetouchEditor.ModeSamplingPoint := by
        rw [h2]
        decide
      unfold RetouchEditor.mouseMoveEvent
      rw [if_neg h1, if_pos h2, if_neg hv]
      exact ⟨st, rfl, hinv⟩
  · unfold RetouchEditor.mouseMoveEvent
    by_cases h1 : st.CurrentMode = RetouchEditor.ModeSamplingPoint
    · rw [if_pos h1]
      exact ⟨_, rfl, retouch_pick_inv x y st hinv⟩
    · rw [if_neg h1, if_neg h2]
      by_cases h3 : st.CurrentMode = RetouchEditor.ModeBlur
      · rw [if_pos h3]
        obtain ⟨st3, hrun, hinv3, _⟩ := retouch_ChangeImageAt_inv qt hqt G false x y B st hinv
        rw [hrun]
        exact ⟨_, rfl, retouch_inv_same st3 _ hinv3 rfl rfl rfl rfl⟩
      · rw [if_neg h3]
        exact ⟨st, rfl, hinv⟩

theorem retouch_mouseReleaseEvent_inv (x y : Int) (st : RetouchEditor) (hinv : st.Inv) :
    (st.mouseReleaseEvent x y).Inv := by
  unfold RetouchEditor.mouseReleaseEvent
  split_ifs
  · exact retouch_inv_same st _ hinv rfl rfl rfl rfl
  · exact retouch_inv_same st _ hinv rfl rfl rfl rfl
  · exact hinv

/-- Every event can happen and keeps the invariant. -/
theorem retouch_step_inv (qt : QtImaging) (hqt : qt.KeepsSize) (G B : Int)
    (save : QImage → QString → Bool) (st : RetouchEditor) (hinv : st.Inv)
    (e : RetouchEditor.Event) :
    ∃ st' : RetouchEditor, st.step qt G B save e = some st' ∧ st'.Inv := by
  cases e with
  | setMode mode => exact ⟨_, rfl, retouch_inv_same st _ hinv rfl rfl rfl rfl⟩
  | setHelperSize size => exact ⟨_, rfl, retouch_inv_same st _ hinv rfl rfl rfl rfl⟩
  | openImage read => exact ⟨_, rfl, retouch_openImage_inv read st hinv⟩
  | saveImage file_name => exact ⟨_, rfl, retouch_saveImage_inv save file_name st hinv⟩
  | undo => exact ⟨_, rfl, retouch_undo_inv st hinv⟩
  | mousePress x y => exact retouch_mousePressEvent_inv qt hqt G B x y st hinv
  | mouseMove x y => exact retouch_mouseMoveEvent_inv qt hqt G B x y st hinv
  | mouseRelease x y => exact ⟨_, rfl, retouch_mouseReleaseEvent_inv x y st hinv⟩

/-- Every sequence of events can happen and keeps the invariant. -/
theorem retouch_run_inv (qt : QtImaging) (hqt : qt.KeepsSize) (G B : Int)
    (save : QImage → QString → Bool) :
    ∀ (events : List RetouchEditor.Event) (st : RetouchEditor), st.Inv →
      ∃ st' : RetouchEditor, st.run qt G B save events = some st' ∧ st'.Inv
  | [], st, hinv => ⟨st, rfl, hinv⟩
  | e :: es, st, hinv => by
    obtain ⟨st1, h1, hinv1⟩ := retouch_step_inv qt hqt G B save st hinv e
    obtain ⟨st2, h2, hinv2⟩ := retouch_run_inv qt hqt G B save es st1 hinv1
    refine ⟨st2, ?_, hinv2⟩
    rw [RetouchEditor.run, h1]
    exact h2

/-- C12: the view showing the image at scale 1, the pointer on whole pixels, and Qt's
painter keeping the size of the image it paints on.  For every state with a current
image of at least 1 x 1 pixels, a move event in clone mode with a valid sampling point
is carried out and leaves `SamplingPoint.x = clamp (InitialSamplingPoint.x + (touch.x -
InitialTouchPoint.x)) 0 (width - 1)`, the same for `y` with the height, hence a
sampling point inside the current image.  And every sequence of events (mode and
helper size set, images opened and saved, undo, pointer pressed, moved, released) on
a new editor is carried out and ends in a state where, if the sampling point is valid
and the current image has at least 1 x 1 pixels, the sampling point is a pixel of the
current image.  (With no image loaded a pick gives the valid point `(0, 0)`.) -/
theorem sampling_point_clamped (qt : QtImaging) (G B : Int)
    (save : QImage → QString → Bool) (hqt : qt.KeepsSize) :
    (∀ (st : RetouchEditor) (x y : Int), st.CurrentMode = RetouchEditor.ModeClone →
      st.IsSamplingPointValid = true → 1 ≤ st.CurrentImage.width → 1 ≤ st.CurrentImage.height →
      ∃ st' : RetouchEditor, st.mouseMoveEvent qt G B x y = some st' ∧
        st'.SamplingPoint.x =
          clamp (st.InitialSamplingPoint.x + (x - st.InitialTouchPoint.x)) 0
            ((st.CurrentImage.width : Int) - 1) ∧
        st'.SamplingPoint.y =
          clamp (st.InitialSamplingPoint.y + (y - st.InitialTouchPoint.y)) 0
            ((st.CurrentImage.height : Int) - 1) ∧
        st'.SamplingPointInside) ∧
    (∀ events : List RetouchEditor.Event,
      ∃ st : RetouchEditor, RetouchEditor.new.run qt G B save events = some st ∧
        (st.IsSamplingPointValid = true → 1 ≤ st.CurrentImage.width →
          1 ≤ st.CurrentImage.height → st.SamplingPointInside)) := by
  refine ⟨fun st x y hmode hv hw1 hh1 => ?_, fun events => ?_⟩
  · have h1 : ¬ st.CurrentMode = RetouchEditor.ModeSamplingPoint := by
      rw [hmode]
      decide
    obtain ⟨st3, hrun, _, _, hsp, _, _, hw, hh, _⟩ :=
      retouch_ChangeImageAt_frame qt hqt G false x y B
        (({ st with
          SamplingPoint :=
            ⟨RetouchEditor.clampCoordinate
                (st.InitialSamplingPoint.x + (x - st.InitialTouchPoint.x)) st.CurrentImage.width,
              RetouchEditor.clampCoordinate
                (st.InitialSamplingPoint.y + (y - st.InitialTouchPoint.y))
                st.CurrentImage.height⟩ } : RetouchEditor).emit .samplingPointChanged)
    have hx := clampCoordinate_inside (st.InitialSamplingPoint.x + (x - st.InitialTouchPoint.x))
      st.CurrentImage.width hw1
    have hy := clampCoordinate_inside (st.InitialSamplingPoint.y + (y - st.InitialTouchPoint.y))
      st.CurrentImage.height hh1
    have hspx : st3.SamplingPoint.x = RetouchEditor.clampCoordinate
        (st.InitialSamplingPoint.x + (x - st.InitialTouchPoint.x)) st.CurrentImage.width := by
      rw [hsp]
      rfl
    have hspy : st3.SamplingPoint.y = RetouchEditor.clampCoordinate
        (st.InitialSamplingPoint.y + (y - st.InitialTouchPoint.y)) st.CurrentImage.height := by
      rw [hsp]
      rfl
    have hw3 : st3.CurrentImage.width = st.CurrentImage.width := hw
    have hh3 : st3.CurrentImage.height = st.CurrentImage.height := hh
    unfold RetouchEditor.mouseMoveEvent
    rw [if_neg h1, if_pos hmode, if_pos hv]
    simp only
    rw [hrun]
    refine ⟨_, rfl, ?_, ?_, ?_⟩
    · exact hspx.trans (clampCoordinate_eq_clamp _ _ hw1)
    · exact hspy.trans (clampCoordinate_eq_clamp _ _ hh1)
    · show 0 ≤ st3.SamplingPoint.x ∧ st3.SamplingPoint.x < (st3.CurrentImage.width : Int) ∧
        0 ≤ st3.SamplingPoint.y ∧ st3.SamplingPoint.y < (st3.CurrentImage.height : Int)
      rw [hspx, hspy, hw3, hh3]
      exact ⟨hx.1, hx.2, hy.1, hy.2⟩
  · obtain ⟨st, hrun, hinv⟩ :=
      retouch_run_inv qt hqt G B save events RetouchEditor.new retouch_new_inv
    exact ⟨st, hrun, hinv.2⟩

/-- C12 with the simple Qt services, `GAUSSIAN_RADIUS = 5` and `BRUSH_SIZE = 16`. -/
theorem sampling_point_clamped_witness :
    plainQt.KeepsSize ∧
    (∀ (st : RetouchEditor) (x y : Int), st.CurrentMode = RetouchEditor.ModeClone →
      st.IsSamplingPointValid = true → 1 ≤ st.CurrentImage.width → 1 ≤ st.CurrentImage.height →
      ∃ st' : RetouchEditor, st.mouseMoveEvent plainQt 5 16 x y = some st' ∧
        st'.SamplingPoint.x =
          clamp (st.InitialSamplingPoint.x + (x - st.InitialTouchPoint.x)) 0
            ((st.CurrentImage.width : Int) - 1) ∧
        st'.SamplingPoint.y =
          clamp (st.InitialSamplingPoint.y + (y - st.InitialTouchPoint.y)) 0
            ((st.CurrentImage.height : Int) - 1) ∧
        st'.SamplingPointInside) ∧
    (∀ events : List RetouchEditor.Event,
      ∃ st : RetouchEditor, RetouchEditor.new.run plainQt 5 16 (fun _ _ => true) events = some st ∧
        (st.IsSamplingPointValid = true → 1 ≤ st.CurrentImage.width →
          1 ≤ st.CurrentImage.height → st.SamplingPointInside)) :=
  ⟨⟨fun _ _ _ => ⟨rfl, rfl⟩, fun _ _ _ => ⟨rfl, rfl⟩⟩,
    sampling_point_clamped plainQt 5 16 (fun _ _ => true)
      ⟨fun _ _ _ => ⟨rfl, rfl⟩, fun _ _ _ => ⟨rfl, rfl⟩⟩⟩

/-! ### C19: the blur stays between the minimum and the maximum -/

/-- The quotient `t / 16` of C++, which truncates, lies between 0 and `t / 16`. -/
theorem tdiv16_between (t : Int) :
    (0 ≤ t → 0 ≤ Int.tdiv t 16 ∧ 16 * Int.tdiv t 16 ≤ t) ∧
    (t ≤ 0 → Int.tdiv t 16 ≤ 0 ∧ t ≤ 16 * Int.tdiv t 16) := by
  constructor
  · intro h
    rw [Int.tdiv_eq_ediv h (by decide)]
    omega
  · intro h
    have e : Int.tdiv t 16 = -(Int.tdiv (-t) 16) := by
      rw [Int.neg_tdiv]
      simp
    rw [e, Int.tdiv_eq_ediv (by omega) (by decide)]
    omega

/-- One step of the recurrence keeps the accumulator between `16 * lo` and `16 * hi`
when the sample lies between `lo` and `hi` and the coefficient between 0 and 16. -/
theorem ema_step_bounds (alpha acc : Int) (v lo hi : Nat) (ha0 : 0 ≤ alpha) (ha16 : alpha ≤ 16)
    (h1 : 16 * (lo : Int) ≤ acc) (h2 : acc ≤ 16 * (hi : Int)) (hv1 : lo ≤ v) (hv2 : v ≤ hi) :
    16 * (lo : Int) ≤ acc + Int.tdiv ((((v : Int) * 16) - acc) * alpha) 16 ∧
    acc + Int.tdiv ((((v : Int) * 16) - acc) * alpha) 16 ≤ 16 * (hi : Int) := by
  have hb := tdiv16_between ((((v : Int) * 16) - acc) * alpha)
  by_cases hd : 0 ≤ (v : Int) * 16 - acc
  · have ht0 : 0 ≤ ((v : Int) * 16 - acc) * alpha := mul_nonneg hd ha0
    have ht1 : ((v : Int) * 16 - acc) * alpha ≤ ((v : Int) * 16 - acc) * 16 :=
      mul_le_mul_of_nonneg_left ha16 hd
    obtain ⟨q0, q1⟩ := hb.1 ht0
    omega
  · have hd' : (v : Int) * 16 - acc ≤ 0 := by omega
    have ht0 : ((v : Int) * 16 - acc) * alpha ≤ 0 := mul_nonpos_of_nonpos_of_nonneg hd' ha0
    have ht1 : ((v : Int) * 16 - acc) * 16 ≤ ((v : Int) * 16 - acc) * alpha :=
      mul_le_mul_of_nonpos_left ha16 hd'
    obtain ⟨q0, q1⟩ := hb.2 ht0
    omega

/-- An accumulator between `16 * lo` and `16 * hi ≤ 16 * 255` is stored back as the
byte `acc >> 4` itself, which lies between `lo` and `hi`. -/
theorem shift_bounds (acc : Int) (lo hi : Nat) (h1 : 16 * (lo : Int) ≤ acc)
    (h2 : acc ≤ 16 * (hi : Int)) (hhi : hi ≤ 255) :
    lo ≤ ((acc >>> (4 : Nat)) % 256).toNat ∧ ((acc >>> (4 : Nat)) % 256).toNat ≤ hi ∧
    ((((acc >>> (4 : Nat)) % 256).toNat : Nat) : Int) = acc >>> (4 : Nat) := by
  rw [Int.shiftRight_eq_div_pow]
  norm_num
  omega

theorem emaAcc_bounds (alpha : Int) (sample : Nat → Nat) (lo hi : Nat) (ha0 : 0 ≤ alpha)
    (ha16 : alpha ≤ 16) :
    ∀ n : Nat, (∀ j : Nat, j ≤ n → lo ≤ sample j ∧ sample j ≤ hi) →
      16 * (lo : Int) ≤ emaAcc alpha sample n ∧ emaAcc alpha sample n ≤ 16 * (hi : Int)
  | 0, h => by
    have h0 := h 0 le_rfl
    rw [emaAcc]
    omega
  | n + 1, h => by
    have ih := emaAcc_bounds alpha sample lo hi ha0 ha16 n (fun j hj => h j (by omega))
    have hn := h (n + 1) le_rfl
    rw [emaAcc]
    exact ema_step_bounds alpha _ _ lo hi ha0 ha16 ih.1 ih.2 hn.1 hn.2

theorem emaOut_bounds (alpha : Int) (sample : Nat → Nat) (lo hi : Nat) (ha0 : 0 ≤ alpha)
    (ha16 : alpha ≤ 16) (hhi : hi ≤ 255) (n : Nat)
    (h : ∀ j : Nat, j ≤ n → lo ≤ sample j ∧ sample j ≤ hi) :
    lo ≤ emaOut alpha sample n ∧ emaOut alpha sample n ≤ hi := by
  cases n with
  | zero => exact h 0 le_rfl
  | succ n =>
    have hacc := emaAcc_bounds alpha sample lo hi ha0 ha16 (n + 1) h
    have hs := shift_bounds _ lo hi hacc.1 hacc.2 hhi
    rw [emaOut]
    exact ⟨hs.1, hs.2.1⟩

theorem specTopToBottom_within (alpha : Int) (b : BlurImage) (k : Int) (lo hi : Nat)
    (ha0 : 0 ≤ alpha) (ha16 : alpha ≤ 16) (hhi : hi ≤ 255) (hb : b.ChannelWithin k lo hi) :
    (specTopToBottom alpha b).ChannelWithin k lo hi := by
  intro r c hin
  have hin' : b.inside r c k = true := hin
  simp only [specTopToBottom]
  rw [if_pos hin']
  refine emaOut_bounds alpha _ lo hi ha0 ha16 hhi _ fun j hj => hb _ _ ?_
  simp only [BlurImage.inside, decide_eq_true_eq] at hin' ⊢
  omega

theorem specLeftToRight_within (alpha : Int) (b : BlurImage) (k : Int) (lo hi : Nat)
    (ha0 : 0 ≤ alpha) (ha16 : alpha ≤ 16) (hhi : hi ≤ 255) (hb : b.ChannelWithin k lo hi) :
    (specLeftToRight alpha b).ChannelWithin k lo hi := by
  intro r c hin
  have hin' : b.inside r c k = true := hin
  simp only [specLeftToRight]
  rw [if_pos hin']
  refine emaOut_bounds alpha _ lo hi ha0 ha16 hhi _ fun j hj => hb _ _ ?_
  simp only [BlurImage.inside, decide_eq_true_eq] at hin' ⊢
  omega

theorem specBottomToTop_within (alpha : Int) (b : BlurImage) (k : Int) (lo hi : Nat)
    (ha0 : 0 ≤ alpha) (ha16 : alpha ≤ 16) (hhi : hi ≤ 255) (hb : b.ChannelWithin k lo hi) :
    (specBottomToTop alpha b).ChannelWithin k lo hi := by
  intro r c hin
  have hin' : b.inside r c k = true := hin
  simp only [specBottomToTop]
  rw [if_pos hin']
  refine emaOut_bounds alpha _ lo hi ha0 ha16 hhi _ fun j hj => hb _ _ ?_
  simp only [BlurImage.inside, decide_eq_true_eq] at hin' ⊢
  omega

theorem specRightToLeft_within (alpha : Int) (b : BlurImage) (k : Int) (lo hi : Nat)
    (ha0 : 0 ≤ alpha) (ha16 : alpha ≤ 16) (hhi : hi ≤ 255) (hb : b.ChannelWithin k lo hi) :
    (specRightToLeft alpha b).ChannelWithin k lo hi := by
  intro r c hin
  have hin' : b.inside r c k = true := hin
  simp only [specRightToLeft]
  rw [if_pos hin']
  refine emaOut_bounds alpha _ lo hi ha0 ha16 hhi _ fun j hj => hb _ _ ?_
  simp only [BlurImage.inside, decide_eq_true_eq] at hin' ⊢
  omega

/-- The bytes the four loop nests leave are those of the four passes composed. -/
theorem blurPasses_byte (alpha : Int) (b : BlurImage) :
    (blurPasses alpha b).byte =
      (specRightToLeft alpha (specBottomToTop alpha (specLeftToRight alpha
        (specTopToBottom alpha b)))).byte := by
  have h1 := blurLoop1_spec alpha b ⟨b.byte, fun _ => 0, 0, 0⟩ rfl
  have h2 := blurLoop2_spec alpha (specTopToBottom alpha b) _ h1
  have h3 := blurLoop3_spec alpha (specLeftToRight alpha (specTopToBottom alpha b)) _ h2
  have h4 := blurLoop4_spec alpha
    (specBottomToTop alpha (specLeftToRight alpha (specTopToBottom alpha b))) _ h3
  exact h4

/-- The blur leaves alone every byte that is not a channel of a pixel of the image. -/
theorem blurPasses_outside (alpha : Int) (b : BlurImage) (r c k : Int)
    (h : ¬ b.inside r c k = true) : (blurPasses alpha b).byte r c k = b.byte r c k := by
  rw [blurPasses_byte]
  have h4 : ¬ (specBottomToTop alpha (specLeftToRight alpha
      (specTopToBottom alpha b))).inside r c k = true := h
  have h3 : ¬ (specLeftToRight alpha (specTopToBottom alpha b)).inside r c k = true := h
  have h2 : ¬ (specTopToBottom alpha b).inside r c k = true := h
  simp only [specRightToLeft]
  rw [if_neg h4]
  simp only [specBottomToTop]
  rw [if_neg h3]
  simp only [specLeftToRight]
  rw [if_neg h2]
  simp only [specTopToBottom]
  rw [if_neg h]

/-- The blur keeps every channel between the bounds of that channel over the input. -/
theorem blurPasses_within (alpha : Int) (b : BlurImage) (k : Int) (lo hi : Nat)
    (ha0 : 0 ≤ alpha) (ha16 : alpha ≤ 16) (hbytes : b.IsBytes) (hb : b.ChannelWithin k lo hi) :
    (blurPasses alpha b).ChannelWithin k lo hi := by
  have hb' : b.ChannelWithin k lo (min hi 255) := by
    intro r c hin
    have h1 := hb r c hin
    have h2 := hbytes r c k
    exact ⟨h1.1, by omega⟩
  have hhi : min hi 255 ≤ 255 := by omega
  have h1 := specTopToBottom_within alpha b k lo _ ha0 ha16 hhi hb'
  have h2 := specLeftToRight_within alpha _ k lo _ ha0 ha16 hhi h1
  have h3 := specBottomToTop_within alpha _ k lo _ ha0 ha16 hhi h2
  have h4 := specRightToLeft_within alpha _ k lo _ ha0 ha16 hhi h3
  intro r c hin
  have hin4 : (specRightToLeft alpha (specBottomToTop alpha (specLeftToRight alpha
      (specTopToBottom alpha b)))).inside r c k = true := hin
  have h5 := h4 r c hin4
  rw [blurPasses_byte]
  exact ⟨h5.1, by omega⟩

/-- C19: for every working image (its values are bytes) and every coefficient `alpha`
from 1 to 16.  (1) Whenever `lo` is at most and `hi` at least every byte of channel `k`
of the input, as its minimum and its maximum are, every byte of channel `k` of the
output of the four-pass blur lies between `lo` and `hi`.  (2) The accumulator of a
channel whose byte lies between `lo` and `hi ≤ 255` is seeded between `16 * lo` and
`16 * hi`, and a smoothing step that finds it there leaves it there and stores back the
byte `acc >> 4` itself, with nothing cut off, between `lo` and `hi`.  (3) An image each
of whose channels holds one value only is left unchanged. -/
theorem blur_stays_in_range (alpha : Int) (b : BlurImage) (ha1 : 1 ≤ alpha)
    (ha16 : alpha ≤ 16) (hbytes : b.IsBytes) :
    (∀ (k : Int) (lo hi : Nat), b.ChannelWithin k lo hi →
      (blurPasses alpha b).ChannelWithin k lo hi) ∧
    (∀ (st : BlurState) (k : Int) (lo hi : Nat), 0 ≤ k → k < 4 → hi ≤ 255 →
      lo ≤ st.byte st.row st.col k → st.byte st.row st.col k ≤ hi →
      (16 * (lo : Int) ≤ st.seed.rgba k ∧ st.seed.rgba k ≤ 16 * (hi : Int)) ∧
      (16 * (lo : Int) ≤ st.rgba k → st.rgba k ≤ 16 * (hi : Int) →
        16 * (lo : Int) ≤ (st.smooth alpha).rgba k ∧ (st.smooth alpha).rgba k ≤ 16 * (hi : Int) ∧
        (((st.smooth alpha).byte st.row st.col k : Nat) : Int) =
          (st.smooth alpha).rgba k >>> (4 : Nat) ∧
        lo ≤ (st.smooth alpha).byte st.row st.col k ∧
        (st.smooth alpha).byte st.row st.col k ≤ hi)) ∧
    ((∀ k : Int, ∃ v : Nat, b.ChannelWithin k v v) → blurPasses alpha b = b) := by
  have ha0 : 0 ≤ alpha := by omega
  refine ⟨fun k lo hi hb => blurPasses_within alpha b k lo hi ha0 ha16 hbytes hb,
    fun st k lo hi hk0 hk4 hhi hv1 hv2 => ⟨?_, fun hacc1 hacc2 => ?_⟩, fun hconst => ?_⟩
  · rw [(BlurState.seed_spec st).2.2.2 k hk0 hk4]
    omega
  · obtain ⟨_, _, hr, hbt, _⟩ := BlurState.smooth_spec alpha st
    have hstep := ema_step_bounds alpha (st.rgba k) (st.byte st.row st.col k) lo hi ha0 ha16
      hacc1 hacc2 hv1 hv2
    have hs := shift_bounds _ lo hi hstep.1 hstep.2 hhi
    rw [hr k hk0 hk4, hbt k hk0 hk4]
    exact ⟨hstep.1, hstep.2, hs.2.2, hs.1, hs.2.1⟩
  · have hbyte : (blurPasses alpha b).byte = b.byte := by
      funext r c k
      by_cases hin : b.inside r c k = true
      · obtain ⟨v, hv⟩ := hconst k
        have h1 := blurPasses_within alpha b k v v ha0 ha16 hbytes hv r c hin
        have h2 := hv r c hin
        omega
      · exact blurPasses_outside alpha b r c k hin
    show BlurImage.mk b.width b.height _ = b
    have e : b = BlurImage.mk b.width b.height b.byte := rfl
    rw [e]
    exact congrArg (BlurImage.mk b.width b.height) hbyte

/-- C19 at the 3 x 2 working image with coefficient 8. -/
theorem blur_stays_in_range_witness :
    (1 : Int) ≤ 8 ∧ (8 : Int) ≤ 16 ∧ sampleBlurImage.IsBytes ∧
    ((∀ (k : Int) (lo hi : Nat), sampleBlurImage.ChannelWithin k lo hi →
      (blurPasses 8 sampleBlurImage).ChannelWithin k lo hi) ∧
    (∀ (st : BlurState) (k : Int) (lo hi : Nat), 0 ≤ k → k < 4 → hi ≤ 255 →
      lo ≤ st.byte st.row st.col k → st.byte st.row st.col k ≤ hi →
      (16 * (lo : Int) ≤ st.seed.rgba k ∧ st.seed.rgba k ≤ 16 * (hi : Int)) ∧
      (16 * (lo : Int) ≤ st.rgba k → st.rgba k ≤ 16 * (hi : Int) →
        16 * (lo : Int) ≤ (st.smooth 8).rgba k ∧ (st.smooth 8).rgba k ≤ 16 * (hi : Int) ∧
        (((st.smooth 8).byte st.row st.col k : Nat) : Int) =
          (st.smooth 8).rgba k >>> (4 : Nat) ∧
        lo ≤ (st.smooth 8).byte st.row st.col k ∧
        (st.smooth 8).byte st.row st.col k ≤ hi)) ∧
    ((∀ k : Int, ∃ v : Nat, sampleBlurImage.ChannelWithin k v v) → blurPasses 8 sampleBlurImage = sampleBlurImage)) :=
  ⟨by decide, by decide, fun r c k => by simp only [sampleBlurImage]; omega,
    blur_stays_in_range 8 sampleBlurImage (by decide) (by decide)
      (fun r c k => by simp only [sampleBlurImage]; omega)⟩

/-! ### C16: the length of the undo log after a push -/

theorem retouchSession_isSome :
    (RetouchEditor.new.run plainQt 5 16 (fun _ _ => true) retouchSession).isSome = true := rfl

/-- The two sessions end with logs at capacity. -/
theorem sessions_fill_the_log :
    ((PixelateEditor.new.run (fun _ _ => true) pixelateSession).map
      fun st => st.UndoStack.length) = some UNDO_DEPTH ∧
    ((RetouchEditor.new.run plainQt 5 16 (fun _ _ => true) retouchSession).map
      fun st => st.UndoStack.length) = some UNDO_DEPTH :=
  ⟨rfl, rfl⟩

end MagicPhotos
